import Mathlib

/-!
# Smart Finance Manager: a verification development

A shallow embedding of `main.cpp` (classes `Transaction` and `FinanceManager`)
and theorems about the ledger operations.

Modelling conventions.
* Amounts are modelled twice. Where a statement is about the amounts as exact
  numbers (balances, totals, the round trip of amounts of six digits), a
  `double` is the rational number it stands for (`ℚ`) and sums are exact. Where
  a statement depends on what a `double` can be, the class members are
  embedded again in the namespace `Ieee` over the values of a `double`:
  negative zero, the infinities and NaN with the comparisons of the language,
  and the rounding and range check of `operator>>`.
* `vector<unique_ptr<Transaction>>` is a `List Transaction`; `push_back`
  appends at the end.
* A member function that may throw is a function to `Outcome`, which carries
  the ledger as it stands when the call returns or the exception leaves it.
* `std::sort` is a parameter of `sortByAmount`, constrained by the contract the
  C++ standard gives it (`StdSort`); the GNU implementation is modelled as well
  (`gnuSort`) and proved to meet that contract.
* `std::map<string, double>` is the list of its entries in ascending key order.
* The file `finance.txt` is its content, a list of characters; a file that
  cannot be opened is `none`. The stream operators follow the classic locale
  and the default format flags: `operator<<` writes a `double` with six
  significant digits (`%g`), and `operator>>` reads whitespace-separated fields.
-/

namespace Finance

/-! ## Data model -/

/-- The `enum class Type` of the source (`Type` is reserved in Lean). -/
inductive TransactionType where
  | Income
  | Expense
  deriving DecidableEq, Repr

/-- The data members of `class Transaction`. -/
structure Transaction where
  category : String
  amount : ℚ
  type : TransactionType
  deriving DecidableEq, Repr

/-- The text carried by the `invalid_argument` the constructor throws. -/
def negativeAmountMessage : String := "Amount cannot be negative!"

/-- The constructor `Transaction::Transaction(category, amount, type)`: throws
`invalid_argument` when `amount < 0`, otherwise stores the three arguments. -/
def Transaction.ctor (category : String) (amount : ℚ) (type : TransactionType) :
    Except String Transaction :=
  if amount < 0 then
    Except.error negativeAmountMessage
  else
    Except.ok { category := category, amount := amount, type := type }

/-- The accessor `getAmount()`. -/
def Transaction.getAmount (t : Transaction) : ℚ := t.amount

/-- The accessor `getCategory()`. -/
def Transaction.getCategory (t : Transaction) : String := t.category

/-- The accessor `getType()`. -/
def Transaction.getType (t : Transaction) : TransactionType := t.type

/-- The data member of `class FinanceManager`: the stored sequence. -/
structure FinanceManager where
  transactions : List Transaction
  deriving DecidableEq, Repr

/-- How a call of a member function ends: it returns (`ok`) or an exception
with text `what` leaves it (`threw`); either way `s` is the ledger at that
moment. -/
inductive Outcome where
  | ok (s : FinanceManager)
  | threw (what : String) (s : FinanceManager)
  deriving DecidableEq, Repr

/-- The ledger of a freshly constructed `FinanceManager`. -/
def FinanceManager.empty : FinanceManager := { transactions := [] }

/-! ## In-memory operations -/

/-- The member `addTransaction`: the argument `make_unique<Transaction>(...)` is
evaluated first, so a throwing constructor leaves before `push_back` runs. -/
def FinanceManager.addTransaction (m : FinanceManager) (category : String) (amount : ℚ)
    (type : TransactionType) : Outcome :=
  match Transaction.ctor category amount type with
  | Except.error what => Outcome.threw what m
  | Except.ok t => Outcome.ok { transactions := m.transactions ++ [t] }

/-- One iteration of the loop of `calculateBalance`. -/
def balanceStep (balance : ℚ) (t : Transaction) : ℚ :=
  if t.getType = TransactionType.Income then balance + t.getAmount
  else balance - t.getAmount

/-- The member `calculateBalance`: `balance` starts at `0` and the loop runs
over the stored sequence from front to back. -/
def FinanceManager.calculateBalance (m : FinanceManager) : ℚ :=
  m.transactions.foldl balanceStep 0

/-- Reference definition of the balance, after the specification: the sum of
the Income amounts minus the sum of the Expense amounts. -/
def balanceSpec (l : List Transaction) : ℚ :=
  ((l.filter (fun t => t.type = TransactionType.Income)).map Transaction.amount).sum
    - ((l.filter (fun t => t.type = TransactionType.Expense)).map Transaction.amount).sum

/-! ## Sorting

`sortByAmount` calls the library routine `std::sort` with a comparator. The
routine is not part of the program: it is a parameter of the embedding,
constrained by the contract the C++ standard gives it. -/

/-- An implementation of `std::sort` at element type `Transaction`: from the
comparator and the range before the call to the range after it. -/
abbrev SortImpl := (Transaction → Transaction → Bool) → List Transaction → List Transaction

/-- The requirement `std::sort` puts on its comparator: a strict weak ordering
(irreflexive, transitive, with transitive incomparability). -/
def StrictWeakOrdering {α : Type} (comp : α → α → Bool) : Prop :=
  (∀ a, comp a a = false)
  ∧ (∀ a b c, comp a b = true → comp b c = true → comp a c = true)
  ∧ (∀ a b c, comp a b = false → comp b a = false → comp b c = false → comp c b = false →
      comp a c = false ∧ comp c a = false)

/-- The contract of `std::sort(first, last, comp)`: for a strict weak ordering
the range afterwards holds the same elements and no later element compares
less than an earlier one. The order of equivalent elements is left open. -/
structure StdSort (srt : SortImpl) : Prop where
  perm : ∀ comp l, StrictWeakOrdering comp → (srt comp l).Perm l
  sorted : ∀ comp l, StrictWeakOrdering comp →
    (srt comp l).Pairwise (fun a b => comp b a = false)

/-- The lambda passed to `sort` in `sortByAmount`. -/
def amountLess (a b : Transaction) : Bool := decide (a.getAmount < b.getAmount)

/-- The member `sortByAmount`, over the implementation `srt` of `std::sort`. -/
def FinanceManager.sortByAmount (srt : SortImpl) (m : FinanceManager) : FinanceManager :=
  { transactions := srt amountLess m.transactions }

/-- A conforming `std::sort`: insertion sort that keeps equivalent elements in
their original order. -/
def stableSortImpl : SortImpl :=
  fun comp l => l.insertionSort (fun a b => comp b a = false)

/-- Another conforming `std::sort`: it leaves equivalent elements in the reverse
of their original order. -/
def tieReversingSortImpl : SortImpl :=
  fun comp l => l.reverse.insertionSort (fun a b => comp b a = false)

instance : Inhabited Transaction := ⟨⟨"", 0, TransactionType.Income⟩⟩

section GnuSort

variable {α : Type} [Inhabited α]

/-- The element `*(first + i)` of the range held in `a`. -/
def elemAt (a : List α) (i : ℕ) : α := a.getD i default

/-- The effect of `std::iter_swap` on positions `i` and `j`. -/
def iterSwap (a : List α) (i j : ℕ) : List α :=
  (a.set i (elemAt a j)).set j (elemAt a i)

/-- The loop of `__unguarded_linear_insert`, at most `fuel` steps. -/
def unguardedLinearInsertLoop (comp : α → α → Bool) (val : α) :
    ℕ → List α → ℕ → List α
  | 0, a, last => a.set last val
  | fuel + 1, a, last =>
    if comp val (elemAt a (last - 1)) then
      unguardedLinearInsertLoop comp val fuel (a.set last (elemAt a (last - 1))) (last - 1)
    else a.set last val

/-- The routine `__unguarded_linear_insert(last, comp)`. -/
def unguardedLinearInsert (comp : α → α → Bool) (a : List α)
    (last : ℕ) : List α :=
  unguardedLinearInsertLoop comp (elemAt a last) last a last

/-- The effect of `move_backward(first, i, i + 1)`. -/
def moveBackward (a : List α) (first i : ℕ) : List α :=
  (List.range (i - first)).foldl (fun b k => b.set (i - k) (elemAt a (i - k - 1))) a

/-- The routine `__insertion_sort(first, last, comp)`. -/
def gnuInsertionSort (comp : α → α → Bool) (a : List α)
    (first last : ℕ) : List α :=
  (List.range (last - first - 1)).foldl
    (fun b k =>
      if comp (elemAt b (first + 1 + k)) (elemAt b first) then
        (moveBackward b first (first + 1 + k)).set first (elemAt b (first + 1 + k))
      else unguardedLinearInsert comp b (first + 1 + k))
    a

/-- The routine `__unguarded_insertion_sort(first, last, comp)`. -/
def unguardedInsertionSort (comp : α → α → Bool) (a : List α)
    (first last : ℕ) : List α :=
  (List.range (last - first)).foldl (fun b k => unguardedLinearInsert comp b (first + k)) a

/-- The routine `__final_insertion_sort(first, last, comp)`, threshold 16. -/
def finalInsertionSort (comp : α → α → Bool) (a : List α)
    (first last : ℕ) : List α :=
  if last - first > 16 then
    unguardedInsertionSort comp (gnuInsertionSort comp a first (first + 16)) (first + 16) last
  else gnuInsertionSort comp a first last

/-- The routine `__move_median_to_first(result, a, b, c, comp)`. -/
def moveMedianToFirst (comp : α → α → Bool) (l : List α)
    (result a b c : ℕ) : List α :=
  if comp (elemAt l a) (elemAt l b) then
    if comp (elemAt l b) (elemAt l c) then iterSwap l result b
    else if comp (elemAt l a) (elemAt l c) then iterSwap l result c
    else iterSwap l result a
  else if comp (elemAt l a) (elemAt l c) then iterSwap l result a
  else if comp (elemAt l b) (elemAt l c) then iterSwap l result c
  else iterSwap l result b

/-- The loop `while (comp(first, pivot)) ++first`. -/
def scanUp (comp : α → α → Bool) (a : List α) (pivot : ℕ) :
    ℕ → ℕ → ℕ
  | 0, first => first
  | fuel + 1, first =>
    if comp (elemAt a first) (elemAt a pivot) then scanUp comp a pivot fuel (first + 1) else first

/-- The loop `while (comp(pivot, last)) --last`. -/
def scanDown (comp : α → α → Bool) (a : List α) (pivot : ℕ) :
    ℕ → ℕ → ℕ
  | 0, last => last
  | fuel + 1, last =>
    if comp (elemAt a pivot) (elemAt a last) then scanDown comp a pivot fuel (last - 1) else last

/-- The routine `__unguarded_partition(first, last, pivot, comp)`: the range
afterwards and the cut. -/
def unguardedPartition (comp : α → α → Bool) (pivot : ℕ) :
    ℕ → List α → ℕ → ℕ → List α × ℕ
  | 0, a, first, _ => (a, first)
  | fuel + 1, a, first, last =>
    if scanUp comp a pivot a.length first < scanDown comp a pivot a.length (last - 1) then
      unguardedPartition comp pivot fuel
        (iterSwap a (scanUp comp a pivot a.length first)
          (scanDown comp a pivot a.length (last - 1)))
        (scanUp comp a pivot a.length first + 1)
        (scanDown comp a pivot a.length (last - 1))
    else (a, scanUp comp a pivot a.length first)

/-- The routine `__unguarded_partition_pivot(first, last, comp)`. -/
def unguardedPartitionPivot (comp : α → α → Bool) (a : List α)
    (first last : ℕ) : List α × ℕ :=
  unguardedPartition comp first a.length
    (moveMedianToFirst comp a first (first + 1) (first + (last - first) / 2) (last - 1))
    (first + 1) last

/-- The routine `__push_heap(first, holeIndex, topIndex, value, comp)`. -/
def pushHeap (comp : α → α → Bool) (first topIndex : ℕ) (value : α) :
    ℕ → List α → ℕ → List α
  | 0, a, hole => a.set (first + hole) value
  | fuel + 1, a, hole =>
    if hole > topIndex ∧ comp (elemAt a (first + (hole - 1) / 2)) value = true then
      pushHeap comp first topIndex value fuel
        (a.set (first + hole) (elemAt a (first + (hole - 1) / 2))) ((hole - 1) / 2)
    else a.set (first + hole) value

/-- The first loop of `__adjust_heap`: the range and the hole afterwards. -/
def adjustHeapLoop (comp : α → α → Bool) (first len : ℕ) :
    ℕ → List α → ℕ → List α × ℕ
  | 0, a, hole => (a, hole)
  | fuel + 1, a, hole =>
    if hole < (len - 1) / 2 then
      if comp (elemAt a (first + 2 * (hole + 1))) (elemAt a (first + (2 * (hole + 1) - 1))) then
        adjustHeapLoop comp first len fuel
          (a.set (first + hole) (elemAt a (first + (2 * (hole + 1) - 1)))) (2 * (hole + 1) - 1)
      else
        adjustHeapLoop comp first len fuel
          (a.set (first + hole) (elemAt a (first + 2 * (hole + 1)))) (2 * (hole + 1))
    else (a, hole)

/-- The step of `__adjust_heap` for a last node with one child. -/
def adjustHeapTail (first len : ℕ) (s : List α × ℕ) : List α × ℕ :=
  if len % 2 = 0 ∧ 2 ≤ len ∧ s.2 = (len - 2) / 2 then
    (s.1.set (first + s.2) (elemAt s.1 (first + (2 * (s.2 + 1) - 1))), 2 * (s.2 + 1) - 1)
  else s

/-- The routine `__adjust_heap(first, holeIndex, len, value, comp)`. -/
def adjustHeap (comp : α → α → Bool) (a : List α)
    (first hole len : ℕ) (value : α) : List α :=
  pushHeap comp first hole value len
    (adjustHeapTail first len (adjustHeapLoop comp first len len a hole)).1
    (adjustHeapTail first len (adjustHeapLoop comp first len len a hole)).2

/-- The routine `__pop_heap(first, last, result, comp)`. -/
def popHeap (comp : α → α → Bool) (a : List α)
    (first last result : ℕ) : List α :=
  adjustHeap comp (a.set result (elemAt a first)) first 0 (last - first) (elemAt a result)

/-- The routine `__make_heap(first, last, comp)`. -/
def makeHeap (comp : α → α → Bool) (a : List α)
    (first last : ℕ) : List α :=
  if last - first < 2 then a
  else
    (List.range ((last - first - 2) / 2 + 1)).foldl
      (fun b k =>
        adjustHeap comp b first ((last - first - 2) / 2 - k) (last - first)
          (elemAt b (first + ((last - first - 2) / 2 - k))))
      a

/-- The routine `__sort_heap(first, last, comp)`. -/
def sortHeap (comp : α → α → Bool) (a : List α)
    (first last : ℕ) : List α :=
  (List.range (last - first - 1)).foldl
    (fun b k => popHeap comp b first (last - 1 - k) (last - 1 - k)) a

/-- The routine `__heap_select(first, middle, last, comp)`. -/
def heapSelect (comp : α → α → Bool) (a : List α)
    (first middle last : ℕ) : List α :=
  (List.range (last - middle)).foldl
    (fun b k =>
      if comp (elemAt b (middle + k)) (elemAt b first) then popHeap comp b first middle (middle + k)
      else b)
    (makeHeap comp a first middle)

/-- The routine `__partial_sort(first, middle, last, comp)`. -/
def partialSort (comp : α → α → Bool) (a : List α)
    (first middle last : ℕ) : List α :=
  sortHeap comp (heapSelect comp a first middle last) first middle

/-- The routine `__introsort_loop(first, last, depth_limit, comp)`. -/
def introsortLoop (comp : α → α → Bool) :
    ℕ → List α → ℕ → ℕ → List α
  | 0, a, first, last => if last - first > 16 then partialSort comp a first last last else a
  | depth + 1, a, first, last =>
    if last - first > 16 then
      introsortLoop comp depth
        (introsortLoop comp depth (unguardedPartitionPivot comp a first last).1
          (unguardedPartitionPivot comp a first last).2 last)
        first (unguardedPartitionPivot comp a first last).2
    else a

/-- The routine `std::sort(first, last, comp)` of GNU libstdc++ (`__sort`):
introsort with depth limit `2 * lg(n)` followed by a final insertion sort. -/
def gnuSort (comp : α → α → Bool) (a : List α) : List α :=
  if a.length = 0 then a
  else finalInsertionSort comp (introsortLoop comp (2 * Nat.log2 a.length) a 0 a.length) 0 a.length

/-- The positions below `n` of `a` are in order: no later element compares less
than an earlier one. -/
def SortedUpTo (comp : α → α → Bool) (a : List α) (n : ℕ) : Prop :=
  ∀ j k, j < k → k < n → comp (elemAt a k) (elemAt a j) = false

end GnuSort

/-- A ledger of seventeen Expense transactions in non-decreasing order of amount:
`A` and `B` with amount 5, then amounts 12 to 26. -/
def seventeen : List Transaction :=
  [⟨"A", 5, TransactionType.Expense⟩, ⟨"B", 5, TransactionType.Expense⟩,
   ⟨"C", 12, TransactionType.Expense⟩, ⟨"D", 13, TransactionType.Expense⟩,
   ⟨"E", 14, TransactionType.Expense⟩, ⟨"F", 15, TransactionType.Expense⟩,
   ⟨"G", 16, TransactionType.Expense⟩, ⟨"H", 17, TransactionType.Expense⟩,
   ⟨"I", 18, TransactionType.Expense⟩, ⟨"J", 19, TransactionType.Expense⟩,
   ⟨"K", 20, TransactionType.Expense⟩, ⟨"L", 21, TransactionType.Expense⟩,
   ⟨"M", 22, TransactionType.Expense⟩, ⟨"N", 23, TransactionType.Expense⟩,
   ⟨"O", 24, TransactionType.Expense⟩, ⟨"P", 25, TransactionType.Expense⟩,
   ⟨"Q", 26, TransactionType.Expense⟩]

/-! ## Expense statistics -/

/-- The local `map<string, double> categoryTotals`: its entries in iteration
order, which for `std::map` is ascending key order. -/
abbrev CategoryTotals := List (String × ℚ)

/-- The statement `categoryTotals[k] += v`: `operator[]` finds the entry with
key `k`, inserting one with value `0` at its place in key order when there is
none, and `v` is added to it. -/
def mapAddAt (k : String) (v : ℚ) : CategoryTotals → CategoryTotals
  | [] => [(k, 0 + v)]
  | (k', v') :: rest =>
    if k < k' then (k, 0 + v) :: (k', v') :: rest
    else if k' < k then (k', v') :: mapAddAt k v rest
    else (k', v' + v) :: rest

/-- One iteration of the first loop of `showStatistics`. -/
def statisticsStep (totals : CategoryTotals) (t : Transaction) : CategoryTotals :=
  if t.getType = TransactionType.Expense then mapAddAt t.getCategory t.getAmount totals
  else totals

/-- The mapping `categoryTotals` that `showStatistics` builds before printing. -/
def FinanceManager.categoryTotals (m : FinanceManager) : CategoryTotals :=
  m.transactions.foldl statisticsStep []

/-- The Expense transactions of `l` with category `c`. -/
def expensesOf (c : String) (l : List Transaction) : List Transaction :=
  l.filter (fun t => decide (t.type = TransactionType.Expense ∧ t.category = c))

/-- Reference total, after the specification: the sum of the amounts of the
Expense transactions with category `c`. -/
def expenseTotal (c : String) (l : List Transaction) : ℚ :=
  ((expensesOf c l).map Transaction.amount).sum

/-- The keys of a mapping are strictly ascending. -/
def KeysAscending (totals : CategoryTotals) : Prop :=
  totals.Pairwise (fun p q => p.1 < q.1)

/-! ## Text streams

The stream operators of the C++ library, in the classic locale and with the
default format flags, on a stream that is the list of characters still to be
read. An extraction that sets `failbit` is `none`. -/

/-- Whitespace as skipped by the extractors: space, tab, line feed, vertical
tab, form feed and carriage return. -/
def isSpace (c : Char) : Bool := c.toNat = 32 || (9 ≤ c.toNat && c.toNat ≤ 13)

/-- The value of a decimal digit character. -/
def digitValue (c : Char) : ℕ := c.toNat - 48

/-- The number written by a string of decimal digits, continuing from `acc`. -/
def parseDigits (acc : ℕ) (ds : List Char) : ℕ :=
  ds.foldl (fun a c => 10 * a + digitValue c) acc

/-- The optional sign in front of a number: whether it is `-`, and the rest. -/
def takeSign : List Char → Bool × List Char
  | [] => (false, [])
  | c :: r => if c = '-' then (true, r) else if c = '+' then (false, r) else (false, c :: r)

/-- The extractor `operator>>(istream&, string&)`: skips whitespace, then takes
the characters up to the next whitespace; fails when there is none to take. -/
def extractString (s : List Char) : Option (String × List Char) :=
  if (s.dropWhile isSpace).takeWhile (fun c => !isSpace c) = [] then none
  else some (String.mk ((s.dropWhile isSpace).takeWhile (fun c => !isSpace c)),
    (s.dropWhile isSpace).dropWhile (fun c => !isSpace c))

/-- The fraction of a number being read: after a decimal point, its digits. -/
def takeFraction : List Char → List Char × List Char
  | [] => ([], [])
  | c :: r =>
    if c = '.' then (r.takeWhile Char.isDigit, r.dropWhile Char.isDigit) else ([], c :: r)

/-- The exponent of a number being read: after `e` or `E` an optional sign and
digits, which scale `mantissa`; the extraction fails when the digits are
missing. -/
def extractExponent (mantissa : ℚ) : List Char → Option (ℚ × List Char)
  | [] => some (mantissa, [])
  | c :: r =>
    if c = 'e' ∨ c = 'E' then
      if (takeSign r).2.takeWhile Char.isDigit = [] then none
      else
        some (mantissa * (10 : ℚ) ^
            (if (takeSign r).1 then
              -(parseDigits 0 ((takeSign r).2.takeWhile Char.isDigit) : ℤ)
            else (parseDigits 0 ((takeSign r).2.takeWhile Char.isDigit) : ℤ)),
          (takeSign r).2.dropWhile Char.isDigit)
    else some (mantissa, c :: r)

/-- The value of a mantissa from its sign, integer digits and fraction digits. -/
def mantissaValue (neg : Bool) (intDigits fracDigits : List Char) : ℚ :=
  (if neg then -1 else 1)
    * ((parseDigits 0 intDigits : ℚ)
        + (parseDigits 0 fracDigits : ℚ) / (10 : ℚ) ^ fracDigits.length)

/-- The extractor `operator>>(istream&, double&)`: skips whitespace, then reads
the longest text of the form sign, digits, point, digits, exponent; fails when
the mantissa has no digit or an exponent has none. The value is exact. -/
def extractDouble (s : List Char) : Option (ℚ × List Char) :=
  let s₁ := (takeSign (s.dropWhile isSpace)).2
  let s₂ := s₁.dropWhile Char.isDigit
  if s₁.takeWhile Char.isDigit = [] ∧ (takeFraction s₂).1 = [] then none
  else
    extractExponent
      (mantissaValue (takeSign (s.dropWhile isSpace)).1 (s₁.takeWhile Char.isDigit)
        (takeFraction s₂).1)
      (takeFraction s₂).2

/-- The extractor `operator>>(istream&, int&)`: skips whitespace, then reads an
optional sign and digits; fails when there is no digit or the value does not
fit a 32-bit `int`. -/
def extractInt (s : List Char) : Option (ℤ × List Char) :=
  let s₁ := (takeSign (s.dropWhile isSpace)).2
  let v : ℤ :=
    if (takeSign (s.dropWhile isSpace)).1 then -(parseDigits 0 (s₁.takeWhile Char.isDigit) : ℤ)
    else (parseDigits 0 (s₁.takeWhile Char.isDigit) : ℤ)
  if s₁.takeWhile Char.isDigit = [] then none
  else if -2147483648 ≤ v ∧ v ≤ 2147483647 then some (v, s₁.dropWhile Char.isDigit)
  else none

/-- Number of decimal digits of `n`, with `fuel` steps (`0` for `n = 0`). -/
def digitCountAux : ℕ → ℕ → ℕ
  | 0, _ => 0
  | fuel + 1, n => if n = 0 then 0 else digitCountAux fuel (n / 10) + 1

/-- Number of decimal digits of `n` (`0` for `n = 0`). -/
def digitCount (n : ℕ) : ℕ := digitCountAux n n

/-- The decimal exponent of `q > 0`: the `X` with `10 ^ X ≤ q < 10 ^ (X + 1)`. -/
def decimalExponent (q : ℚ) : ℤ :=
  if (10 : ℚ) ^ ((digitCount q.num.natAbs : ℤ) - digitCount q.den) ≤ q then
    (digitCount q.num.natAbs : ℤ) - digitCount q.den
  else (digitCount q.num.natAbs : ℤ) - digitCount q.den - 1

/-- Rounding to the nearest integer, ties to the even one. -/
def roundHalfEven (q : ℚ) : ℤ :=
  if q - ⌊q⌋ < 1 / 2 then ⌊q⌋
  else if 1 / 2 < q - ⌊q⌋ then ⌊q⌋ + 1
  else if ⌊q⌋ % 2 = 0 then ⌊q⌋ else ⌊q⌋ + 1

/-- The last `w` decimal digits of `n`, leading zeros included. -/
def fixedDigits : ℕ → ℕ → List Char
  | 0, _ => []
  | w + 1, n => fixedDigits w (n / 10) ++ [Nat.digitChar (n % 10)]

/-- Removal of the zeros at the end of a fraction. -/
def stripTrailingZeros (ds : List Char) : List Char :=
  (ds.reverse.dropWhile (fun c => c = '0')).reverse

/-- A fraction as printed: nothing when only zeros, else the point and the
digits up to the last one that is not zero. -/
def fractionText (ds : List Char) : List Char :=
  if stripTrailingZeros ds = [] then [] else '.' :: stripTrailingZeros ds

/-- The six significant digits `m` (`10 ^ 5 ≤ m < 10 ^ 6`) and the decimal
exponent `X` of `q > 0` rounded to six significant digits:
`q ≈ m * 10 ^ (X - 5)`. -/
def significand (q : ℚ) : ℕ × ℤ :=
  if (roundHalfEven (q * (10 : ℚ) ^ (5 - decimalExponent q))).toNat = 1000000 then
    (100000, decimalExponent q + 1)
  else ((roundHalfEven (q * (10 : ℚ) ^ (5 - decimalExponent q))).toNat, decimalExponent q)

/-- Fixed notation: the six digits `m` with `p` of them after the point. -/
def formatFixed (m p : ℕ) : List Char :=
  Nat.toDigits 10 (m / 10 ^ p) ++ fractionText (fixedDigits p (m % 10 ^ p))

/-- Scientific notation: one digit, the fraction, and the exponent `X` with a
sign and at least two digits. -/
def formatScientific (m : ℕ) (X : ℤ) : List Char :=
  Nat.toDigits 10 (m / 100000) ++ fractionText (fixedDigits 5 (m % 100000))
    ++ ['e', if X < 0 then '-' else '+']
    ++ (if X.natAbs < 10 then ['0'] else []) ++ Nat.toDigits 10 X.natAbs

/-- The inserter `operator<<(ostream&, double)` with the default flags, that is
the conversion `%g` with precision 6: six significant digits, fixed notation
when the decimal exponent is in `-4 .. 5` and scientific notation otherwise,
trailing zeros removed. -/
def formatDouble (q : ℚ) : List Char :=
  if q = 0 then ['0']
  else
    (if q < 0 then ['-'] else [])
      ++ (if -4 ≤ (significand |q|).2 ∧ (significand |q|).2 < 6 then
            formatFixed (significand |q|).1 (5 - (significand |q|).2).toNat
          else formatScientific (significand |q|).1 (significand |q|).2)

/-! ## Persistence and console output -/

/-- The member `showStatistics`: what it writes to `cout`, a heading and one
line `category: total` for every entry of `categoryTotals`, in key order. -/
def FinanceManager.showStatistics (m : FinanceManager) : List Char :=
  "\nExpense Statistics:\n".data
    ++ (m.categoryTotals.map (fun p => p.1.data ++ ": ".data ++ formatDouble p.2 ++ ['\n'])).flatten

/-- What one iteration of the loop of `saveToFile` writes: category, space,
amount, space, `1` for Income and `0` for Expense, end of line. -/
def recordLine (t : Transaction) : List Char :=
  t.getCategory.data ++ [' '] ++ formatDouble t.getAmount ++ [' ']
    ++ [if t.getType = TransactionType.Income then '1' else '0'] ++ ['\n']

/-- The member `saveToFile`: the content of `finance.txt` after the call. The
file is opened for writing, which discards what it held. -/
def FinanceManager.saveToFile (m : FinanceManager) : List Char :=
  m.transactions.foldl (fun file t => file ++ recordLine t) []

/-- The condition of the loop of `loadFromFile`,
`file >> category >> amount >> typeInt`: the three values and the rest of the
stream, or `none` when one of the extractions fails. -/
def readRecord (s : List Char) : Option ((String × ℚ × ℤ) × List Char) :=
  match extractString s with
  | none => none
  | some (category, s₁) =>
    match extractDouble s₁ with
    | none => none
    | some (amount, s₂) =>
      match extractInt s₂ with
      | none => none
      | some (typeInt, s₃) => some ((category, amount, typeInt), s₃)

/-- The kind chosen in the loop body: `typeInt == 1 ? Income : Expense`. -/
def typeOfFlag (typeInt : ℤ) : TransactionType :=
  if typeInt = 1 then TransactionType.Income else TransactionType.Expense

/-- The loop of `loadFromFile`, at most `fuel` iterations: while a record can
be read, construct the transaction (which may throw) and append it. -/
def loadLoop : ℕ → List Char → FinanceManager → Outcome
  | 0, _, m => Outcome.ok m
  | fuel + 1, s, m =>
    match readRecord s with
    | none => Outcome.ok m
    | some ((category, amount, typeInt), rest) =>
      match Transaction.ctor category amount (typeOfFlag typeInt) with
      | Except.error what => Outcome.threw what m
      | Except.ok t => loadLoop fuel rest { transactions := m.transactions ++ [t] }

/-- The member `loadFromFile`: `file` is the content of `finance.txt`, or `none`
when the file cannot be opened. Every iteration consumes a character, so the
loop ends within `content.length + 1` iterations. -/
def FinanceManager.loadFromFile (m : FinanceManager) (file : Option (List Char)) : Outcome :=
  match file with
  | none => Outcome.ok m
  | some content => loadLoop (content.length + 1) content m

/-- An amount with at most six significant decimal digits: `k * 10 ^ j` for a
natural number `k < 10 ^ 6` and an integer `j`. -/
def SixSignificantDigits (q : ℚ) : Prop :=
  ∃ (k : ℕ) (j : ℤ), k < 1000000 ∧ q = (k : ℚ) * (10 : ℚ) ^ j

/-- A transaction the text format can carry: a category that is not empty and
has no whitespace, and an amount of at most six significant digits. -/
def Storable (t : Transaction) : Prop :=
  t.category.data ≠ [] ∧ (∀ c ∈ t.category.data, isSpace c = false)
    ∧ SixSignificantDigits t.amount

/-- The transaction the loop body constructs from the three values read. -/
def recordTransaction (r : String × ℚ × ℤ) : Transaction :=
  { category := r.1, amount := r.2.1, type := typeOfFlag r.2.2 }

/-- The relation `Reads s recs rest`: from the stream `s` the loop condition
reads the records `recs`, one after the other, and leaves the stream `rest`. -/
inductive Reads : List Char → List (String × ℚ × ℤ) → List Char → Prop where
  | done (s : List Char) : Reads s [] s
  | step {s s₁ rest : List Char} {r : String × ℚ × ℤ} {recs : List (String × ℚ × ℤ)}
      (h : readRecord s = some (r, s₁)) (hrest : Reads s₁ recs rest) : Reads s (r :: recs) rest

/-- The lines of a text: the pieces between line feeds. -/
def splitLines (s : List Char) : List (List Char) := s.splitOnP (fun c => c = '\n')

/-- The ledger an outcome carries. -/
def Outcome.state : Outcome → FinanceManager
  | Outcome.ok s => s
  | Outcome.threw _ s => s

/-- What `loadFromFile` writes to `cout`: `No saved file found.` when the file
cannot be opened, `Loaded data from file.` when the loop ends, and nothing when
an exception leaves the loop. -/
def FinanceManager.loadFromFileConsole (m : FinanceManager) (file : Option (List Char)) :
    List Char :=
  match file with
  | none => "No saved file found.\n".data
  | some content =>
    match loadLoop (content.length + 1) content m with
    | Outcome.ok _ => "Loaded data from file.\n".data
    | Outcome.threw _ _ => []

/-- The characters `operator<<` uses for a `double`: digits, point, `e` and
signs. -/
def isNumberChar (c : Char) : Bool :=
  c.isDigit || c = '.' || c = 'e' || c = '+' || c = '-'

/-- The ledger `l` put in front of the ledger an outcome carries. -/
def Outcome.prepend (l : List Transaction) : Outcome → Outcome
  | Outcome.ok s => Outcome.ok { transactions := l ++ s.transactions }
  | Outcome.threw what s => Outcome.threw what { transactions := l ++ s.transactions }

/-- The ledger of the scenario: `Food 50 Expense`, `Salary 2000 Income`,
`Food 20 Expense`, in the order of the calls of `addTransaction`. -/
def scenario : List Transaction :=
  [⟨"Food", 50, TransactionType.Expense⟩, ⟨"Salary", 2000, TransactionType.Income⟩,
   ⟨"Food", 20, TransactionType.Expense⟩]

/-! ## Amounts as values of type `double`

The definitions above take an amount as the exact number it stands for. The
definitions of this part, in the namespace `Ieee`, take it as a value of the
C++ type `double`: with negative zero, the infinities and NaN, with the
comparisons the language defines on them, and with the rounding and the range
check of the extractor `operator>>`. The class members are embedded a second
time over these amounts, under their own names. -/

namespace Ieee

/-- The values of a `double`: a finite number (`finite 0` is positive zero),
negative zero, the two infinities, and NaN with its sign bit. A finite value is
given by the exact rational it stands for; the values a `double` can hold are
among them. -/
inductive Double where
  | finite (q : ℚ)
  | negZero
  | posInf
  | negInf
  | nan (negative : Bool)
  deriving DecidableEq, Repr

/-- Whether the value is NaN. -/
def Double.isNaN : Double → Bool
  | Double.nan _ => true
  | _ => false

/-- The comparison `x < y` of the language: false when either side is NaN, and
the two zeros are equal. -/
def Double.lt : Double → Double → Bool
  | Double.nan _, _ => false
  | _, Double.nan _ => false
  | _, Double.negInf => false
  | Double.negInf, _ => true
  | Double.posInf, _ => false
  | _, Double.posInf => true
  | Double.finite p, Double.finite q => decide (p < q)
  | Double.finite p, Double.negZero => decide (p < 0)
  | Double.negZero, Double.finite q => decide (0 < q)
  | Double.negZero, Double.negZero => false

/-- The comparison `x <= y` of the language: false when either side is NaN. -/
def Double.le (x y : Double) : Bool := !x.isNaN && !y.isNaN && !Double.lt y x

/-- The data members of `class Transaction`. -/
structure Transaction where
  category : String
  amount : Double
  type : TransactionType
  deriving DecidableEq, Repr

/-- The constructor `Transaction::Transaction(category, amount, type)`: throws
`invalid_argument` when `amount < 0` holds, otherwise stores the three
arguments. The literal `0` is converted to the `double` zero. -/
def Transaction.ctor (category : String) (amount : Double) (type : TransactionType) :
    Except String Transaction :=
  if Double.lt amount (Double.finite 0) then
    Except.error negativeAmountMessage
  else
    Except.ok { category := category, amount := amount, type := type }

/-- The accessor `getAmount()`. -/
def Transaction.getAmount (t : Transaction) : Double := t.amount

/-- The accessor `getCategory()`. -/
def Transaction.getCategory (t : Transaction) : String := t.category

/-- The accessor `getType()`. -/
def Transaction.getType (t : Transaction) : TransactionType := t.type

/-- The data member of `class FinanceManager`: the stored sequence. -/
structure FinanceManager where
  transactions : List Transaction
  deriving DecidableEq, Repr

/-- How a call of a member function ends: it returns (`ok`) or an exception
with text `what` leaves it (`threw`); either way `s` is the ledger at that
moment. -/
inductive Outcome where
  | ok (s : FinanceManager)
  | threw (what : String) (s : FinanceManager)
  deriving DecidableEq, Repr

/-- The ledger an outcome carries. -/
def Outcome.state : Outcome → FinanceManager
  | Outcome.ok s => s
  | Outcome.threw _ s => s

/-- The ledger of a freshly constructed `FinanceManager`. -/
def FinanceManager.empty : FinanceManager := { transactions := [] }

/-- The member `addTransaction`: the argument `make_unique<Transaction>(...)` is
evaluated first, so a throwing constructor leaves before `push_back` runs. -/
def FinanceManager.addTransaction (m : FinanceManager) (category : String) (amount : Double)
    (type : TransactionType) : Outcome :=
  match Transaction.ctor category amount type with
  | Except.error what => Outcome.threw what m
  | Except.ok t => Outcome.ok { transactions := m.transactions ++ [t] }

/-- An implementation of `std::sort` on the vector of the ledger: from the
comparator and the range before the call to the range after it. -/
abbrev SortImpl := (Transaction → Transaction → Bool) → List Transaction → List Transaction

/-- The requirement `std::sort` puts on its comparator: it induces a strict weak
ordering on the values of the range (irreflexive, transitive, with transitive
incomparability). -/
def StrictWeakOrderingOn (comp : Transaction → Transaction → Bool) (l : List Transaction) :
    Prop :=
  (∀ a ∈ l, comp a a = false)
  ∧ (∀ a ∈ l, ∀ b ∈ l, ∀ c ∈ l, comp a b = true → comp b c = true → comp a c = true)
  ∧ (∀ a ∈ l, ∀ b ∈ l, ∀ c ∈ l, comp a b = false → comp b a = false → comp b c = false →
      comp c b = false → comp a c = false ∧ comp c a = false)

/-- The contract of `std::sort(first, last, comp)`: when the comparator is a
strict weak ordering on the values of the range, the range afterwards holds the
same elements and no later element compares less than an earlier one. Nothing
is promised for any other comparator. -/
structure StdSort (srt : SortImpl) : Prop where
  perm : ∀ comp l, StrictWeakOrderingOn comp l → (srt comp l).Perm l
  sorted : ∀ comp l, StrictWeakOrderingOn comp l →
    (srt comp l).Pairwise (fun a b => comp b a = false)

/-- The lambda passed to `sort` in `sortByAmount`. -/
def amountLess (a b : Transaction) : Bool := Double.lt a.getAmount b.getAmount

/-- The member `sortByAmount`, over the implementation `srt` of `std::sort`. -/
def FinanceManager.sortByAmount (srt : SortImpl) (m : FinanceManager) : FinanceManager :=
  { transactions := srt amountLess m.transactions }

/-- The GNU implementation of `std::sort` on the vector of the ledger. The
elements the routine moves are the `unique_ptr`s, given by the position their
transaction has before the call; the comparator reads the transactions they
point to. -/
def gnuSort : SortImpl :=
  fun comp l =>
    match l with
    | [] => []
    | t :: _ =>
      (Finance.gnuSort (fun i j => comp (l.getD i t) (l.getD j t)) (List.range l.length)).map
        (fun i => l.getD i t)

/-- Number of binary digits of `n`, with `fuel` steps (`0` for `n = 0`). -/
def bitCountAux : ℕ → ℕ → ℕ
  | 0, _ => 0
  | fuel + 1, n => if n = 0 then 0 else bitCountAux fuel (n / 2) + 1

/-- Number of binary digits of `n` (`0` for `n = 0`). -/
def bitCount (n : ℕ) : ℕ := bitCountAux n n

/-- The binary exponent of `q > 0`: the `e` with `2 ^ e ≤ q < 2 ^ (e + 1)`. -/
def binaryExponent (q : ℚ) : ℤ :=
  if (2 : ℚ) ^ ((bitCount q.num.natAbs : ℤ) - bitCount q.den) ≤ q then
    (bitCount q.num.natAbs : ℤ) - bitCount q.den
  else (bitCount q.num.natAbs : ℤ) - bitCount q.den - 1

/-- The distance between neighbouring `double`s at `q`: 53 significant bits,
with the binary exponent not below `-1022`. -/
def ulp (q : ℚ) : ℚ := (2 : ℚ) ^ (max (binaryExponent q) (-1022) - 52)

/-- The `double` nearest to `q ≥ 0`, ties to the even one, as a number. -/
def roundToDouble (q : ℚ) : ℚ := roundHalfEven (q / ulp q) * ulp q

/-- The magnitudes from `2 ^ 1024 - 2 ^ 970` on round to infinity. -/
def overflowThreshold : ℚ := 2 ^ 1024 - 2 ^ 970

/-- The conversion of a literal by `strtod` as the extractor uses it: the
magnitude is rounded to the nearest `double`; the extractor sets `failbit`
(`none`) when that is an infinity; a magnitude that rounds to zero gives the
zero with the sign of the literal. -/
def Double.ofLiteral (negative : Bool) (magnitude : ℚ) : Option Double :=
  if overflowThreshold ≤ magnitude then none
  else if roundToDouble magnitude = 0 then
    some (if negative then Double.negZero else Double.finite 0)
  else
    some (Double.finite (if negative then -roundToDouble magnitude else roundToDouble magnitude))

/-- The extractor `operator>>(istream&, double&)`: the text it reads and the
number that text writes are those of the exact extractor `Finance.extractDouble`;
the number is then converted to a `double` by `Double.ofLiteral`, and the
extraction fails when the literal is out of range. -/
def extractDouble (s : List Char) : Option (Double × List Char) :=
  match Finance.extractDouble s with
  | none => none
  | some (q, rest) =>
    match Double.ofLiteral (takeSign (s.dropWhile isSpace)).1 |q| with
    | none => none
    | some x => some (x, rest)

/-- The inserter `operator<<(ostream&, double)` with the default flags, that is
the conversion `%g` with precision 6: a finite amount as `Finance.formatDouble`
writes it, and `-0`, `inf`, `-inf`, `nan`, `-nan` for the other values. -/
def formatDouble : Double → List Char
  | Double.finite q => Finance.formatDouble q
  | Double.negZero => "-0".data
  | Double.posInf => "inf".data
  | Double.negInf => "-inf".data
  | Double.nan negative => if negative then "-nan".data else "nan".data

/-- What one iteration of the loop of `saveToFile` writes: category, space,
amount, space, `1` for Income and `0` for Expense, end of line. -/
def recordLine (t : Transaction) : List Char :=
  t.getCategory.data ++ [' '] ++ formatDouble t.getAmount ++ [' ']
    ++ [if t.getType = TransactionType.Income then '1' else '0'] ++ ['\n']

/-- The content of `finance.txt` right after `ofstream file("finance.txt")`:
opening for writing truncates the file, whatever it held (`none`: no file). -/
def openForWriting : Option (List Char) → List Char
  | none => []
  | some _ => []

/-- What a call of `saveToFile` leaves behind: the ledger, the content of
`finance.txt` and the text written to `cout`. -/
structure SaveResult where
  ledger : FinanceManager
  file : List Char
  console : List Char

/-- The member `saveToFile`, `previous` being the content of `finance.txt`
before the call; the stream is taken to open and to accept what is written.
The member is `const`: the ledger afterwards is the ledger before. -/
def FinanceManager.saveToFile (m : FinanceManager) (previous : Option (List Char)) :
    SaveResult :=
  { ledger := m
    file := m.transactions.foldl (fun file t => file ++ recordLine t) (openForWriting previous)
    console := "Saved to file successfully.\n".data }

/-- The condition of the loop of `loadFromFile`,
`file >> category >> amount >> typeInt`: the three values and the rest of the
stream, or `none` when one of the extractions fails. -/
def readRecord (s : List Char) : Option ((String × Double × ℤ) × List Char) :=
  match extractString s with
  | none => none
  | some (category, s₁) =>
    match extractDouble s₁ with
    | none => none
    | some (amount, s₂) =>
      match extractInt s₂ with
      | none => none
      | some (typeInt, s₃) => some ((category, amount, typeInt), s₃)

/-- The loop of `loadFromFile`, at most `fuel` iterations: while a record can
be read, construct the transaction (which may throw) and append it. -/
def loadLoop : ℕ → List Char → FinanceManager → Outcome
  | 0, _, m => Outcome.ok m
  | fuel + 1, s, m =>
    match readRecord s with
    | none => Outcome.ok m
    | some ((category, amount, typeInt), rest) =>
      match Transaction.ctor category amount (typeOfFlag typeInt) with
      | Except.error what => Outcome.threw what m
      | Except.ok t => loadLoop fuel rest { transactions := m.transactions ++ [t] }

/-- The member `loadFromFile`: `file` is the content of `finance.txt`, or `none`
when the file cannot be opened. Every iteration consumes a character, so the
loop ends within `content.length + 1` iterations. -/
def FinanceManager.loadFromFile (m : FinanceManager) (file : Option (List Char)) : Outcome :=
  match file with
  | none => Outcome.ok m
  | some content => loadLoop (content.length + 1) content m

/-- What `loadFromFile` writes to `cout`: `No saved file found.` when the file
cannot be opened, `Loaded data from file.` when the loop ends, and nothing when
an exception leaves the loop. -/
def FinanceManager.loadFromFileConsole (m : FinanceManager) (file : Option (List Char)) :
    List Char :=
  match file with
  | none => "No saved file found.\n".data
  | some content =>
    match loadLoop (content.length + 1) content m with
    | Outcome.ok _ => "Loaded data from file.\n".data
    | Outcome.threw _ _ => []

/-- A ledger with the amounts 3, NaN, 1 and 2. -/
def nanLedger : List Transaction :=
  [⟨"a", Double.finite 3, TransactionType.Expense⟩,
   ⟨"b", Double.nan false, TransactionType.Expense⟩,
   ⟨"c", Double.finite 1, TransactionType.Expense⟩,
   ⟨"d", Double.finite 2, TransactionType.Expense⟩]

/-- The invariant of the ledger: every stored amount `a` satisfies `a >= 0`. -/
def NonNegative (m : FinanceManager) : Prop :=
  ∀ t ∈ m.transactions, Double.le (Double.finite 0) t.getAmount = true

/-- One call of a member function of `FinanceManager`, from the ledger before to
the ledger after, whether the call returns or throws; `addTransaction` is called
with amounts that satisfy `allowed`. The members `showAll`, `calculateBalance`,
`showStatistics` and `saveToFile` are `const`. -/
inductive Step (allowed : Double → Prop) : FinanceManager → FinanceManager → Prop where
  | addTransaction (m : FinanceManager) (category : String) (amount : Double)
      (type : TransactionType) (h : allowed amount) :
      Step allowed m (m.addTransaction category amount type).state
  | sortByAmount (m : FinanceManager) (srt : SortImpl) (h : StdSort srt) :
      Step allowed m (m.sortByAmount srt)
  | loadFromFile (m : FinanceManager) (file : Option (List Char)) :
      Step allowed m (m.loadFromFile file).state
  | readOnly (m : FinanceManager) : Step allowed m m

/-- The ledgers a program can reach from the empty ledger by calls of member
functions, `addTransaction` being called with amounts that satisfy `allowed`. -/
inductive Reachable (allowed : Double → Prop) : FinanceManager → Prop where
  | init : Reachable allowed FinanceManager.empty
  | step {m m' : FinanceManager} (h : Reachable allowed m) (hstep : Step allowed m m') :
      Reachable allowed m'

/-- The relation `Reads s recs rest`: from the stream `s` the loop condition
reads the records `recs`, one after the other, and leaves the stream `rest`. -/
inductive Reads : List Char → List (String × Double × ℤ) → List Char → Prop where
  | done (s : List Char) : Reads s [] s
  | step {s s₁ rest : List Char} {r : String × Double × ℤ} {recs : List (String × Double × ℤ)}
      (h : readRecord s = some (r, s₁)) (hrest : Reads s₁ recs rest) : Reads s (r :: recs) rest

/-! ### The record syntax

The fields of a record of `finance.txt`, described independently of the
extractors: which characters make up a text, a number and an integer, and which
values they stand for. The lemmas `textField_iff`, `numberField_iff` and
`integerField_iff` show that the extractors read exactly these fields. -/

/-- The stream `s` does not start with a character for which `p` holds: it is
empty, or `p` fails on its first character. -/
def NotStartingWith (p : Char → Bool) (s : List Char) : Prop :=
  ∀ c ∈ s.head?, p c = false

/-- An optional sign: nothing, `+` or `-`. -/
def IsSign (sign : List Char) : Prop :=
  sign = [] ∨ sign = ['+'] ∨ sign = ['-']

/-- The integer written by an optional sign and digits. -/
def signedValue (sign digits : List Char) : ℤ :=
  if sign = ['-'] then -(parseDigits 0 digits : ℤ) else (parseDigits 0 digits : ℤ)

/-- A text field at the front of a stream: whitespace `ws`, then the text
`word`, a run of one or more characters that are not whitespace, which goes up
to the end of the stream or to the next whitespace. -/
inductive TextField : List Char → String → List Char → Prop where
  | mk (ws word rest : List Char) (hws : ∀ c ∈ ws, isSpace c = true) (hne : word ≠ [])
      (hword : ∀ c ∈ word, isSpace c = false)
      (hend : NotStartingWith (fun c => !isSpace c) rest) :
      TextField (ws ++ word ++ rest) (String.mk word) rest

/-- The fraction of a number as written, and its digits: nothing, or a decimal
point followed by digits (possibly none). -/
inductive FractionPart : List Char → List Char → Prop where
  | absent : FractionPart [] []
  | present (digits : List Char) (hdigits : ∀ c ∈ digits, c.isDigit = true) :
      FractionPart ('.' :: digits) digits

/-- The exponent of a number as written, and its value: nothing (value `0`), or
`e` or `E` followed by an optional sign and one or more digits. -/
inductive ExponentPart : List Char → ℤ → Prop where
  | absent : ExponentPart [] 0
  | present (mark : Char) (sign digits : List Char) (hmark : mark = 'e' ∨ mark = 'E')
      (hsign : IsSign sign) (hne : digits ≠ []) (hdigits : ∀ c ∈ digits, c.isDigit = true) :
      ExponentPart (mark :: (sign ++ digits)) (signedValue sign digits)

/-- A number field at the front of a stream: whitespace, an optional sign,
digits, an optional fraction and an optional exponent, with at least one digit
before the exponent, read as far as it extends (what follows starts with no
digit, with no decimal point if the number has neither, and with no `e` or `E`
if the number has no exponent). Its value `x` is the number written, converted
to a `double` by `Double.ofLiteral`; a number out of the range of `double` is
no number field. -/
inductive NumberField : List Char → Double → List Char → Prop where
  | mk (ws sign intDigits fraction fracDigits exponent rest : List Char) (X : ℤ) (x : Double)
      (hws : ∀ c ∈ ws, isSpace c = true) (hsign : IsSign sign)
      (hint : ∀ c ∈ intDigits, c.isDigit = true)
      (hfraction : FractionPart fraction fracDigits)
      (hmantissa : intDigits ≠ [] ∨ fracDigits ≠ [])
      (hexponent : ExponentPart exponent X)
      (hend : NotStartingWith Char.isDigit rest)
      (hpoint : fraction = [] → exponent = [] → NotStartingWith (fun c => decide (c = '.')) rest)
      (hmark : exponent = [] → NotStartingWith (fun c => decide (c = 'e' ∨ c = 'E')) rest)
      (hvalue : Double.ofLiteral (decide (sign = ['-']))
          (((parseDigits 0 intDigits : ℚ)
              + (parseDigits 0 fracDigits : ℚ) / (10 : ℚ) ^ fracDigits.length)
            * (10 : ℚ) ^ X) = some x) :
      NumberField (ws ++ sign ++ intDigits ++ fraction ++ exponent ++ rest) x rest

/-- An integer field at the front of a stream: whitespace, an optional sign and
one or more digits, read as far as the digits extend; the integer written fits
a 32-bit `int`. -/
inductive IntegerField : List Char → ℤ → List Char → Prop where
  | mk (ws sign digits rest : List Char) (hws : ∀ c ∈ ws, isSpace c = true)
      (hsign : IsSign sign) (hne : digits ≠ []) (hdigits : ∀ c ∈ digits, c.isDigit = true)
      (hend : NotStartingWith Char.isDigit rest)
      (hrange : -2147483648 ≤ signedValue sign digits ∧ signedValue sign digits ≤ 2147483647) :
      IntegerField (ws ++ sign ++ digits ++ rest) (signedValue sign digits) rest

/-- A record at the front of a stream: a text field, a number field and an
integer field, one after the other. -/
inductive RecordAt : List Char → String × Double × ℤ → List Char → Prop where
  | mk {s s₁ s₂ rest : List Char} {text : String} {x : Double} {flag : ℤ}
      (htext : TextField s text s₁) (hnumber : NumberField s₁ x s₂)
      (hflag : IntegerField s₂ flag rest) : RecordAt s (text, x, flag) rest

/-- The stream `s` consists of the records `recs`, one after the other,
followed by `rest`. -/
inductive Records : List Char → List (String × Double × ℤ) → List Char → Prop where
  | done (s : List Char) : Records s [] s
  | step {s s₁ rest : List Char} {r : String × Double × ℤ} {recs : List (String × Double × ℤ)}
      (h : RecordAt s r s₁) (hrest : Records s₁ recs rest) : Records s (r :: recs) rest

end Ieee

/-! ## Helper lemmas: balance -/

theorem foldl_balanceStep (l : List Transaction) (b : ℚ) :
    l.foldl balanceStep b = b + balanceSpec l := by
  induction l generalizing b with
  | nil => simp [balanceSpec]
  | cons t l ih =>
    rw [List.foldl_cons, ih]
    cases ht : t.type <;>
      simp [balanceStep, balanceSpec, Transaction.getType, Transaction.getAmount, ht] <;> ring

theorem ctor_of_nonneg (category : String) (amount : ℚ) (type : TransactionType)
    (h : 0 ≤ amount) :
    Transaction.ctor category amount type = Except.ok ⟨category, amount, type⟩ := by
  simp [Transaction.ctor, not_lt.mpr h]

theorem ctor_of_neg (category : String) (amount : ℚ) (type : TransactionType)
    (h : amount < 0) :
    Transaction.ctor category amount type = Except.error negativeAmountMessage := by
  simp [Transaction.ctor, h]

theorem addTransaction_of_nonneg (m : FinanceManager) (category : String) (amount : ℚ)
    (type : TransactionType) (h : 0 ≤ amount) :
    m.addTransaction category amount type
      = Outcome.ok ⟨m.transactions ++ [⟨category, amount, type⟩]⟩ := by
  simp [FinanceManager.addTransaction, ctor_of_nonneg _ _ _ h]

/-! ## Helper lemmas: sorting -/

theorem StrictWeakOrdering.negTrans {α : Type} {comp : α → α → Bool}
    (h : StrictWeakOrdering comp) {a b c : α}
    (hba : comp b a = false) (hcb : comp c b = false) : comp c a = false := by
  obtain ⟨-, htrans, hequiv⟩ := h
  by_contra hca
  have hca' : comp c a = true := by simpa using hca
  have hab : comp a b = false := by
    by_contra hab
    have := htrans c a b hca' (by simpa using hab)
    simp [this] at hcb
  have hbc : comp b c = false := by
    by_contra hbc
    have := htrans b c a (by simpa using hbc) hca'
    simp [this] at hba
  exact hca (hequiv a b c hab hba hbc hcb).2

theorem StrictWeakOrdering.total {α : Type} {comp : α → α → Bool}
    (h : StrictWeakOrdering comp) (a b : α) :
    comp b a = false ∨ comp a b = false := by
  obtain ⟨hirr, htrans, -⟩ := h
  by_contra hne
  push_neg at hne
  have := htrans a b a (by simpa using hne.2) (by simpa using hne.1)
  simp [hirr a] at this

theorem amountLess_strictWeakOrdering : StrictWeakOrdering amountLess := by
  refine ⟨?_, ?_, ?_⟩
  · intro a
    simp [amountLess]
  · intro a b c hab hbc
    simp only [amountLess, decide_eq_true_eq] at *
    exact lt_trans hab hbc
  · intro a b c hab hba hbc hcb
    simp only [amountLess, decide_eq_false_iff_not, not_lt] at *
    exact ⟨le_trans hbc hab, le_trans hba hcb⟩

theorem insertionSort_conforms (comp : Transaction → Transaction → Bool)
    (h : StrictWeakOrdering comp) (l : List Transaction) :
    (l.insertionSort (fun a b => comp b a = false)).Pairwise (fun a b => comp b a = false) := by
  haveI : IsTotal Transaction (fun a b => comp b a = false) := ⟨fun a b => h.total a b⟩
  haveI : IsTrans Transaction (fun a b => comp b a = false) :=
    ⟨fun a b c hab hbc => h.negTrans hab hbc⟩
  exact List.sorted_insertionSort _ l

theorem stableSortImpl_stdSort : StdSort stableSortImpl where
  perm := fun _ l _ => List.perm_insertionSort _ l
  sorted := fun comp l h => insertionSort_conforms comp h l

theorem tieReversingSortImpl_stdSort : StdSort tieReversingSortImpl where
  perm := fun _ l _ => (List.perm_insertionSort _ l.reverse).trans (List.reverse_perm l)
  sorted := fun comp l h => insertionSort_conforms comp h l.reverse

theorem balanceSpec_perm {l l' : List Transaction} (h : l.Perm l') :
    balanceSpec l = balanceSpec l' := by
  unfold balanceSpec
  rw [((h.filter _).map _).sum_eq, ((h.filter _).map _).sum_eq]

theorem gnuSort_seventeen :
    ((FinanceManager.mk seventeen).sortByAmount gnuSort).transactions.Perm seventeen
    ∧ ((FinanceManager.mk seventeen).sortByAmount gnuSort).transactions.Pairwise
        (fun a b => a.getAmount ≤ b.getAmount) := by
  decide!

theorem sortByAmount_perm {srt : SortImpl} (h : StdSort srt) (m : FinanceManager) :
    (m.sortByAmount srt).transactions.Perm m.transactions :=
  h.perm amountLess m.transactions amountLess_strictWeakOrdering

/-! ## Helper lemmas: the GNU implementation of `std::sort` -/

section GnuSortLemmas

variable {α : Type} [Inhabited α] [DecidableEq α]

omit [Inhabited α] [DecidableEq α] in
theorem StrictWeakOrdering.asymm {comp : α → α → Bool}
    (h : StrictWeakOrdering comp) {a b : α} (hab : comp a b = true) :
    comp b a = false := by
  rcases h.total a b with h1 | h1
  · exact h1
  · rw [hab] at h1
    cases h1

omit [DecidableEq α] in
theorem elemAt_of_lt (a : List α) {i : ℕ} (h : i < a.length) : elemAt a i = a[i] :=
  List.getD_eq_getElem a default h

omit [DecidableEq α] in
theorem elemAt_set (a : List α) (i j : ℕ) (v : α) :
    elemAt (a.set i v) j = if i = j ∧ i < a.length then v else elemAt a j := by
  unfold elemAt
  rw [List.getD_eq_getElem?_getD, List.getD_eq_getElem?_getD, List.getElem?_set]
  by_cases hij : i = j
  · subst hij
    by_cases hi : i < a.length
    · simp [hi]
    · simp [hi, List.getElem?_eq_none (not_lt.mp hi)]
  · simp [hij]

omit [DecidableEq α] in
theorem elemAt_set_self (a : List α) (i : ℕ) (v : α) (h : i < a.length) :
    elemAt (a.set i v) i = v := by
  rw [elemAt_set]
  simp [h]

omit [DecidableEq α] in
theorem elemAt_set_ne (a : List α) {i j : ℕ} (v : α) (h : i ≠ j) :
    elemAt (a.set i v) j = elemAt a j := by
  rw [elemAt_set]
  simp [h]

theorem count_set_add (a : List α) (i : ℕ) (v x : α) (h : i < a.length) :
    (a.set i v).count x + (if elemAt a i = x then 1 else 0)
      = a.count x + (if v = x then 1 else 0) := by
  rw [List.count_set v x a i h, elemAt_of_lt a h]
  have hpos : a[i] = x → 1 ≤ a.count x := by
    intro hx
    exact List.count_pos_iff.mpr (hx ▸ List.getElem_mem h)
  by_cases h1 : a[i] = x <;> by_cases h2 : v = x <;> simp [h1, h2]
  · have := hpos h1
    omega
  · have := hpos h1
    omega

theorem count_hole_move (b : List α) (h c : ℕ) (v x : α)
    (hh : h < b.length) (hc : c < b.length) :
    ((b.set h (elemAt b c)).set c v).count x = (b.set h v).count x := by
  by_cases hhc : h = c
  · subst hhc
    rw [List.set_set]
  · have e1 := count_set_add (b.set h (elemAt b c)) c v x (by simpa using hc)
    rw [elemAt_set_ne b (elemAt b c) hhc] at e1
    have e2 := count_set_add b h (elemAt b c) x hh
    have e3 := count_set_add b h v x hh
    omega

theorem count_iterSwap (a : List α) (i j : ℕ) (x : α)
    (hi : i < a.length) (hj : j < a.length) : (iterSwap a i j).count x = a.count x := by
  unfold iterSwap
  rw [count_hole_move a i j (elemAt a i) x hi hj]
  have e := count_set_add a i (elemAt a i) x hi
  omega

omit [DecidableEq α] in
theorem length_iterSwap (a : List α) (i j : ℕ) : (iterSwap a i j).length = a.length := by
  simp [iterSwap]

theorem unguardedLinearInsertLoop_spec {comp : α → α → Bool}
    (hswo : StrictWeakOrdering comp) (val : α) (i : ℕ) :
    ∀ (fuel : ℕ) (a : List α) (last : ℕ), fuel = last → last ≤ i → i < a.length →
      (∀ j k, j < k → k ≤ i → j ≠ last → k ≠ last → comp (elemAt a k) (elemAt a j) = false) →
      (∀ k, last < k → k ≤ i → comp val (elemAt a k) = true) →
      (unguardedLinearInsertLoop comp val fuel a last).length = a.length
      ∧ (∀ x, (unguardedLinearInsertLoop comp val fuel a last).count x = (a.set last val).count x)
      ∧ SortedUpTo comp (unguardedLinearInsertLoop comp val fuel a last) (i + 1)
      ∧ (∀ j, i < j → elemAt (unguardedLinearInsertLoop comp val fuel a last) j = elemAt a j) := by
  intro fuel
  induction fuel with
  | zero =>
    intro a last hfuel hlast hi hsorted hshift
    subst hfuel
    simp only [unguardedLinearInsertLoop]
    refine ⟨by simp, by intros; first | rfl | trivial, ?_, ?_⟩
    · intro j k hjk hk
      rw [elemAt_set, elemAt_set]
      have hk0 : ¬ (0 = k ∧ 0 < a.length) := by omega
      rw [if_neg hk0]
      by_cases hj0 : j = 0
      · subst hj0
        have h0 : (0 = 0 ∧ 0 < a.length) := ⟨rfl, by omega⟩
        rw [if_pos h0]
        exact hswo.asymm (hshift k (by omega) (by omega))
      · have hj0' : ¬ (0 = j ∧ 0 < a.length) := by omega
        rw [if_neg hj0']
        exact hsorted j k hjk (by omega) hj0 (by omega)
    · intro j hj
      rw [elemAt_set_ne]
      omega
  | succ fuel ih =>
    intro a last hfuel hlast hi hsorted hshift
    simp only [unguardedLinearInsertLoop]
    have hlast1 : last - 1 = fuel := by omega
    have hsetlen : i < (a.set last (elemAt a (last - 1))).length := by simpa using hi
    split_ifs with hcmp
    · have hrec := ih (a.set last (elemAt a (last - 1))) (last - 1) hlast1.symm (by omega)
        hsetlen
        (by
          intro j k hjk hk hj hk'
          rw [elemAt_set, elemAt_set]
          by_cases hkl : k = last
          · subst hkl
            have hj' : ¬ (k = j ∧ k < a.length) := by omega
            rw [if_pos ⟨rfl, by omega⟩, if_neg hj']
            exact hsorted j (k - 1) (by omega) (by omega) (by omega) (by omega)
          · have hk'' : ¬ (last = k ∧ last < a.length) := by omega
            rw [if_neg hk'']
            by_cases hjl : j = last
            · subst hjl
              rw [if_pos ⟨rfl, by omega⟩]
              exact hsorted (j - 1) k (by omega) hk (by omega) (by omega)
            · have hj'' : ¬ (last = j ∧ last < a.length) := by omega
              rw [if_neg hj'']
              exact hsorted j k hjk hk hjl hkl)
        (by
          intro k hk1 hk2
          rw [elemAt_set]
          by_cases hkl : k = last
          · subst hkl
            rw [if_pos ⟨rfl, by omega⟩]
            exact hcmp
          · have hk'' : ¬ (last = k ∧ last < a.length) := by omega
            rw [if_neg hk'']
            exact hshift k (by omega) hk2)
      obtain ⟨hlen, hcount, hsort, hsuffix⟩ := hrec
      refine ⟨by rw [hlen]; simp, ?_, hsort, ?_⟩
      · intro x
        rw [hcount x]
        exact count_hole_move a last (last - 1) val x (by omega) (by omega)
      · intro j hj
        rw [hsuffix j hj, elemAt_set_ne]
        omega
    · refine ⟨by simp, fun x => rfl, ?_, ?_⟩
      · have hcmp' : comp val (elemAt a (last - 1)) = false := by simpa using hcmp
        intro j k hjk hk
        rw [elemAt_set, elemAt_set]
        by_cases hkl : k = last
        · subst hkl
          have hj' : ¬ (k = j ∧ k < a.length) := by omega
          rw [if_pos ⟨rfl, by omega⟩, if_neg hj']
          by_cases hj1 : j = k - 1
          · subst hj1
            exact hcmp'
          · exact hswo.negTrans
              (hsorted j (k - 1) (by omega) (by omega) (by omega) (by omega)) hcmp'
        · have hk'' : ¬ (last = k ∧ last < a.length) := by omega
          rw [if_neg hk'']
          by_cases hjl : j = last
          · subst hjl
            rw [if_pos ⟨rfl, by omega⟩]
            exact hswo.asymm (hshift k (by omega) (by omega))
          · have hj'' : ¬ (last = j ∧ last < a.length) := by omega
            rw [if_neg hj'']
            exact hsorted j k hjk (by omega) hjl hkl
      · intro j hj
        rw [elemAt_set_ne]
        omega

theorem count_set_elemAt_self (a : List α) (i : ℕ) (x : α) :
    (a.set i (elemAt a i)).count x = a.count x := by
  by_cases hi : i < a.length
  · have e := count_set_add a i (elemAt a i) x hi
    omega
  · rw [List.set_eq_of_length_le (not_lt.mp hi)]

theorem unguardedLinearInsert_spec {comp : α → α → Bool}
    (hswo : StrictWeakOrdering comp) (a : List α) (i : ℕ) (hi : i < a.length)
    (hsorted : SortedUpTo comp a i) :
    (unguardedLinearInsert comp a i).length = a.length
    ∧ (∀ x, (unguardedLinearInsert comp a i).count x = a.count x)
    ∧ SortedUpTo comp (unguardedLinearInsert comp a i) (i + 1)
    ∧ (∀ j, i < j → elemAt (unguardedLinearInsert comp a i) j = elemAt a j) := by
  obtain ⟨hlen, hcount, hsort, hsuffix⟩ :=
    unguardedLinearInsertLoop_spec hswo (elemAt a i) i i a i rfl le_rfl hi
      (fun j k hjk hk _ hk' => hsorted j k hjk (by omega))
      (fun k hk1 hk2 => by omega)
  refine ⟨hlen, fun x => ?_, hsort, hsuffix⟩
  rw [unguardedLinearInsert, hcount x, count_set_elemAt_self]

theorem moveBackward_fold (a : List α) (i : ℕ) (hi : i < a.length) :
    ∀ n, n ≤ i →
      ((List.range n).foldl (fun b k => b.set (i - k) (elemAt a (i - k - 1))) a).length = a.length
      ∧ (∀ j, elemAt ((List.range n).foldl (fun b k => b.set (i - k) (elemAt a (i - k - 1))) a) j
          = if i - n < j ∧ j ≤ i then elemAt a (j - 1) else elemAt a j)
      ∧ (∀ v x,
          (((List.range n).foldl (fun b k => b.set (i - k) (elemAt a (i - k - 1))) a).set
            (i - n) v).count x = (a.set i v).count x) := by
  intro n
  induction n with
  | zero =>
    intro _
    refine ⟨rfl, ?_, ?_⟩
    · intro j
      have hno : ¬ (i - 0 < j ∧ j ≤ i) := by omega
      simp only [List.range_zero, List.foldl_nil]
      rw [if_neg hno]
    · intro v x
      simp
  | succ n ih =>
    intro hn
    obtain ⟨hlen, helem, hcount⟩ := ih (by omega)
    rw [List.range_succ, List.foldl_append, List.foldl_cons, List.foldl_nil]
    refine ⟨by rw [List.length_set, hlen], ?_, ?_⟩
    · intro j
      rw [elemAt_set, helem j]
      by_cases hj : i - n = j
      · have h1 : (i - n = j ∧ i - n < ((List.range n).foldl
            (fun b k => b.set (i - k) (elemAt a (i - k - 1))) a).length) := ⟨hj, by omega⟩
        have h2 : (i - (n + 1) < j ∧ j ≤ i) := by omega
        rw [if_pos h1, if_pos h2]
        congr 1
        omega
      · have h1 : ¬ (i - n = j ∧ i - n < ((List.range n).foldl
            (fun b k => b.set (i - k) (elemAt a (i - k - 1))) a).length) := fun h => hj h.1
        rw [if_neg h1]
        by_cases h2 : i - n < j ∧ j ≤ i
        · have h3 : (i - (n + 1) < j ∧ j ≤ i) := by omega
          rw [if_pos h2, if_pos h3]
        · have h3 : ¬ (i - (n + 1) < j ∧ j ≤ i) := by omega
          rw [if_neg h2, if_neg h3]
    · intro v x
      have hprev : elemAt ((List.range n).foldl
          (fun b k => b.set (i - k) (elemAt a (i - k - 1))) a) (i - n - 1)
          = elemAt a (i - n - 1) := by
        rw [helem]
        have : ¬ (i - n < i - n - 1 ∧ i - n - 1 ≤ i) := by omega
        rw [if_neg this]
      have hidx : i - (n + 1) = i - n - 1 := by omega
      rw [hidx, ← hprev, count_hole_move _ _ _ _ _ (by omega) (by omega)]
      exact hcount v x

theorem insertionStep_spec {comp : α → α → Bool}
    (hswo : StrictWeakOrdering comp) (a : List α) (i : ℕ) (hi : i < a.length)
    (hsorted : SortedUpTo comp a i) :
    (if comp (elemAt a i) (elemAt a 0) then (moveBackward a 0 i).set 0 (elemAt a i)
      else unguardedLinearInsert comp a i).length = a.length
    ∧ (∀ x, (if comp (elemAt a i) (elemAt a 0) then (moveBackward a 0 i).set 0 (elemAt a i)
      else unguardedLinearInsert comp a i).count x = a.count x)
    ∧ SortedUpTo comp (if comp (elemAt a i) (elemAt a 0) then (moveBackward a 0 i).set 0 (elemAt a i)
      else unguardedLinearInsert comp a i) (i + 1) := by
  split_ifs with hcmp
  · obtain ⟨hlen, helem, hcount⟩ := moveBackward_fold a i hi i le_rfl
    have hmb : moveBackward a 0 i
        = (List.range i).foldl (fun b k => b.set (i - k) (elemAt a (i - k - 1))) a := by
      simp [moveBackward]
    rw [hmb]
    refine ⟨by rw [List.length_set, hlen], ?_, ?_⟩
    · intro x
      have h := hcount (elemAt a i) x
      rw [Nat.sub_self] at h
      rw [h, count_set_elemAt_self]
    · intro j k hjk hk
      have hk0 : ¬ (0 = k ∧ 0 < ((List.range i).foldl
          (fun b k => b.set (i - k) (elemAt a (i - k - 1))) a).length) := by omega
      have hk1 : (i - i < k ∧ k ≤ i) := by omega
      rw [elemAt_set, elemAt_set, if_neg hk0, helem k, if_pos hk1]
      by_cases hj0 : j = 0
      · subst hj0
        rw [if_pos ⟨rfl, by omega⟩]
        by_contra hne
        have hlt : comp (elemAt a (k - 1)) (elemAt a i) = true := by simpa using hne
        have htrans := hswo.2.1 _ _ _ hlt hcmp
        by_cases hk' : k - 1 = 0
        · rw [hk', hswo.1] at htrans
          cases htrans
        · rw [hsorted 0 (k - 1) (by omega) (by omega)] at htrans
          cases htrans
      · have hj0' : ¬ (0 = j ∧ 0 < ((List.range i).foldl
            (fun b k => b.set (i - k) (elemAt a (i - k - 1))) a).length) := by omega
        have hj1 : (i - i < j ∧ j ≤ i) := by omega
        rw [if_neg hj0', helem j, if_pos hj1]
        exact hsorted (j - 1) (k - 1) (by omega) (by omega)
  · obtain ⟨hlen, hcount, hsort, -⟩ := unguardedLinearInsert_spec hswo a i hi hsorted
    exact ⟨hlen, hcount, hsort⟩

theorem gnuInsertionSort_fold {comp : α → α → Bool}
    (hswo : StrictWeakOrdering comp) (a : List α) :
    ∀ m, m + 1 ≤ a.length →
      ((List.range m).foldl
        (fun b k =>
          if comp (elemAt b (0 + 1 + k)) (elemAt b 0) then
            (moveBackward b 0 (0 + 1 + k)).set 0 (elemAt b (0 + 1 + k))
          else unguardedLinearInsert comp b (0 + 1 + k)) a).length = a.length
      ∧ (∀ x, ((List.range m).foldl
        (fun b k =>
          if comp (elemAt b (0 + 1 + k)) (elemAt b 0) then
            (moveBackward b 0 (0 + 1 + k)).set 0 (elemAt b (0 + 1 + k))
          else unguardedLinearInsert comp b (0 + 1 + k)) a).count x = a.count x)
      ∧ SortedUpTo comp ((List.range m).foldl
        (fun b k =>
          if comp (elemAt b (0 + 1 + k)) (elemAt b 0) then
            (moveBackward b 0 (0 + 1 + k)).set 0 (elemAt b (0 + 1 + k))
          else unguardedLinearInsert comp b (0 + 1 + k)) a) (m + 1) := by
  intro m
  induction m with
  | zero =>
    intro _
    refine ⟨rfl, fun x => rfl, ?_⟩
    intro j k hjk hk
    omega
  | succ m ih =>
    intro hm
    obtain ⟨hlen, hcount, hsort⟩ := ih (by omega)
    rw [List.range_succ, List.foldl_append, List.foldl_cons, List.foldl_nil]
    have hidx : 0 + 1 + m = m + 1 := by omega
    rw [hidx]
    obtain ⟨hlen', hcount', hsort'⟩ := insertionStep_spec hswo _ (m + 1) (by omega) hsort
    exact ⟨by rw [hlen', hlen], fun x => by rw [hcount' x, hcount x], hsort'⟩

theorem gnuInsertionSort_spec {comp : α → α → Bool}
    (hswo : StrictWeakOrdering comp) (a : List α) (n : ℕ) (hn : n ≤ a.length) :
    (gnuInsertionSort comp a 0 n).length = a.length
    ∧ (∀ x, (gnuInsertionSort comp a 0 n).count x = a.count x)
    ∧ SortedUpTo comp (gnuInsertionSort comp a 0 n) n := by
  cases n with
  | zero =>
    refine ⟨by simp [gnuInsertionSort], fun x => by simp [gnuInsertionSort], ?_⟩
    intro j k _ hk
    omega
  | succ n =>
    have h := gnuInsertionSort_fold hswo a n hn
    have hrange : n + 1 - 0 - 1 = n := by omega
    unfold gnuInsertionSort
    rw [hrange]
    exact h

theorem unguardedInsertionSort_spec {comp : α → α → Bool}
    (hswo : StrictWeakOrdering comp) (a : List α) (first : ℕ)
    (hsorted : SortedUpTo comp a first) :
    ∀ m, first + m ≤ a.length →
      ((List.range m).foldl (fun b k => unguardedLinearInsert comp b (first + k)) a).length
        = a.length
      ∧ (∀ x, ((List.range m).foldl
          (fun b k => unguardedLinearInsert comp b (first + k)) a).count x = a.count x)
      ∧ SortedUpTo comp ((List.range m).foldl
          (fun b k => unguardedLinearInsert comp b (first + k)) a) (first + m) := by
  intro m
  induction m with
  | zero =>
    intro _
    exact ⟨rfl, fun x => rfl, hsorted⟩
  | succ m ih =>
    intro hm
    obtain ⟨hlen, hcount, hsort⟩ := ih (by omega)
    rw [List.range_succ, List.foldl_append, List.foldl_cons, List.foldl_nil]
    obtain ⟨hlen', hcount', hsort', -⟩ :=
      unguardedLinearInsert_spec hswo _ (first + m) (by omega) hsort
    exact ⟨by rw [hlen', hlen], fun x => by rw [hcount' x, hcount x], hsort'⟩

theorem finalInsertionSort_spec {comp : α → α → Bool}
    (hswo : StrictWeakOrdering comp) (a : List α) :
    (finalInsertionSort comp a 0 a.length).length = a.length
    ∧ (∀ x, (finalInsertionSort comp a 0 a.length).count x = a.count x)
    ∧ SortedUpTo comp (finalInsertionSort comp a 0 a.length) a.length := by
  unfold finalInsertionSort
  split_ifs with hbig
  · obtain ⟨hlen, hcount, hsort⟩ := gnuInsertionSort_spec hswo a (0 + 16) (by omega)
    have hsort16 : SortedUpTo comp (gnuInsertionSort comp a 0 (0 + 16)) (0 + 16) := hsort
    obtain ⟨hlen', hcount', hsort'⟩ :=
      unguardedInsertionSort_spec hswo _ (0 + 16) hsort16 (a.length - (0 + 16)) (by omega)
    have hlast : 0 + 16 + (a.length - (0 + 16)) = a.length := by omega
    rw [hlast] at hsort'
    unfold unguardedInsertionSort
    exact ⟨by rw [hlen', hlen], fun x => by rw [hcount' x, hcount x], hsort'⟩
  · exact gnuInsertionSort_spec hswo a a.length le_rfl

omit [DecidableEq α] in
theorem pairwise_of_sortedUpTo {comp : α → α → Bool} (a : List α)
    (h : SortedUpTo comp a a.length) : a.Pairwise (fun x y => comp y x = false) := by
  rw [List.pairwise_iff_getElem]
  intro i j hi hj hij
  have := h i j hij hj
  rwa [elemAt_of_lt a hi, elemAt_of_lt a hj] at this

omit [DecidableEq α] in
theorem elemAt_iterSwap (a : List α) (i j k : ℕ) (hi : i < a.length)
    (hj : j < a.length) :
    elemAt (iterSwap a i j) k
      = if k = j then elemAt a i else if k = i then elemAt a j else elemAt a k := by
  unfold iterSwap
  rw [elemAt_set, elemAt_set]
  by_cases hkj : k = j
  · subst hkj
    have h1 : (k = k ∧ k < (a.set i (elemAt a k)).length) := ⟨rfl, by simpa using hj⟩
    rw [if_pos h1, if_pos rfl]
  · have h1 : ¬ (j = k ∧ j < (a.set i (elemAt a j)).length) := fun h => hkj h.1.symm
    rw [if_neg h1, if_neg hkj]
    by_cases hki : k = i
    · subst hki
      rw [if_pos ⟨rfl, hi⟩, if_pos rfl]
    · have h2 : ¬ (i = k ∧ i < a.length) := fun h => hki h.1.symm
      rw [if_neg h2, if_neg hki]

theorem moveMedianToFirst_spec {comp : α → α → Bool}
    (hswo : StrictWeakOrdering comp) (l : List α) (result a b c : ℕ)
    (hr : result < l.length) (ha : a < l.length) (hb : b < l.length) (hc : c < l.length)
    (hra : result < a) (hab : a < b) (hbc : b < c) :
    (moveMedianToFirst comp l result a b c).length = l.length
    ∧ (∀ x, (moveMedianToFirst comp l result a b c).count x = l.count x)
    ∧ ∃ idx, a ≤ idx ∧ idx ≤ c
        ∧ comp (elemAt (moveMedianToFirst comp l result a b c) idx)
            (elemAt (moveMedianToFirst comp l result a b c) result) = false := by
  unfold moveMedianToFirst
  split_ifs with h1 h2 h3 h4 h5
  · refine ⟨length_iterSwap _ _ _, fun x => count_iterSwap _ _ _ x hr hb, c, by omega, le_rfl, ?_⟩
    rw [elemAt_iterSwap _ _ _ _ hr hb, elemAt_iterSwap _ _ _ _ hr hb]
    have e1 : ¬ c = b := by omega
    have e2 : ¬ c = result := by omega
    have e3 : ¬ result = b := by omega
    rw [if_neg e1, if_neg e2, if_neg e3, if_pos rfl]
    exact hswo.asymm h2
  · refine ⟨length_iterSwap _ _ _, fun x => count_iterSwap _ _ _ x hr hc, b, by omega, by omega, ?_⟩
    rw [elemAt_iterSwap _ _ _ _ hr hc, elemAt_iterSwap _ _ _ _ hr hc]
    have e1 : ¬ b = c := by omega
    have e2 : ¬ b = result := by omega
    have e3 : ¬ result = c := by omega
    rw [if_neg e1, if_neg e2, if_neg e3, if_pos rfl]
    simpa using h2
  · refine ⟨length_iterSwap _ _ _, fun x => count_iterSwap _ _ _ x hr ha, b, by omega, by omega, ?_⟩
    rw [elemAt_iterSwap _ _ _ _ hr ha, elemAt_iterSwap _ _ _ _ hr ha]
    have e1 : ¬ b = a := by omega
    have e2 : ¬ b = result := by omega
    have e3 : ¬ result = a := by omega
    rw [if_neg e1, if_neg e2, if_neg e3, if_pos rfl]
    exact hswo.asymm h1
  · refine ⟨length_iterSwap _ _ _, fun x => count_iterSwap _ _ _ x hr ha, c, by omega, le_rfl, ?_⟩
    rw [elemAt_iterSwap _ _ _ _ hr ha, elemAt_iterSwap _ _ _ _ hr ha]
    have e1 : ¬ c = a := by omega
    have e2 : ¬ c = result := by omega
    have e3 : ¬ result = a := by omega
    rw [if_neg e1, if_neg e2, if_neg e3, if_pos rfl]
    exact hswo.asymm h4
  · refine ⟨length_iterSwap _ _ _, fun x => count_iterSwap _ _ _ x hr hc, a, le_rfl, by omega, ?_⟩
    rw [elemAt_iterSwap _ _ _ _ hr hc, elemAt_iterSwap _ _ _ _ hr hc]
    have e1 : ¬ a = c := by omega
    have e2 : ¬ a = result := by omega
    have e3 : ¬ result = c := by omega
    rw [if_neg e1, if_neg e2, if_neg e3, if_pos rfl]
    simpa using h4
  · refine ⟨length_iterSwap _ _ _, fun x => count_iterSwap _ _ _ x hr hb, a, le_rfl, by omega, ?_⟩
    rw [elemAt_iterSwap _ _ _ _ hr hb, elemAt_iterSwap _ _ _ _ hr hb]
    have e1 : ¬ a = b := by omega
    have e2 : ¬ a = result := by omega
    have e3 : ¬ result = b := by omega
    rw [if_neg e1, if_neg e2, if_neg e3, if_pos rfl]
    simpa using h1

omit [DecidableEq α] in
theorem scanUp_spec (comp : α → α → Bool) (a : List α)
    (pivot idx : ℕ) (hidx : comp (elemAt a idx) (elemAt a pivot) = false) :
    ∀ fuel first, first ≤ idx → idx - first < fuel →
      first ≤ scanUp comp a pivot fuel first ∧ scanUp comp a pivot fuel first ≤ idx
      ∧ comp (elemAt a (scanUp comp a pivot fuel first)) (elemAt a pivot) = false := by
  intro fuel
  induction fuel with
  | zero =>
    intro first _ hfuel
    omega
  | succ fuel ih =>
    intro first hfirst hfuel
    simp only [scanUp]
    split_ifs with hcmp
    · have hne : first ≠ idx := by
        rintro rfl
        rw [hidx] at hcmp
        cases hcmp
      obtain ⟨h1, h2, h3⟩ := ih (first + 1) (by omega) (by omega)
      exact ⟨by omega, h2, h3⟩
    · exact ⟨le_rfl, hfirst, by simpa using hcmp⟩

omit [DecidableEq α] in
theorem scanDown_le (comp : α → α → Bool) (a : List α)
    (pivot : ℕ) : ∀ fuel last, scanDown comp a pivot fuel last ≤ last := by
  intro fuel
  induction fuel with
  | zero =>
    intro last
    exact le_rfl
  | succ fuel ih =>
    intro last
    simp only [scanDown]
    split_ifs
    · exact le_trans (ih (last - 1)) (Nat.sub_le _ _)
    · exact le_rfl

theorem unguardedPartition_spec (comp : α → α → Bool) (pivot bound : ℕ) :
    ∀ (fuel : ℕ) (a : List α) (first last : ℕ),
      pivot < first → bound < a.length → last ≤ bound + 1 →
      (∃ idx, first ≤ idx ∧ idx ≤ bound ∧ comp (elemAt a idx) (elemAt a pivot) = false) →
      (unguardedPartition comp pivot fuel a first last).1.length = a.length
      ∧ (∀ x, (unguardedPartition comp pivot fuel a first last).1.count x = a.count x)
      ∧ first ≤ (unguardedPartition comp pivot fuel a first last).2
      ∧ (unguardedPartition comp pivot fuel a first last).2 ≤ bound := by
  intro fuel
  induction fuel with
  | zero =>
    intro a first last _ _ _ hsent
    obtain ⟨idx, h1, h2, -⟩ := hsent
    exact ⟨rfl, fun x => rfl, le_rfl, by simp only [unguardedPartition]; omega⟩
  | succ fuel ih =>
    intro a first last hpivot hbound hlast hsent
    obtain ⟨idx, h1, h2, h3⟩ := hsent
    obtain ⟨hup1, hup2, hup3⟩ := scanUp_spec comp a pivot idx h3 a.length first h1 (by omega)
    have hdown := scanDown_le comp a pivot a.length (last - 1)
    simp only [unguardedPartition]
    split_ifs with hlt
    · have hf : scanUp comp a pivot a.length first < a.length := by omega
      have hl : scanDown comp a pivot a.length (last - 1) < a.length := by omega
      have hrec := ih (iterSwap a (scanUp comp a pivot a.length first)
          (scanDown comp a pivot a.length (last - 1)))
        (scanUp comp a pivot a.length first + 1)
        (scanDown comp a pivot a.length (last - 1))
        (by omega) (by rw [length_iterSwap]; exact hbound) (by omega)
        ⟨scanDown comp a pivot a.length (last - 1), by omega, by omega, by
          rw [elemAt_iterSwap _ _ _ _ hf hl, elemAt_iterSwap _ _ _ _ hf hl, if_pos rfl]
          have e1 : ¬ pivot = scanDown comp a pivot a.length (last - 1) := by omega
          have e2 : ¬ pivot = scanUp comp a pivot a.length first := by omega
          rw [if_neg e1, if_neg e2]
          exact hup3⟩
      obtain ⟨r1, r2, r3, r4⟩ := hrec
      refine ⟨by rw [r1, length_iterSwap], fun x => ?_, by omega, r4⟩
      rw [r2 x, count_iterSwap _ _ _ x hf hl]
    · exact ⟨rfl, fun x => rfl, hup1, by omega⟩

theorem unguardedPartitionPivot_spec {comp : α → α → Bool}
    (hswo : StrictWeakOrdering comp) (a : List α) (first last : ℕ)
    (hsize : last - first > 16) (hlast : last ≤ a.length) :
    (unguardedPartitionPivot comp a first last).1.length = a.length
    ∧ (∀ x, (unguardedPartitionPivot comp a first last).1.count x = a.count x)
    ∧ first + 1 ≤ (unguardedPartitionPivot comp a first last).2
    ∧ (unguardedPartitionPivot comp a first last).2 ≤ last - 1 := by
  obtain ⟨hlen, hcount, idx, hi1, hi2, hi3⟩ :=
    moveMedianToFirst_spec hswo a first (first + 1) (first + (last - first) / 2) (last - 1)
      (by omega) (by omega) (by omega) (by omega) (by omega) (by omega) (by omega)
  obtain ⟨r1, r2, r3, r4⟩ := unguardedPartition_spec comp first (last - 1) a.length
    (moveMedianToFirst comp a first (first + 1) (first + (last - first) / 2) (last - 1))
    (first + 1) last (by omega) (by rw [hlen]; omega) (by omega) ⟨idx, hi1, hi2, hi3⟩
  unfold unguardedPartitionPivot
  exact ⟨by rw [r1, hlen], fun x => by rw [r2 x, hcount x], r3, r4⟩

theorem pushHeap_spec (comp : α → α → Bool) (first topIndex : ℕ)
    (value : α) :
    ∀ (fuel : ℕ) (a : List α) (hole : ℕ), first + hole < a.length →
      (pushHeap comp first topIndex value fuel a hole).length = a.length
      ∧ (∀ x, (pushHeap comp first topIndex value fuel a hole).count x
          = (a.set (first + hole) value).count x) := by
  intro fuel
  induction fuel with
  | zero =>
    intro a hole _
    exact ⟨by simp [pushHeap], fun x => rfl⟩
  | succ fuel ih =>
    intro a hole hhole
    simp only [pushHeap]
    split_ifs with hcond
    · have hparent : first + (hole - 1) / 2 < a.length := by omega
      obtain ⟨r1, r2⟩ := ih (a.set (first + hole) (elemAt a (first + (hole - 1) / 2)))
        ((hole - 1) / 2) (by simpa using hparent)
      refine ⟨by rw [r1]; simp, fun x => ?_⟩
      rw [r2 x]
      exact count_hole_move a _ _ value x hhole hparent
    · exact ⟨by simp, fun x => rfl⟩

theorem adjustHeapLoop_spec (comp : α → α → Bool) (first len : ℕ) :
    ∀ (fuel : ℕ) (a : List α) (hole : ℕ), first + len ≤ a.length → hole < len →
      (adjustHeapLoop comp first len fuel a hole).1.length = a.length
      ∧ (adjustHeapLoop comp first len fuel a hole).2 < len
      ∧ (∀ v x, ((adjustHeapLoop comp first len fuel a hole).1.set
            (first + (adjustHeapLoop comp first len fuel a hole).2) v).count x
          = (a.set (first + hole) v).count x) := by
  intro fuel
  induction fuel with
  | zero =>
    intro a hole _ hhole
    exact ⟨rfl, hhole, fun v x => rfl⟩
  | succ fuel ih =>
    intro a hole hlen hhole
    simp only [adjustHeapLoop]
    split_ifs with hlt hcmp
    · have hc : 2 * (hole + 1) - 1 < len := by omega
      obtain ⟨r1, r2, r3⟩ := ih
        (a.set (first + hole) (elemAt a (first + (2 * (hole + 1) - 1)))) (2 * (hole + 1) - 1)
        (by simpa using hlen) hc
      refine ⟨by rw [r1]; simp, r2, fun v x => ?_⟩
      rw [r3 v x]
      exact count_hole_move a _ _ v x (by omega) (by omega)
    · have hc : 2 * (hole + 1) < len := by omega
      obtain ⟨r1, r2, r3⟩ := ih
        (a.set (first + hole) (elemAt a (first + 2 * (hole + 1)))) (2 * (hole + 1))
        (by simpa using hlen) hc
      refine ⟨by rw [r1]; simp, r2, fun v x => ?_⟩
      rw [r3 v x]
      exact count_hole_move a _ _ v x (by omega) (by omega)
    · exact ⟨rfl, hhole, fun v x => rfl⟩

theorem adjustHeapTail_spec (first len : ℕ) (s : List α × ℕ)
    (hlen : first + len ≤ s.1.length) (hhole : s.2 < len) :
    (adjustHeapTail first len s).1.length = s.1.length
    ∧ (adjustHeapTail first len s).2 < len
    ∧ (∀ v x, ((adjustHeapTail first len s).1.set (first + (adjustHeapTail first len s).2) v).count x
        = (s.1.set (first + s.2) v).count x) := by
  unfold adjustHeapTail
  split_ifs with hcond
  · have hc : 2 * (s.2 + 1) - 1 < len := by omega
    refine ⟨by simp, hc, fun v x => ?_⟩
    exact count_hole_move s.1 _ _ v x (by omega) (by omega)
  · exact ⟨rfl, hhole, fun v x => rfl⟩

theorem adjustHeap_spec (comp : α → α → Bool) (a : List α)
    (first hole len : ℕ) (value : α) (hlen : first + len ≤ a.length)
    (hhole : hole < len) :
    (adjustHeap comp a first hole len value).length = a.length
    ∧ (∀ x, (adjustHeap comp a first hole len value).count x
        = (a.set (first + hole) value).count x) := by
  obtain ⟨l1, l2, l3⟩ := adjustHeapLoop_spec comp first len len a hole hlen hhole
  obtain ⟨t1, t2, t3⟩ := adjustHeapTail_spec first len
    (adjustHeapLoop comp first len len a hole) (by rw [l1]; exact hlen) l2
  obtain ⟨p1, p2⟩ := pushHeap_spec comp first hole value len
    (adjustHeapTail first len (adjustHeapLoop comp first len len a hole)).1
    (adjustHeapTail first len (adjustHeapLoop comp first len len a hole)).2
    (by rw [t1, l1]; omega)
  unfold adjustHeap
  refine ⟨by rw [p1, t1, l1], fun x => ?_⟩
  rw [p2 x, t3 value x, l3 value x]

theorem popHeap_spec (comp : α → α → Bool) (a : List α)
    (first last result : ℕ) (hfirst : first < last) (hlast : last ≤ a.length)
    (hresult : result < a.length) :
    (popHeap comp a first last result).length = a.length
    ∧ (∀ x, (popHeap comp a first last result).count x = a.count x) := by
  obtain ⟨r1, r2⟩ := adjustHeap_spec comp (a.set result (elemAt a first)) first 0 (last - first)
    (elemAt a result) (by simp only [List.length_set]; omega) (by omega)
  unfold popHeap
  refine ⟨by rw [r1]; simp, fun x => ?_⟩
  rw [r2 x, Nat.add_zero, count_hole_move a result first (elemAt a result) x hresult (by omega),
    count_set_elemAt_self]

omit [Inhabited α] in
theorem foldl_range_preserves (f : List α → ℕ → List α)
    (a : List α) (m : ℕ)
    (hstep : ∀ (b : List α) (k : ℕ), b.length = a.length → k < m →
      (f b k).length = b.length ∧ ∀ x, (f b k).count x = b.count x) :
    ((List.range m).foldl f a).length = a.length
    ∧ ∀ x, ((List.range m).foldl f a).count x = a.count x := by
  induction m with
  | zero => exact ⟨rfl, fun x => rfl⟩
  | succ m ih =>
    obtain ⟨h1, h2⟩ := ih (fun b k hb hk => hstep b k hb (by omega))
    rw [List.range_succ, List.foldl_append, List.foldl_cons, List.foldl_nil]
    obtain ⟨s1, s2⟩ := hstep _ m h1 (by omega)
    exact ⟨by rw [s1, h1], fun x => by rw [s2 x, h2 x]⟩

theorem makeHeap_spec (comp : α → α → Bool) (a : List α)
    (first last : ℕ) (hlast : last ≤ a.length) :
    (makeHeap comp a first last).length = a.length
    ∧ (∀ x, (makeHeap comp a first last).count x = a.count x) := by
  unfold makeHeap
  split_ifs with hsmall
  · exact ⟨rfl, fun x => rfl⟩
  · apply foldl_range_preserves
    intro b k hb hk
    obtain ⟨r1, r2⟩ := adjustHeap_spec comp b first ((last - first - 2) / 2 - k) (last - first)
      (elemAt b (first + ((last - first - 2) / 2 - k))) (by omega) (by omega)
    exact ⟨r1, fun x => by rw [r2 x, count_set_elemAt_self]⟩

theorem sortHeap_spec (comp : α → α → Bool) (a : List α)
    (first last : ℕ) (hlast : last ≤ a.length) :
    (sortHeap comp a first last).length = a.length
    ∧ (∀ x, (sortHeap comp a first last).count x = a.count x) := by
  unfold sortHeap
  apply foldl_range_preserves
  intro b k hb hk
  exact popHeap_spec comp b first (last - 1 - k) (last - 1 - k) (by omega) (by omega) (by omega)

theorem heapSelect_spec (comp : α → α → Bool) (a : List α)
    (first middle last : ℕ) (hfirst : first < middle) (hmiddle : middle ≤ last)
    (hlast : last ≤ a.length) :
    (heapSelect comp a first middle last).length = a.length
    ∧ (∀ x, (heapSelect comp a first middle last).count x = a.count x) := by
  obtain ⟨m1, m2⟩ := makeHeap_spec comp a first middle (by omega)
  obtain ⟨r1, r2⟩ := foldl_range_preserves
    (fun b k =>
      if comp (elemAt b (middle + k)) (elemAt b first) then popHeap comp b first middle (middle + k)
      else b)
    (makeHeap comp a first middle) (last - middle)
    (by
      intro b k hb hk
      simp only
      split_ifs
      · exact popHeap_spec comp b first middle (middle + k) hfirst (by omega) (by omega)
      · exact ⟨rfl, fun x => rfl⟩)
  unfold heapSelect
  exact ⟨by rw [r1, m1], fun x => by rw [r2 x, m2 x]⟩

theorem partialSort_spec (comp : α → α → Bool) (a : List α)
    (first middle last : ℕ) (hfirst : first < middle) (hmiddle : middle ≤ last)
    (hlast : last ≤ a.length) :
    (partialSort comp a first middle last).length = a.length
    ∧ (∀ x, (partialSort comp a first middle last).count x = a.count x) := by
  obtain ⟨h1, h2⟩ := heapSelect_spec comp a first middle last hfirst hmiddle hlast
  obtain ⟨s1, s2⟩ := sortHeap_spec comp (heapSelect comp a first middle last) first middle
    (by omega)
  unfold partialSort
  exact ⟨by rw [s1, h1], fun x => by rw [s2 x, h2 x]⟩

theorem introsortLoop_spec {comp : α → α → Bool}
    (hswo : StrictWeakOrdering comp) :
    ∀ (depth : ℕ) (a : List α) (first last : ℕ), last ≤ a.length →
      (introsortLoop comp depth a first last).length = a.length
      ∧ (∀ x, (introsortLoop comp depth a first last).count x = a.count x) := by
  intro depth
  induction depth with
  | zero =>
    intro a first last hlast
    simp only [introsortLoop]
    split_ifs with hsize
    · exact partialSort_spec comp a first last last (by omega) le_rfl hlast
    · exact ⟨rfl, fun x => rfl⟩
  | succ depth ih =>
    intro a first last hlast
    simp only [introsortLoop]
    split_ifs with hsize
    · obtain ⟨p1, p2, p3, p4⟩ := unguardedPartitionPivot_spec hswo a first last hsize hlast
      obtain ⟨r1, r2⟩ := ih (unguardedPartitionPivot comp a first last).1
        (unguardedPartitionPivot comp a first last).2 last (by omega)
      obtain ⟨l1, l2⟩ := ih
        (introsortLoop comp depth (unguardedPartitionPivot comp a first last).1
          (unguardedPartitionPivot comp a first last).2 last)
        first (unguardedPartitionPivot comp a first last).2 (by omega)
      exact ⟨by rw [l1, r1, p1], fun x => by rw [l2 x, r2 x, p2 x]⟩
    · exact ⟨rfl, fun x => rfl⟩

theorem gnuSort_sorts (comp : α → α → Bool) (hswo : StrictWeakOrdering comp) (a : List α) :
    (gnuSort comp a).Perm a ∧ (gnuSort comp a).Pairwise (fun x y => comp y x = false) := by
  have key : (gnuSort comp a).length = a.length ∧ (∀ x, (gnuSort comp a).count x = a.count x)
      ∧ SortedUpTo comp (gnuSort comp a) a.length := by
    unfold gnuSort
    split_ifs with hempty
    · refine ⟨rfl, fun x => rfl, ?_⟩
      intro j k _ hk
      omega
    · obtain ⟨i1, i2⟩ := introsortLoop_spec hswo (2 * Nat.log2 a.length) a 0 a.length le_rfl
      obtain ⟨f1, f2, f3⟩ := finalInsertionSort_spec hswo
        (introsortLoop comp (2 * Nat.log2 a.length) a 0 a.length)
      rw [i1] at f1 f2 f3
      exact ⟨f1, fun x => by rw [f2 x, i2 x], f3⟩
  obtain ⟨h1, h2, h3⟩ := key
  refine ⟨List.perm_iff_count.mpr h2, ?_⟩
  apply pairwise_of_sortedUpTo
  rw [h1]
  exact h3

end GnuSortLemmas

theorem gnuSort_stdSort : StdSort gnuSort where
  perm := fun comp l hswo => (gnuSort_sorts comp hswo l).1
  sorted := fun comp l hswo => (gnuSort_sorts comp hswo l).2

/-! ## Helper lemmas: statistics -/

theorem mem_mapAddAt_lower (k : String) (v : ℚ) (b : String) (totals : CategoryTotals)
    (hb : b < k) (hall : ∀ p ∈ totals, b < p.1) :
    ∀ p ∈ mapAddAt k v totals, b < p.1 := by
  induction totals with
  | nil =>
    intro p hp
    simp only [mapAddAt, List.mem_singleton] at hp
    subst hp
    exact hb
  | cons q rest ih =>
    obtain ⟨k', v'⟩ := q
    intro p hp
    have hq := hall (k', v') (List.mem_cons_self _ _)
    have hrest : ∀ p ∈ rest, b < p.1 := fun p hp => hall p (List.mem_cons_of_mem _ hp)
    unfold mapAddAt at hp
    split_ifs at hp with h1 h2
    · rcases List.mem_cons.mp hp with rfl | hp
      · exact hb
      · exact hall p hp
    · rcases List.mem_cons.mp hp with rfl | hp
      · exact hq
      · exact ih hrest p hp
    · rcases List.mem_cons.mp hp with rfl | hp
      · exact hq
      · exact hrest p hp

theorem keysAscending_mapAddAt (k : String) (v : ℚ) (totals : CategoryTotals)
    (h : KeysAscending totals) : KeysAscending (mapAddAt k v totals) := by
  induction totals with
  | nil => simp [mapAddAt, KeysAscending]
  | cons q rest ih =>
    obtain ⟨k', v'⟩ := q
    have hhead : ∀ p ∈ rest, k' < p.1 := fun p hp => (List.pairwise_cons.mp h).1 p hp
    have htail : KeysAscending rest := (List.pairwise_cons.mp h).2
    unfold mapAddAt
    split_ifs with h1 h2
    · refine List.pairwise_cons.mpr ⟨?_, h⟩
      intro p hp
      rcases List.mem_cons.mp hp with rfl | hp
      · exact h1
      · exact lt_trans h1 (hhead p hp)
    · exact List.pairwise_cons.mpr ⟨mem_mapAddAt_lower k v k' rest h2 hhead, ih htail⟩
    · exact List.pairwise_cons.mpr ⟨hhead, htail⟩

theorem mem_mapAddAt (k : String) (v : ℚ) (totals : CategoryTotals) (h : KeysAscending totals)
    (c : String) (w : ℚ) :
    (c, w) ∈ mapAddAt k v totals ↔
      (c ≠ k ∧ (c, w) ∈ totals)
      ∨ (c = k ∧ ((∃ u, (k, u) ∈ totals ∧ w = u + v) ∨ ((∀ u, (k, u) ∉ totals) ∧ w = 0 + v))) := by
  induction totals with
  | nil =>
    simp only [mapAddAt, List.mem_singleton, Prod.mk.injEq, List.not_mem_nil, and_false,
      false_and, exists_false, not_false_eq_true, implies_true, true_and, false_or]
  | cons q rest ih =>
    obtain ⟨k', v'⟩ := q
    have hhead : ∀ p ∈ rest, k' < p.1 := fun p hp => (List.pairwise_cons.mp h).1 p hp
    have htail : KeysAscending rest := (List.pairwise_cons.mp h).2
    have hfresh : ∀ u, k < k' → (k, u) ∉ (k', v') :: rest := by
      intro u hk hmem
      rcases List.mem_cons.mp hmem with he | hmem
      · exact absurd (Prod.mk.inj he).1 (ne_of_lt hk)
      · exact absurd (lt_trans hk (hhead _ hmem)) (lt_irrefl _)
    unfold mapAddAt
    split_ifs with h1 h2
    · constructor
      · intro hmem
        rcases List.mem_cons.mp hmem with he | hrest
        · obtain ⟨rfl, rfl⟩ := Prod.mk.inj he
          exact Or.inr ⟨rfl, Or.inr ⟨fun u => hfresh u h1, rfl⟩⟩
        · refine Or.inl ⟨?_, hrest⟩
          rintro rfl
          exact hfresh w h1 hrest
      · rintro (⟨-, hmem⟩ | ⟨rfl, ⟨u, hu, -⟩ | ⟨-, rfl⟩⟩)
        · exact List.mem_cons_of_mem _ hmem
        · exact absurd hu (hfresh u h1)
        · exact List.mem_cons_self _ _
    · have hk'k : k' ≠ k := ne_of_lt h2
      have hnot : ∀ u, (k, u) ∈ (k', v') :: rest ↔ (k, u) ∈ rest := by
        intro u
        constructor
        · intro hmem
          rcases List.mem_cons.mp hmem with he | hmem
          · exact absurd (Prod.mk.inj he).1.symm hk'k
          · exact hmem
        · exact List.mem_cons_of_mem _
      rw [List.mem_cons, ih htail]
      simp only [hnot]
      constructor
      · rintro (he | h')
        · obtain ⟨rfl, rfl⟩ := Prod.mk.inj he
          exact Or.inl ⟨hk'k, List.mem_cons_self _ _⟩
        · rcases h' with ⟨hne, hmem⟩ | h'
          · exact Or.inl ⟨hne, List.mem_cons_of_mem _ hmem⟩
          · exact Or.inr h'
      · rintro (⟨hne, hmem⟩ | h')
        · rcases List.mem_cons.mp hmem with he | hmem
          · exact Or.inl he
          · exact Or.inr (Or.inl ⟨hne, hmem⟩)
        · exact Or.inr (Or.inr h')
    · have hkk : k = k' := le_antisymm (not_lt.mp h2) (not_lt.mp h1)
      subst hkk
      have honly : ∀ u, (k, u) ∈ (k, v') :: rest ↔ u = v' := by
        intro u
        constructor
        · intro hmem
          rcases List.mem_cons.mp hmem with he | hmem
          · exact (Prod.mk.inj he).2
          · exact absurd (hhead _ hmem) (lt_irrefl _)
        · rintro rfl
          exact List.mem_cons_self _ _
      constructor
      · intro hmem
        rcases List.mem_cons.mp hmem with he | hrest
        · obtain ⟨rfl, rfl⟩ := Prod.mk.inj he
          exact Or.inr ⟨rfl, Or.inl ⟨v', List.mem_cons_self _ _, rfl⟩⟩
        · refine Or.inl ⟨?_, List.mem_cons_of_mem _ hrest⟩
          rintro rfl
          exact absurd (hhead _ hrest) (by simp)
      · rintro (⟨hne, hmem⟩ | ⟨rfl, ⟨u, hu, rfl⟩ | ⟨hno, -⟩⟩)
        · rcases List.mem_cons.mp hmem with he | hmem
          · exact absurd (Prod.mk.inj he).1 hne
          · exact List.mem_cons_of_mem _ hmem
        · rw [(honly u).mp hu]
          exact List.mem_cons_self _ _
        · exact absurd (List.mem_cons_self _ _) (hno v')

theorem expensesOf_append (c : String) (l : List Transaction) (t : Transaction) :
    expensesOf c (l ++ [t])
      = if t.type = TransactionType.Expense ∧ t.category = c then expensesOf c l ++ [t]
        else expensesOf c l := by
  unfold expensesOf
  rw [List.filter_append]
  by_cases h : t.type = TransactionType.Expense ∧ t.category = c
  · simp [h]
  · simp [h]

theorem categoryTotals_invariant (l : List Transaction) :
    KeysAscending (l.foldl statisticsStep [])
    ∧ ∀ c w, (c, w) ∈ l.foldl statisticsStep [] ↔
        (expensesOf c l ≠ [] ∧ w = expenseTotal c l) := by
  induction l using List.reverseRecOn with
  | nil => simp [KeysAscending, expensesOf]
  | append_singleton l t ih =>
    obtain ⟨hsorted, hmem⟩ := ih
    rw [List.foldl_append, List.foldl_cons, List.foldl_nil]
    by_cases ht : t.type = TransactionType.Expense
    · have hstep : statisticsStep (l.foldl statisticsStep []) t
          = mapAddAt t.category t.amount (l.foldl statisticsStep []) := by
        simp [statisticsStep, Transaction.getType, Transaction.getCategory,
          Transaction.getAmount, ht]
      rw [hstep]
      refine ⟨keysAscending_mapAddAt _ _ _ hsorted, ?_⟩
      intro c w
      rw [mem_mapAddAt _ _ _ hsorted]
      unfold expenseTotal
      rw [expensesOf_append]
      by_cases hc : t.category = c
      · subst hc
        simp only [ht, and_self, if_true, ne_eq, not_true_eq_false, false_and, true_and,
          false_or, List.append_eq_nil, List.cons_ne_self, and_false, not_false_eq_true,
          List.map_append, List.map_cons, List.map_nil, List.sum_append, List.sum_cons,
          List.sum_nil, add_zero]
        constructor
        · rintro (⟨u, hu, rfl⟩ | ⟨hno, rfl⟩)
          · rw [((hmem _ _).mp hu).2]
            rfl
          · have hnil : expensesOf t.category l = [] := by
              by_contra hne
              exact hno _ ((hmem _ _).mpr ⟨hne, rfl⟩)
            simp [hnil]
        · intro hw
          by_cases hnil : expensesOf t.category l = []
          · right
            refine ⟨fun u hu => ((hmem _ _).mp hu).1 hnil, ?_⟩
            rw [hw, hnil]
            simp
          · left
            exact ⟨_, (hmem _ _).mpr ⟨hnil, rfl⟩, hw⟩
      · have hc' : c ≠ t.category := fun h => hc h.symm
        simp only [hc, and_false, if_false, ne_eq, hc', not_false_eq_true, true_and, false_and,
          or_false]
        exact hmem c w
    · have hstep : statisticsStep (l.foldl statisticsStep []) t = l.foldl statisticsStep [] := by
        simp [statisticsStep, Transaction.getType, ht]
      rw [hstep]
      refine ⟨hsorted, ?_⟩
      intro c w
      unfold expenseTotal
      rw [expensesOf_append]
      simp only [ht, false_and, if_false]
      exact hmem c w

theorem expensesOf_ne_nil_iff (c : String) (l : List Transaction) :
    expensesOf c l ≠ [] ↔
      ∃ t ∈ l, t.getType = TransactionType.Expense ∧ t.getCategory = c := by
  unfold expensesOf
  rw [ne_eq, List.filter_eq_nil_iff]
  simp [Transaction.getType, Transaction.getCategory]

/-! ## Helper lemmas: text streams -/

theorem isDigit_digitChar (d : ℕ) (h : d < 10) : (Nat.digitChar d).isDigit = true := by
  interval_cases d <;> rfl

theorem digitValue_digitChar (d : ℕ) (h : d < 10) : digitValue (Nat.digitChar d) = d := by
  interval_cases d <;> rfl

theorem isDigit_toNat {c : Char} (h : c.isDigit = true) : 48 ≤ c.toNat ∧ c.toNat ≤ 57 := by
  simp only [Char.isDigit, Bool.and_eq_true, decide_eq_true_eq] at h
  exact h

theorem not_isSpace_of_isDigit {c : Char} (h : c.isDigit = true) : isSpace c = false := by
  have := isDigit_toNat h
  simp only [isSpace, Bool.or_eq_false_iff, decide_eq_false_iff_not, Bool.and_eq_false_imp,
    decide_eq_true_eq]
  omega

theorem ne_of_isDigit {c d : Char} (h : c.isDigit = true) (hd : d.isDigit = false) : c ≠ d := by
  rintro rfl
  simp [h] at hd

theorem parseDigits_append (acc : ℕ) (l₁ l₂ : List Char) :
    parseDigits acc (l₁ ++ l₂) = parseDigits (parseDigits acc l₁) l₂ := by
  simp [parseDigits, List.foldl_append]

theorem parseDigits_cons (acc : ℕ) (c : Char) (l : List Char) :
    parseDigits acc (c :: l) = parseDigits (10 * acc + digitValue c) l := rfl

theorem parseDigits_nil (acc : ℕ) : parseDigits acc [] = acc := rfl

theorem toDigitsCore_isDigit (fuel n : ℕ) (ds : List Char)
    (hds : ∀ c ∈ ds, c.isDigit = true) :
    ∀ c ∈ Nat.toDigitsCore 10 fuel n ds, c.isDigit = true := by
  induction fuel generalizing n ds with
  | zero => simpa [Nat.toDigitsCore] using hds
  | succ fuel ih =>
    have hcons : ∀ c ∈ Nat.digitChar (n % 10) :: ds, c.isDigit = true := by
      intro c hc
      rcases List.mem_cons.mp hc with rfl | hc
      · exact isDigit_digitChar _ (Nat.mod_lt _ (by norm_num))
      · exact hds c hc
    unfold Nat.toDigitsCore
    simp only
    split_ifs with h0
    · exact hcons
    · exact ih _ _ hcons

theorem toDigits_isDigit (n : ℕ) : ∀ c ∈ Nat.toDigits 10 n, c.isDigit = true :=
  toDigitsCore_isDigit _ _ _ (by simp)

theorem toDigitsCore_ne_nil (fuel n : ℕ) (ds : List Char) :
    Nat.toDigitsCore 10 (fuel + 1) n ds ≠ [] := by
  induction fuel generalizing n ds with
  | zero =>
    unfold Nat.toDigitsCore
    simp only
    split_ifs <;> simp [Nat.toDigitsCore]
  | succ fuel ih =>
    unfold Nat.toDigitsCore
    simp only
    split_ifs
    · simp
    · exact ih _ _

theorem toDigits_ne_nil (n : ℕ) : Nat.toDigits 10 n ≠ [] :=
  toDigitsCore_ne_nil _ _ _

theorem parseDigits_toDigitsCore (fuel n : ℕ) (ds : List Char) (h : n < fuel) :
    parseDigits 0 (Nat.toDigitsCore 10 fuel n ds) = parseDigits n ds := by
  induction fuel generalizing n ds with
  | zero => omega
  | succ fuel ih =>
    unfold Nat.toDigitsCore
    simp only
    split_ifs with h0
    · rw [parseDigits_cons, digitValue_digitChar _ (Nat.mod_lt _ (by norm_num))]
      congr 1
      omega
    · rw [ih _ _ (by omega), parseDigits_cons,
        digitValue_digitChar _ (Nat.mod_lt _ (by norm_num))]
      congr 1
      omega

theorem parseDigits_toDigits (n : ℕ) : parseDigits 0 (Nat.toDigits 10 n) = n :=
  parseDigits_toDigitsCore _ _ _ (Nat.lt_succ_self n)

theorem fixedDigits_isDigit (w n : ℕ) : ∀ c ∈ fixedDigits w n, c.isDigit = true := by
  induction w generalizing n with
  | zero => simp [fixedDigits]
  | succ w ih =>
    intro c hc
    simp only [fixedDigits, List.mem_append, List.mem_singleton] at hc
    rcases hc with hc | rfl
    · exact ih _ c hc
    · exact isDigit_digitChar _ (Nat.mod_lt _ (by norm_num))

theorem fixedDigits_length (w n : ℕ) : (fixedDigits w n).length = w := by
  induction w generalizing n with
  | zero => rfl
  | succ w ih => simp [fixedDigits, ih]

theorem parseDigits_fixedDigits (w n acc : ℕ) :
    parseDigits acc (fixedDigits w n) = acc * 10 ^ w + n % 10 ^ w := by
  induction w generalizing n acc with
  | zero => simp [fixedDigits, parseDigits, Nat.mod_one]
  | succ w ih =>
    rw [fixedDigits, parseDigits_append, ih, parseDigits_cons, parseDigits_nil,
      digitValue_digitChar _ (Nat.mod_lt _ (by norm_num))]
    have h1 : n % 10 ^ (w + 1) = 10 * (n / 10 % 10 ^ w) + n % 10 := by
      rw [pow_succ, Nat.mul_comm (10 ^ w) 10, Nat.mod_mul]
      ring
    rw [h1]
    ring

theorem parseDigits_zeros (acc : ℕ) (zs : List Char) (h : ∀ c ∈ zs, c = '0') :
    parseDigits acc zs = acc * 10 ^ zs.length := by
  induction zs generalizing acc with
  | nil => simp [parseDigits]
  | cons c zs ih =>
    have hc : c = '0' := h c (List.mem_cons_self _ _)
    subst hc
    rw [parseDigits_cons, ih _ (fun c hc => h c (List.mem_cons_of_mem _ hc))]
    have : digitValue '0' = 0 := rfl
    rw [this, List.length_cons, pow_succ]
    ring

theorem stripTrailingZeros_split (ds : List Char) :
    ∃ zs : List Char, (∀ c ∈ zs, c = '0') ∧ ds = stripTrailingZeros ds ++ zs := by
  refine ⟨(ds.reverse.takeWhile (fun c => c = '0')).reverse, ?_, ?_⟩
  · intro c hc
    have := List.mem_takeWhile_imp (List.mem_reverse.mp hc)
    simpa using this
  · unfold stripTrailingZeros
    rw [← List.reverse_append, List.takeWhile_append_dropWhile, List.reverse_reverse]

theorem stripTrailingZeros_subset (ds : List Char) :
    ∀ c ∈ stripTrailingZeros ds, c ∈ ds := by
  intro c hc
  unfold stripTrailingZeros at hc
  exact List.mem_reverse.mp ((List.dropWhile_sublist _).subset (List.mem_reverse.mp hc))

theorem fraction_value_strip (ds : List Char) :
    (parseDigits 0 (stripTrailingZeros ds) : ℚ) / (10 : ℚ) ^ (stripTrailingZeros ds).length
      = (parseDigits 0 ds : ℚ) / (10 : ℚ) ^ ds.length := by
  obtain ⟨zs, hzs, hsplit⟩ := stripTrailingZeros_split ds
  have hlen : ds.length = (stripTrailingZeros ds).length + zs.length := by
    conv_lhs => rw [hsplit]
    simp
  have hval : parseDigits 0 ds = parseDigits 0 (stripTrailingZeros ds) * 10 ^ zs.length := by
    conv_lhs => rw [hsplit]
    rw [parseDigits_append, parseDigits_zeros _ _ hzs]
  rw [hval, hlen, pow_add]
  push_cast
  have h10 : ((10 : ℚ) ^ zs.length) ≠ 0 := by positivity
  have h10' : ((10 : ℚ) ^ (stripTrailingZeros ds).length) ≠ 0 := by positivity
  field_simp
  ring

theorem takeWhile_append_stop {p : Char → Bool} (l : List Char) (c : Char) (rest : List Char)
    (hl : ∀ x ∈ l, p x = true) (hc : p c = false) :
    (l ++ c :: rest).takeWhile p = l := by
  rw [List.takeWhile_append_of_pos hl, List.takeWhile_cons]
  simp [hc]

theorem dropWhile_append_stop {p : Char → Bool} (l : List Char) (c : Char) (rest : List Char)
    (hl : ∀ x ∈ l, p x = true) (hc : p c = false) :
    (l ++ c :: rest).dropWhile p = c :: rest := by
  rw [List.dropWhile_append_of_pos hl, List.dropWhile_cons]
  simp [hc]

theorem takeSign_of_isDigit (c : Char) (r : List Char) (h : c.isDigit = true) :
    takeSign (c :: r) = (false, c :: r) := by
  have h1 : c ≠ '-' := ne_of_isDigit h (by decide)
  have h2 : c ≠ '+' := ne_of_isDigit h (by decide)
  simp [takeSign, h1, h2]

theorem takeFraction_fractionText (ds : List Char) (c : Char) (rest : List Char)
    (hds : ∀ x ∈ ds, x.isDigit = true) (hc : c.isDigit = false) (hc' : c ≠ '.') :
    takeFraction (fractionText ds ++ c :: rest) = (stripTrailingZeros ds, c :: rest) := by
  unfold fractionText
  split_ifs with h
  · simp [takeFraction, hc', h]
  · have hs : ∀ x ∈ stripTrailingZeros ds, x.isDigit = true :=
      fun x hx => hds x (stripTrailingZeros_subset ds x hx)
    simp only [List.cons_append, takeFraction, if_true]
    rw [takeWhile_append_stop _ _ _ hs hc, dropWhile_append_stop _ _ _ hs hc]

theorem fractionText_append_head (ds : List Char) (c : Char) (rest : List Char)
    (hc : c.isDigit = false) :
    ∃ c' r', fractionText ds ++ c :: rest = c' :: r' ∧ c'.isDigit = false := by
  unfold fractionText
  split_ifs with h
  · exact ⟨c, rest, rfl, hc⟩
  · exact ⟨'.', _, rfl, by decide⟩

theorem dropWhile_isSpace_of_isDigit (c : Char) (r : List Char) (h : c.isDigit = true) :
    (c :: r).dropWhile isSpace = c :: r := by
  rw [List.dropWhile_cons]
  simp [not_isSpace_of_isDigit h]

theorem extractDouble_number (I : ℕ) (ds : List Char) (c : Char) (tail : List Char)
    (hds : ∀ x ∈ ds, x.isDigit = true) (hc : c.isDigit = false) (hc' : c ≠ '.') :
    extractDouble (Nat.toDigits 10 I ++ fractionText ds ++ c :: tail)
      = extractExponent ((I : ℚ) + (parseDigits 0 ds : ℚ) / (10 : ℚ) ^ ds.length) (c :: tail) := by
  have hI := toDigits_isDigit I
  obtain ⟨c₀, r₀, h₀⟩ := List.exists_cons_of_ne_nil (toDigits_ne_nil I)
  have hc₀ : c₀.isDigit = true := hI c₀ (by rw [h₀]; exact List.mem_cons_self _ _)
  obtain ⟨c₁, r₁, h₁, hc₁⟩ := fractionText_append_head ds c tail hc
  have hskip : (Nat.toDigits 10 I ++ fractionText ds ++ c :: tail).dropWhile isSpace
      = Nat.toDigits 10 I ++ fractionText ds ++ c :: tail := by
    rw [h₀, List.cons_append, List.cons_append]
    exact dropWhile_isSpace_of_isDigit _ _ hc₀
  have hsign : takeSign (Nat.toDigits 10 I ++ fractionText ds ++ c :: tail)
      = (false, Nat.toDigits 10 I ++ fractionText ds ++ c :: tail) := by
    rw [h₀, List.cons_append, List.cons_append]
    exact takeSign_of_isDigit _ _ hc₀
  have htake : (Nat.toDigits 10 I ++ fractionText ds ++ c :: tail).takeWhile Char.isDigit
      = Nat.toDigits 10 I := by
    rw [List.append_assoc, h₁]
    exact takeWhile_append_stop _ _ _ hI hc₁
  have hdrop : (Nat.toDigits 10 I ++ fractionText ds ++ c :: tail).dropWhile Char.isDigit
      = fractionText ds ++ c :: tail := by
    rw [List.append_assoc, h₁]
    exact dropWhile_append_stop _ _ _ hI hc₁
  unfold extractDouble
  simp only [hskip, hsign, htake, hdrop, takeFraction_fractionText ds c tail hds hc hc',
    toDigits_ne_nil, false_and, if_false]
  congr 1
  unfold mantissaValue
  rw [parseDigits_toDigits, fraction_value_strip]
  simp

theorem extractDouble_formatFixed (m p : ℕ) (rest : List Char) :
    extractDouble (formatFixed m p ++ ' ' :: rest) = some ((m : ℚ) / (10 : ℚ) ^ p, ' ' :: rest) := by
  unfold formatFixed
  rw [extractDouble_number _ _ _ _ (fixedDigits_isDigit _ _) (by decide) (by decide)]
  have hval : ((m / 10 ^ p : ℕ) : ℚ)
      + (parseDigits 0 (fixedDigits p (m % 10 ^ p)) : ℚ) / (10 : ℚ) ^ (fixedDigits p (m % 10 ^ p)).length
      = (m : ℚ) / (10 : ℚ) ^ p := by
    rw [parseDigits_fixedDigits, fixedDigits_length, Nat.mod_mod, zero_mul, zero_add]
    have h10 : ((10 : ℚ) ^ p) ≠ 0 := by positivity
    have hm : (m : ℚ) = ((m / 10 ^ p : ℕ) : ℚ) * (10 : ℚ) ^ p + ((m % 10 ^ p : ℕ) : ℚ) := by
      have := Nat.div_add_mod m (10 ^ p)
      conv_lhs => rw [← this]
      push_cast
      ring
    field_simp
    linarith
  rw [hval]
  simp [extractExponent]

theorem exponentDigits_spec (n : ℕ) :
    (∀ x ∈ (if n < 10 then ['0'] else []) ++ Nat.toDigits 10 n, x.isDigit = true)
    ∧ (if n < 10 then ['0'] else []) ++ Nat.toDigits 10 n ≠ []
    ∧ parseDigits 0 ((if n < 10 then ['0'] else []) ++ Nat.toDigits 10 n) = n := by
  refine ⟨?_, ?_, ?_⟩
  · intro x hx
    rcases List.mem_append.mp hx with hx | hx
    · split_ifs at hx
      · rw [List.mem_singleton.mp hx]
        rfl
      · exact absurd hx (List.not_mem_nil _)
    · exact toDigits_isDigit n x hx
  · simp [toDigits_ne_nil]
  · rw [parseDigits_append]
    split_ifs
    · exact parseDigits_toDigits n
    · exact parseDigits_toDigits n

theorem extractExponent_exponent (v : ℚ) (X : ℤ) (rest : List Char) :
    extractExponent v
        ('e' :: (if X < 0 then '-' else '+')
          :: ((if X.natAbs < 10 then ['0'] else []) ++ Nat.toDigits 10 X.natAbs ++ ' ' :: rest))
      = some (v * (10 : ℚ) ^ X, ' ' :: rest) := by
  obtain ⟨hdig, hne, hval⟩ := exponentDigits_spec X.natAbs
  have hsign : takeSign ((if X < 0 then '-' else '+')
      :: ((if X.natAbs < 10 then ['0'] else []) ++ Nat.toDigits 10 X.natAbs ++ ' ' :: rest))
      = (decide (X < 0),
          (if X.natAbs < 10 then ['0'] else []) ++ Nat.toDigits 10 X.natAbs ++ ' ' :: rest) := by
    by_cases hX : X < 0 <;> simp [takeSign, hX]
  have htake := takeWhile_append_stop (p := Char.isDigit) _ ' ' rest hdig (by decide)
  have hdrop := dropWhile_append_stop (p := Char.isDigit) _ ' ' rest hdig (by decide)
  simp only [extractExponent, true_or, if_true, hsign, htake, hdrop, hne, if_false, hval]
  by_cases hX : X < 0
  · simp only [hX, decide_True, if_true]
    have habs : -(X.natAbs : ℤ) = X := by omega
    rw [habs]
  · simp only [hX, decide_False, Bool.false_eq_true, if_false]
    have habs : (X.natAbs : ℤ) = X := by omega
    rw [habs]

theorem extractDouble_formatScientific (m : ℕ) (X : ℤ) (rest : List Char) :
    extractDouble (formatScientific m X ++ ' ' :: rest)
      = some ((m : ℚ) / (10 : ℚ) ^ 5 * (10 : ℚ) ^ X, ' ' :: rest) := by
  have hshape : formatScientific m X ++ ' ' :: rest
      = Nat.toDigits 10 (m / 100000) ++ fractionText (fixedDigits 5 (m % 100000))
        ++ 'e' :: ((if X < 0 then '-' else '+')
          :: ((if X.natAbs < 10 then ['0'] else []) ++ Nat.toDigits 10 X.natAbs ++ ' ' :: rest)) := by
    simp [formatScientific, List.append_assoc]
  rw [hshape, extractDouble_number _ _ _ _ (fixedDigits_isDigit _ _) (by decide) (by decide),
    extractExponent_exponent]
  have hval : ((m / 100000 : ℕ) : ℚ)
      + (parseDigits 0 (fixedDigits 5 (m % 100000)) : ℚ)
          / (10 : ℚ) ^ (fixedDigits 5 (m % 100000)).length
      = (m : ℚ) / (10 : ℚ) ^ 5 := by
    rw [parseDigits_fixedDigits, fixedDigits_length, zero_mul, zero_add]
    have hm : (m : ℚ) = ((m / 100000 : ℕ) : ℚ) * 100000 + ((m % 100000 : ℕ) : ℚ) := by
      have := Nat.div_add_mod m 100000
      conv_lhs => rw [← this]
      push_cast
      ring
    have hmod : m % 100000 % 10 ^ 5 = m % 100000 := by norm_num
    rw [hmod]
    norm_num
    linarith
  rw [hval]

theorem digitCountAux_zero (fuel : ℕ) : digitCountAux fuel 0 = 0 := by
  cases fuel <;> simp [digitCountAux]

theorem digitCountAux_spec (fuel n : ℕ) (h : n ≤ fuel) (hn : 0 < n) :
    ∃ k, digitCountAux fuel n = k + 1 ∧ 10 ^ k ≤ n ∧ n < 10 ^ (k + 1) := by
  induction fuel generalizing n with
  | zero => omega
  | succ fuel ih =>
    have hne : n ≠ 0 := by omega
    simp only [digitCountAux, hne, if_false]
    by_cases hsmall : n / 10 = 0
    · refine ⟨0, by rw [hsmall, digitCountAux_zero], by simpa using hn, ?_⟩
      simp only [zero_add, pow_one]
      omega
    · obtain ⟨k, hk, hlo, hhi⟩ := ih (n / 10) (by omega) (by omega)
      refine ⟨k + 1, by rw [hk], ?_, ?_⟩
      · rw [pow_succ]
        omega
      · rw [pow_succ]
        omega

theorem digitCount_spec (n : ℕ) (hn : 0 < n) :
    ∃ k, digitCount n = k + 1 ∧ 10 ^ k ≤ n ∧ n < 10 ^ (k + 1) :=
  digitCountAux_spec n n le_rfl hn

theorem decimalExponent_spec (q : ℚ) (hq : 0 < q) :
    (10 : ℚ) ^ decimalExponent q ≤ q ∧ q < (10 : ℚ) ^ (decimalExponent q + 1) := by
  have hnum : 0 < q.num := Rat.num_pos.mpr hq
  have hn : 0 < q.num.natAbs := Int.natAbs_pos.mpr (ne_of_gt hnum)
  obtain ⟨a, ha, halo, hahi⟩ := digitCount_spec _ hn
  obtain ⟨b, hb, hblo, hbhi⟩ := digitCount_spec _ q.den_pos
  have hqeq : q = (q.num.natAbs : ℚ) / (q.den : ℚ) := by
    have h1 : ((q.num.natAbs : ℤ) : ℚ) = (q.num : ℚ) := by
      rw [Int.natAbs_of_nonneg hnum.le]
    have h2 : ((q.num.natAbs : ℕ) : ℚ) = ((q.num.natAbs : ℤ) : ℚ) := (Int.cast_natCast _).symm
    rw [h2, h1]
    exact (Rat.num_div_den q).symm
  have hdpos : (0 : ℚ) < (q.den : ℚ) := by exact_mod_cast q.den_pos
  have halo' : (10 : ℚ) ^ a ≤ (q.num.natAbs : ℚ) := by exact_mod_cast halo
  have hahi' : (q.num.natAbs : ℚ) < (10 : ℚ) ^ (a + 1) := by exact_mod_cast hahi
  have hblo' : (10 : ℚ) ^ b ≤ (q.den : ℚ) := by exact_mod_cast hblo
  have hbhi' : (q.den : ℚ) < (10 : ℚ) ^ (b + 1) := by exact_mod_cast hbhi
  have he : ((digitCount q.num.natAbs : ℤ) - (digitCount q.den : ℤ)) = (a : ℤ) - (b : ℤ) := by
    rw [ha, hb]
    push_cast
    ring
  have h10 : (10 : ℚ) ≠ 0 := by norm_num
  have hupper : q < (10 : ℚ) ^ ((a : ℤ) - (b : ℤ) + 1) := by
    have hx : (10 : ℚ) ^ ((a : ℤ) - (b : ℤ) + 1) = (10 : ℚ) ^ (a + 1) / (10 : ℚ) ^ b := by
      have : ((a : ℤ) - (b : ℤ) + 1) = ((a + 1 : ℕ) : ℤ) - ((b : ℕ) : ℤ) := by push_cast; ring
      rw [this, zpow_sub₀ h10, zpow_natCast, zpow_natCast]
    rw [hx, hqeq, div_lt_div_iff₀ hdpos (by positivity)]
    calc (q.num.natAbs : ℚ) * (10 : ℚ) ^ b < (10 : ℚ) ^ (a + 1) * (10 : ℚ) ^ b := by
          apply mul_lt_mul_of_pos_right hahi' (by positivity)
      _ ≤ (10 : ℚ) ^ (a + 1) * (q.den : ℚ) := by
          apply mul_le_mul_of_nonneg_left hblo' (by positivity)
  have hlower : (10 : ℚ) ^ ((a : ℤ) - (b : ℤ) - 1) ≤ q := by
    have hx : (10 : ℚ) ^ ((a : ℤ) - (b : ℤ) - 1) = (10 : ℚ) ^ a / (10 : ℚ) ^ (b + 1) := by
      have : ((a : ℤ) - (b : ℤ) - 1) = ((a : ℕ) : ℤ) - ((b + 1 : ℕ) : ℤ) := by push_cast; ring
      rw [this, zpow_sub₀ h10, zpow_natCast, zpow_natCast]
    rw [hx, hqeq, div_le_div_iff₀ (by positivity) hdpos]
    calc (10 : ℚ) ^ a * (q.den : ℚ) ≤ (10 : ℚ) ^ a * (10 : ℚ) ^ (b + 1) := by
          apply mul_le_mul_of_nonneg_left hbhi'.le (by positivity)
      _ ≤ (q.num.natAbs : ℚ) * (10 : ℚ) ^ (b + 1) := by
          apply mul_le_mul_of_nonneg_right halo' (by positivity)
  unfold decimalExponent
  rw [he]
  split_ifs with hcase
  · exact ⟨hcase, hupper⟩
  · refine ⟨hlower, ?_⟩
    rw [sub_add_cancel]
    exact not_le.mp hcase

theorem roundHalfEven_intCast (z : ℤ) : roundHalfEven (z : ℚ) = z := by
  unfold roundHalfEven
  rw [Int.floor_intCast, sub_self]
  norm_num

theorem significand_exact (q : ℚ) (hq : 0 < q) (hrep : SixSignificantDigits q) :
    significand q = ((significand q).1, decimalExponent q)
    ∧ ((significand q).1 : ℚ) * (10 : ℚ) ^ (decimalExponent q - 5) = q := by
  obtain ⟨k, j, hk, hqk⟩ := hrep
  obtain ⟨hlo, hhi⟩ := decimalExponent_spec q hq
  have h10 : (10 : ℚ) ≠ 0 := by norm_num
  have h10pos : ∀ z : ℤ, (0 : ℚ) < (10 : ℚ) ^ z := fun z => zpow_pos (by norm_num) z
  have hscaled_lo : (10 : ℚ) ^ (5 : ℤ) ≤ q * (10 : ℚ) ^ (5 - decimalExponent q) := by
    have : (10 : ℚ) ^ (5 : ℤ)
        = (10 : ℚ) ^ decimalExponent q * (10 : ℚ) ^ (5 - decimalExponent q) := by
      rw [← zpow_add₀ h10]
      congr 1
      ring
    rw [this]
    exact mul_le_mul_of_nonneg_right hlo (h10pos _).le
  have hscaled_hi : q * (10 : ℚ) ^ (5 - decimalExponent q) < (10 : ℚ) ^ (6 : ℤ) := by
    have : (10 : ℚ) ^ (6 : ℤ)
        = (10 : ℚ) ^ (decimalExponent q + 1) * (10 : ℚ) ^ (5 - decimalExponent q) := by
      rw [← zpow_add₀ h10]
      congr 1
      ring
    rw [this]
    exact mul_lt_mul_of_pos_right hhi (h10pos _)
  have hscaled : q * (10 : ℚ) ^ (5 - decimalExponent q)
      = (k : ℚ) * (10 : ℚ) ^ (j + 5 - decimalExponent q) := by
    rw [hqk, mul_assoc, ← zpow_add₀ h10]
    congr 2
    ring
  have ht : 0 ≤ j + 5 - decimalExponent q := by
    by_contra hneg
    have hle : j + 5 - decimalExponent q ≤ -1 := by omega
    have hpow : (10 : ℚ) ^ (j + 5 - decimalExponent q) ≤ (10 : ℚ) ^ (-1 : ℤ) :=
      zpow_le_zpow_right₀ (by norm_num) hle
    have hk' : (k : ℚ) < 1000000 := by exact_mod_cast hk
    have hcontra : q * (10 : ℚ) ^ (5 - decimalExponent q) < (10 : ℚ) ^ (5 : ℤ) := by
      rw [hscaled]
      calc (k : ℚ) * (10 : ℚ) ^ (j + 5 - decimalExponent q)
          ≤ (k : ℚ) * (10 : ℚ) ^ (-1 : ℤ) :=
            mul_le_mul_of_nonneg_left hpow (Nat.cast_nonneg k)
        _ < 1000000 * (10 : ℚ) ^ (-1 : ℤ) := mul_lt_mul_of_pos_right hk' (h10pos _)
        _ = (10 : ℚ) ^ (5 : ℤ) := by norm_num
    exact absurd hscaled_lo (not_le.mpr hcontra)
  obtain ⟨t, ht'⟩ := Int.eq_ofNat_of_zero_le ht
  have hint : q * (10 : ℚ) ^ (5 - decimalExponent q) = (((k * 10 ^ t : ℕ) : ℤ) : ℚ) := by
    rw [hscaled, ht', zpow_natCast]
    push_cast
    ring
  have hround : (roundHalfEven (q * (10 : ℚ) ^ (5 - decimalExponent q))).toNat = k * 10 ^ t := by
    rw [hint, roundHalfEven_intCast]
    exact Int.toNat_natCast _
  have hlt : k * 10 ^ t < 1000000 := by
    have h := hscaled_hi
    rw [hint] at h
    have h' : (((k * 10 ^ t : ℕ) : ℤ) : ℚ) = ((k * 10 ^ t : ℕ) : ℚ) := Int.cast_natCast _
    rw [h'] at h
    have h6 : (10 : ℚ) ^ (6 : ℤ) = ((1000000 : ℕ) : ℚ) := by norm_num
    rw [h6] at h
    exact_mod_cast h
  have hsig : significand q = (k * 10 ^ t, decimalExponent q) := by
    unfold significand
    rw [hround]
    simp [ne_of_lt hlt]
  refine ⟨by rw [hsig], ?_⟩
  rw [hsig]
  simp only
  have h' : ((k * 10 ^ t : ℕ) : ℚ) = q * (10 : ℚ) ^ (5 - decimalExponent q) := by
    rw [hint]
    exact (Int.cast_natCast _).symm
  rw [h', mul_assoc, ← zpow_add₀ h10]
  have : (5 - decimalExponent q + (decimalExponent q - 5)) = 0 := by ring
  rw [this, zpow_zero, mul_one]

theorem SixSignificantDigits.nonneg {q : ℚ} (h : SixSignificantDigits q) : 0 ≤ q := by
  obtain ⟨k, j, -, rfl⟩ := h
  exact mul_nonneg (Nat.cast_nonneg k) (zpow_pos (by norm_num) j).le

theorem extractDouble_formatDouble (q : ℚ) (hrep : SixSignificantDigits q) (rest : List Char) :
    extractDouble (formatDouble q ++ ' ' :: rest) = some (q, ' ' :: rest) := by
  have h10 : (10 : ℚ) ≠ 0 := by norm_num
  rcases eq_or_lt_of_le hrep.nonneg with h0 | hpos
  · have hfmt : formatDouble q = formatFixed 0 0 := by
      rw [← h0]
      rfl
    rw [hfmt, extractDouble_formatFixed, ← h0]
    simp
  · obtain ⟨hsig, hval⟩ := significand_exact q hpos hrep
    have hX : (significand q).2 = decimalExponent q := by
      rw [hsig]
    have hfmt : formatDouble q
        = if -4 ≤ decimalExponent q ∧ decimalExponent q < 6 then
            formatFixed (significand q).1 (5 - decimalExponent q).toNat
          else formatScientific (significand q).1 (decimalExponent q) := by
      unfold formatDouble
      rw [abs_of_pos hpos, hX]
      simp [ne_of_gt hpos, not_lt.mpr hpos.le]
    rw [hfmt]
    split_ifs with hcase
    · rw [extractDouble_formatFixed]
      congr 2
      have hp : ((5 - decimalExponent q).toNat : ℤ) = 5 - decimalExponent q :=
        Int.toNat_of_nonneg (by omega)
      rw [← zpow_natCast, hp]
      conv_rhs => rw [← hval]
      rw [div_eq_mul_inv, ← zpow_neg]
      congr 2
      ring
    · rw [extractDouble_formatScientific]
      congr 2
      conv_rhs => rw [← hval]
      rw [zpow_sub₀ h10]
      have h5 : (10 : ℚ) ^ (5 : ℤ) = (10 : ℚ) ^ 5 := by norm_num
      rw [h5]
      ring

theorem extractString_skip (c : Char) (s : List Char) (hc : isSpace c = true) :
    extractString (c :: s) = extractString s := by
  unfold extractString
  rw [List.dropWhile_cons]
  simp [hc]

theorem extractDouble_skip (c : Char) (s : List Char) (hc : isSpace c = true) :
    extractDouble (c :: s) = extractDouble s := by
  unfold extractDouble
  rw [List.dropWhile_cons]
  simp [hc]

theorem extractInt_skip (c : Char) (s : List Char) (hc : isSpace c = true) :
    extractInt (c :: s) = extractInt s := by
  unfold extractInt
  rw [List.dropWhile_cons]
  simp [hc]

theorem extractString_whitespace (ws : List Char) (hws : ∀ c ∈ ws, isSpace c = true) :
    extractString ws = none := by
  unfold extractString
  rw [List.dropWhile_eq_nil_iff.mpr hws]
  simp

theorem extractString_word (ws word : List Char) (c : Char) (rest : List Char)
    (hws : ∀ x ∈ ws, isSpace x = true) (hword : ∀ x ∈ word, isSpace x = false)
    (hne : word ≠ []) (hc : isSpace c = true) :
    extractString (ws ++ word ++ c :: rest) = some (String.mk word, c :: rest) := by
  obtain ⟨w₀, wr, hw⟩ := List.exists_cons_of_ne_nil hne
  have hw₀ : isSpace w₀ = false := hword w₀ (by rw [hw]; exact List.mem_cons_self _ _)
  have hskip : (ws ++ word ++ c :: rest).dropWhile isSpace = word ++ c :: rest := by
    rw [List.append_assoc, List.dropWhile_append_of_pos hws, hw, List.cons_append,
      List.dropWhile_cons]
    simp [hw₀]
  have hword' : ∀ x ∈ word, (fun c => !isSpace c) x = true := by
    intro x hx
    simp [hword x hx]
  have htake := takeWhile_append_stop (p := fun c => !isSpace c) word c rest hword'
    (by simp [hc])
  have hdrop := dropWhile_append_stop (p := fun c => !isSpace c) word c rest hword'
    (by simp [hc])
  unfold extractString
  rw [hskip, htake, hdrop]
  simp [hne]

theorem extractInt_flag (b : Bool) (rest : List Char) :
    extractInt ((if b then '1' else '0') :: '\n' :: rest)
      = some ((if b then 1 else 0), '\n' :: rest) := by
  cases b
  · simp [extractInt, List.dropWhile_cons, List.takeWhile_cons, takeSign, isSpace, parseDigits,
      digitValue]
  · simp [extractInt, List.dropWhile_cons, List.takeWhile_cons, takeSign, isSpace, parseDigits,
      digitValue]

theorem readRecord_recordLine (t : Transaction) (ht : Storable t) (ws rest : List Char)
    (hws : ∀ c ∈ ws, isSpace c = true) :
    readRecord (ws ++ recordLine t ++ rest)
      = some ((t.category, t.amount,
          if t.type = TransactionType.Income then 1 else 0), '\n' :: rest) := by
  obtain ⟨hne, hword, hrep⟩ := ht
  have hshape : ws ++ recordLine t ++ rest
      = ws ++ t.category.data ++ ' ' :: (formatDouble t.amount
          ++ ' ' :: ((if decide (t.type = TransactionType.Income) then '1' else '0')
            :: '\n' :: rest)) := by
    simp [recordLine, Transaction.getCategory, Transaction.getAmount, Transaction.getType,
      List.append_assoc]
  unfold readRecord
  rw [hshape, extractString_word ws _ ' ' _ hws hword hne (by decide)]
  simp only
  rw [extractDouble_skip _ _ (by decide), extractDouble_formatDouble _ hrep]
  simp only
  rw [extractInt_skip _ _ (by decide), extractInt_flag]
  by_cases hty : t.type = TransactionType.Income <;> simp [hty]

theorem readRecord_whitespace (ws : List Char) (hws : ∀ c ∈ ws, isSpace c = true) :
    readRecord ws = none := by
  unfold readRecord
  rw [extractString_whitespace ws hws]

theorem typeOfFlag_flag (ty : TransactionType) :
    typeOfFlag (if ty = TransactionType.Income then 1 else 0) = ty := by
  cases ty <;> simp [typeOfFlag]

theorem loadLoop_saved (l : List Transaction) (hl : ∀ t ∈ l, Storable t) :
    ∀ (fuel : ℕ) (ws tail : List Char) (m : FinanceManager),
      (∀ c ∈ ws, isSpace c = true) →
      ∃ ws', (∀ c ∈ ws', isSpace c = true) ∧
        loadLoop (fuel + l.length) (ws ++ (l.map recordLine).flatten ++ tail) m
          = loadLoop fuel (ws' ++ tail) { transactions := m.transactions ++ l } := by
  induction l with
  | nil =>
    intro fuel ws tail m hws
    exact ⟨ws, hws, by simp⟩
  | cons t l ih =>
    intro fuel ws tail m hws
    have ht : Storable t := hl t (List.mem_cons_self _ _)
    obtain ⟨ws', hws', hrec⟩ := ih (fun x hx => hl x (List.mem_cons_of_mem _ hx)) fuel ['\n'] tail
      { transactions := m.transactions ++ [t] } (by simp [isSpace])
    refine ⟨ws', hws', ?_⟩
    have hshape : ws ++ ((t :: l).map recordLine).flatten ++ tail
        = ws ++ recordLine t ++ ((l.map recordLine).flatten ++ tail) := by
      simp [List.append_assoc]
    have hfuel : fuel + (t :: l).length = (fuel + l.length) + 1 := by
      simp [Nat.add_assoc]
    rw [hshape, hfuel, loadLoop, readRecord_recordLine t ht ws _ hws]
    simp only
    rw [typeOfFlag_flag, ctor_of_nonneg _ _ _ ht.2.2.nonneg]
    simp only
    have hstream : '\n' :: ((l.map recordLine).flatten ++ tail)
        = ['\n'] ++ (l.map recordLine).flatten ++ tail := by simp
    rw [hstream, hrec]
    simp [List.append_assoc]

theorem saveToFile_eq_flatten (m : FinanceManager) :
    m.saveToFile = (m.transactions.map recordLine).flatten := by
  have h : ∀ (l : List Transaction) (acc : List Char),
      l.foldl (fun file t => file ++ recordLine t) acc = acc ++ (l.map recordLine).flatten := by
    intro l
    induction l with
    | nil => simp
    | cons t l ih =>
      intro acc
      simp [ih, List.append_assoc]
  simpa using h m.transactions []

theorem length_le_flatten_recordLine (l : List Transaction) :
    l.length ≤ ((l.map recordLine).flatten).length := by
  induction l with
  | nil => simp
  | cons t l ih =>
    have : 1 ≤ (recordLine t).length := by
      simp only [recordLine, List.length_append, List.length_singleton]
      omega
    simp only [List.map_cons, List.flatten_cons, List.length_append, List.length_cons]
    omega

theorem loadFromFile_saveToFile (m : FinanceManager) (l : List Transaction)
    (hl : ∀ t ∈ l, Storable t) :
    m.loadFromFile (some (FinanceManager.mk l).saveToFile)
      = Outcome.ok { transactions := m.transactions ++ l } := by
  rw [saveToFile_eq_flatten]
  simp only [FinanceManager.loadFromFile]
  obtain ⟨extra, hextra⟩ := Nat.exists_eq_add_of_le (length_le_flatten_recordLine l)
  obtain ⟨ws', hws', hrec⟩ := loadLoop_saved l hl (extra + 1) [] [] m (by simp)
  have hfuel : ((l.map recordLine).flatten).length + 1 = (extra + 1) + l.length := by omega
  rw [hfuel]
  simp only [List.nil_append, List.append_nil] at hrec
  rw [hrec, loadLoop, readRecord_whitespace ws' hws']

/-! ## Helper lemmas: persistence -/

theorem dropWhile_length_le (p : Char → Bool) (l : List Char) :
    (l.dropWhile p).length ≤ l.length :=
  (List.dropWhile_sublist p).length_le

theorem takeSign_length (s : List Char) : (takeSign s).2.length ≤ s.length := by
  cases s with
  | nil => simp [takeSign]
  | cons c r =>
    simp only [takeSign]
    split_ifs <;> simp

theorem takeFraction_length (s : List Char) : (takeFraction s).2.length ≤ s.length := by
  cases s with
  | nil => simp [takeFraction]
  | cons c r =>
    simp only [takeFraction]
    split_ifs
    · exact le_trans (dropWhile_length_le _ _) (Nat.le_succ _)
    · simp

theorem extractExponent_length (v : ℚ) (s : List Char) (q : ℚ) (r : List Char)
    (h : extractExponent v s = some (q, r)) : r.length ≤ s.length := by
  cases s with
  | nil =>
    simp only [extractExponent, Option.some.injEq, Prod.mk.injEq] at h
    rw [← h.2]
  | cons c t =>
    simp only [extractExponent] at h
    have hdrop : ((takeSign t).2.dropWhile Char.isDigit).length ≤ (c :: t).length :=
      le_trans (dropWhile_length_le _ _) (le_trans (takeSign_length t) (Nat.le_succ _))
    split_ifs at h <;> simp only [Option.some.injEq, Prod.mk.injEq] at h <;> rw [← h.2]
    · exact hdrop
    · exact hdrop

theorem extractDouble_length (s : List Char) (q : ℚ) (r : List Char)
    (h : extractDouble s = some (q, r)) : r.length ≤ s.length := by
  unfold extractDouble at h
  simp only at h
  split_ifs at h
  have h1 := extractExponent_length _ _ _ _ h
  have h2 := takeFraction_length
    ((takeSign (s.dropWhile isSpace)).2.dropWhile Char.isDigit)
  have h3 := dropWhile_length_le Char.isDigit (takeSign (s.dropWhile isSpace)).2
  have h4 := takeSign_length (s.dropWhile isSpace)
  have h5 := dropWhile_length_le isSpace s
  omega

theorem extractInt_length (s : List Char) (v : ℤ) (r : List Char)
    (h : extractInt s = some (v, r)) : r.length ≤ s.length := by
  unfold extractInt at h
  simp only at h
  have h3 := dropWhile_length_le Char.isDigit (takeSign (s.dropWhile isSpace)).2
  have h4 := takeSign_length (s.dropWhile isSpace)
  have h5 := dropWhile_length_le isSpace s
  split_ifs at h <;> simp only [Option.some.injEq, Prod.mk.injEq] at h <;> rw [← h.2] <;> omega

theorem extractString_length (s : List Char) (w : String) (r : List Char)
    (h : extractString s = some (w, r)) : r.length < s.length := by
  unfold extractString at h
  split_ifs at h with hnil
  simp only [Option.some.injEq, Prod.mk.injEq] at h
  rw [← h.2]
  have h1 := List.takeWhile_append_dropWhile (fun c => !isSpace c) (s.dropWhile isSpace)
  have h2 : ((s.dropWhile isSpace).takeWhile (fun c => !isSpace c)).length
      + ((s.dropWhile isSpace).dropWhile (fun c => !isSpace c)).length
      = (s.dropWhile isSpace).length := by
    rw [← List.length_append, h1]
  have h3 : 0 < ((s.dropWhile isSpace).takeWhile (fun c => !isSpace c)).length :=
    List.length_pos.mpr hnil
  have h5 := dropWhile_length_le isSpace s
  omega

theorem readRecord_length (s : List Char) (r : String × ℚ × ℤ) (rest : List Char)
    (h : readRecord s = some (r, rest)) : rest.length < s.length := by
  unfold readRecord at h
  cases h1 : extractString s with
  | none => simp [h1] at h
  | some p1 =>
    obtain ⟨w, s₁⟩ := p1
    simp only [h1] at h
    cases h2 : extractDouble s₁ with
    | none => simp [h2] at h
    | some p2 =>
      obtain ⟨q, s₂⟩ := p2
      simp only [h2] at h
      cases h3 : extractInt s₂ with
      | none => simp [h3] at h
      | some p3 =>
        obtain ⟨v, s₃⟩ := p3
        simp only [h3, Option.some.injEq, Prod.mk.injEq] at h
        rw [← h.2]
        have := extractString_length _ _ _ h1
        have := extractDouble_length _ _ _ h2
        have := extractInt_length _ _ _ h3
        omega

theorem Reads.length_le {s rest : List Char} {recs : List (String × ℚ × ℤ)}
    (h : Reads s recs rest) : recs.length + rest.length ≤ s.length := by
  induction h with
  | done s => simp
  | step h _ ih =>
    have := readRecord_length _ _ _ h
    simp only [List.length_cons]
    omega

theorem loadLoop_fuel (fuel₁ fuel₂ : ℕ) (s : List Char) (m : FinanceManager)
    (h₁ : s.length < fuel₁) (h₂ : s.length < fuel₂) :
    loadLoop fuel₁ s m = loadLoop fuel₂ s m := by
  induction fuel₁ generalizing fuel₂ s m with
  | zero => omega
  | succ fuel₁ ih =>
    cases fuel₂ with
    | zero => omega
    | succ fuel₂ =>
      simp only [loadLoop]
      cases hr : readRecord s with
      | none => rfl
      | some p =>
        obtain ⟨⟨category, amount, typeInt⟩, rest⟩ := p
        simp only
        have hlen := readRecord_length _ _ _ hr
        cases Transaction.ctor category amount (typeOfFlag typeInt) with
        | error what => rfl
        | ok t => exact ih fuel₂ rest _ (by omega) (by omega)

theorem loadLoop_reads {s rest : List Char} {recs : List (String × ℚ × ℤ)}
    (h : Reads s recs rest) (hnonneg : ∀ r ∈ recs, 0 ≤ r.2.1) (fuel : ℕ) (m : FinanceManager) :
    loadLoop (fuel + recs.length) s m
      = loadLoop fuel rest { transactions := m.transactions ++ recs.map recordTransaction } := by
  induction h generalizing m with
  | done s => simp
  | @step s s₁ rest r recs h _ ih =>
    obtain ⟨category, amount, typeInt⟩ := r
    have hfuel : fuel + ((category, amount, typeInt) :: recs).length
        = (fuel + recs.length) + 1 := by
      simp [Nat.add_assoc]
    have hamount : 0 ≤ amount := hnonneg (category, amount, typeInt) (List.mem_cons_self _ _)
    rw [hfuel, loadLoop, h]
    simp only
    rw [ctor_of_nonneg _ _ _ hamount]
    simp only
    rw [ih (fun r hr => hnonneg r (List.mem_cons_of_mem _ hr))]
    simp [recordTransaction, List.append_assoc]

theorem loadFromFile_reads (m : FinanceManager) {content rest : List Char}
    {recs : List (String × ℚ × ℤ)} (h : Reads content recs rest)
    (hnonneg : ∀ r ∈ recs, 0 ≤ r.2.1) :
    m.loadFromFile (some content)
      = loadLoop (rest.length + 1) rest
          { transactions := m.transactions ++ recs.map recordTransaction } := by
  have hlen := h.length_le
  obtain ⟨extra, hextra⟩ := Nat.exists_eq_add_of_le hlen
  have hfuel : content.length + 1 = (rest.length + extra + 1) + recs.length := by omega
  simp only [FinanceManager.loadFromFile]
  rw [hfuel, loadLoop_reads h hnonneg]
  exact loadLoop_fuel _ _ _ _ (by omega) (by omega)

theorem Reads.exists_stop (content : List Char) :
    ∃ recs rest, Reads content recs rest ∧ readRecord rest = none := by
  have key : ∀ (n : ℕ) (s : List Char), s.length ≤ n →
      ∃ recs rest, Reads s recs rest ∧ readRecord rest = none := by
    intro n
    induction n with
    | zero =>
      intro s hs
      have hnil : s = [] := List.length_eq_zero.mp (Nat.le_zero.mp hs)
      subst hnil
      exact ⟨[], [], Reads.done _, readRecord_whitespace [] (by simp)⟩
    | succ n ih =>
      intro s hs
      cases hr : readRecord s with
      | none => exact ⟨[], s, Reads.done _, hr⟩
      | some p =>
        obtain ⟨r, s₁⟩ := p
        have hlen := readRecord_length _ _ _ hr
        obtain ⟨recs, rest, hreads, hstop⟩ := ih s₁ (by omega)
        exact ⟨r :: recs, rest, Reads.step hr hreads, hstop⟩
  exact key content.length content le_rfl

/-! ## Helper lemmas: sorting twice, statistics under permutation -/

theorem pairwise_amount_of_stdSort {srt : SortImpl} (h : StdSort srt) (l : List Transaction) :
    (srt amountLess l).Pairwise (fun a b => a.getAmount ≤ b.getAmount) := by
  refine (h.sorted amountLess l amountLess_strictWeakOrdering).imp ?_
  intro a b hab
  simpa [amountLess] using hab

theorem eq_of_perm_of_pairwise_amount {l₁ l₂ : List Transaction} (hp : l₁.Perm l₂)
    (h₁ : l₁.Pairwise (fun a b => a.getAmount ≤ b.getAmount))
    (h₂ : l₂.Pairwise (fun a b => a.getAmount ≤ b.getAmount))
    (hties : ∀ x ∈ l₂, ∀ y ∈ l₂, x.getAmount = y.getAmount → x = y) : l₁ = l₂ := by
  refine List.Perm.eq_of_sorted ?_ h₁ h₂ hp
  intro a b ha hb hab hba
  exact hties a (hp.subset ha) b hb (le_antisymm hab hba)

theorem expenseTotal_perm {l l' : List Transaction} (h : l.Perm l') (c : String) :
    expenseTotal c l = expenseTotal c l' := by
  unfold expenseTotal expensesOf
  exact ((h.filter _).map _).sum_eq

theorem expensesOf_ne_nil_perm {l l' : List Transaction} (h : l.Perm l') (c : String) :
    expensesOf c l ≠ [] ↔ expensesOf c l' ≠ [] := by
  rw [expensesOf_ne_nil_iff, expensesOf_ne_nil_iff]
  constructor
  · rintro ⟨t, ht, h1, h2⟩
    exact ⟨t, h.subset ht, h1, h2⟩
  · rintro ⟨t, ht, h1, h2⟩
    exact ⟨t, h.symm.subset ht, h1, h2⟩

theorem keysAscending_nodup {totals : CategoryTotals} (h : KeysAscending totals) :
    totals.Nodup := by
  refine List.Pairwise.imp ?_ h
  intro p q hpq heq
  rw [heq] at hpq
  exact lt_irrefl _ hpq

theorem categoryTotals_perm {l l' : List Transaction} (h : l.Perm l') :
    (FinanceManager.mk l).categoryTotals = (FinanceManager.mk l').categoryTotals := by
  obtain ⟨hs, hm⟩ := categoryTotals_invariant l
  obtain ⟨hs', hm'⟩ := categoryTotals_invariant l'
  unfold FinanceManager.categoryTotals
  have hperm : (l.foldl statisticsStep []).Perm (l'.foldl statisticsStep []) := by
    rw [List.perm_ext_iff_of_nodup (keysAscending_nodup hs) (keysAscending_nodup hs')]
    rintro ⟨c, w⟩
    rw [hm, hm', expensesOf_ne_nil_perm h c, expenseTotal_perm h c]
  refine List.Perm.eq_of_sorted ?_ hs hs' hperm
  intro p q _ _ hpq hqp
  exact absurd (lt_trans hpq hqp) (lt_irrefl _)

theorem sum_mapAddAt (k : String) (v : ℚ) (totals : CategoryTotals) :
    ((mapAddAt k v totals).map Prod.snd).sum = (totals.map Prod.snd).sum + v := by
  induction totals with
  | nil => simp [mapAddAt]
  | cons q rest ih =>
    obtain ⟨k', v'⟩ := q
    unfold mapAddAt
    split_ifs
    · simp only [List.map_cons, List.sum_cons]
      ring
    · simp only [List.map_cons, List.sum_cons, ih]
      ring
    · simp only [List.map_cons, List.sum_cons]
      ring

theorem sum_categoryTotals (l : List Transaction) :
    (((FinanceManager.mk l).categoryTotals).map Prod.snd).sum
      = ((l.filter (fun t => t.type = TransactionType.Expense)).map Transaction.amount).sum := by
  unfold FinanceManager.categoryTotals
  induction l using List.reverseRecOn with
  | nil => simp
  | append_singleton l t ih =>
    rw [List.foldl_append, List.foldl_cons, List.foldl_nil, List.filter_append, List.map_append,
      List.sum_append, ← ih]
    by_cases ht : t.type = TransactionType.Expense
    · simp [statisticsStep, Transaction.getType, Transaction.getCategory, Transaction.getAmount,
        ht, sum_mapAddAt]
    · simp [statisticsStep, Transaction.getType, ht]

/-! ## Helper lemmas: loading into a ledger, the saved text -/

theorem loadLoop_prepend (l : List Transaction) (fuel : ℕ) (s : List Char)
    (m : FinanceManager) :
    loadLoop fuel s { transactions := l ++ m.transactions } = (loadLoop fuel s m).prepend l := by
  induction fuel generalizing s m with
  | zero => rfl
  | succ fuel ih =>
    simp only [loadLoop]
    cases hr : readRecord s with
    | none => rfl
    | some p =>
      obtain ⟨⟨category, amount, typeInt⟩, rest⟩ := p
      simp only
      cases hc : Transaction.ctor category amount (typeOfFlag typeInt) with
      | error what => rfl
      | ok t =>
        simp only
        rw [← ih rest { transactions := m.transactions ++ [t] }, List.append_assoc]

theorem loadFromFile_prepend (m : FinanceManager) (content : List Char) :
    m.loadFromFile (some content)
      = (FinanceManager.empty.loadFromFile (some content)).prepend m.transactions := by
  simp only [FinanceManager.loadFromFile]
  rw [← loadLoop_prepend]
  simp [FinanceManager.empty]

theorem loadFromFile_reads_negative (m : FinanceManager) {content rest rest' : List Char}
    {recs : List (String × ℚ × ℤ)} {r : String × ℚ × ℤ} (h : Reads content recs rest)
    (hnonneg : ∀ r ∈ recs, 0 ≤ r.2.1) (hnext : readRecord rest = some (r, rest'))
    (hneg : r.2.1 < 0) :
    m.loadFromFile (some content)
      = Outcome.threw negativeAmountMessage
          { transactions := m.transactions ++ recs.map recordTransaction } := by
  obtain ⟨category, amount, typeInt⟩ := r
  rw [loadFromFile_reads m h hnonneg, loadLoop, hnext]
  simp only
  rw [ctor_of_neg _ _ _ hneg]

theorem Reads.split_negative {s rest : List Char} {recs : List (String × ℚ × ℤ)}
    (h : Reads s recs rest) (hneg : ∃ r ∈ recs, r.2.1 < 0) :
    ∃ pre r mid mid', Reads s pre mid ∧ (∀ x ∈ pre, 0 ≤ x.2.1)
      ∧ readRecord mid = some (r, mid') ∧ r.2.1 < 0 := by
  induction h with
  | done s => simp at hneg
  | @step s s₁ rest r recs h hrest ih =>
    by_cases hr : r.2.1 < 0
    · exact ⟨[], r, s, s₁, Reads.done _, by simp, h, hr⟩
    · have hneg' : ∃ x ∈ recs, x.2.1 < 0 := by
        obtain ⟨x, hx, hxneg⟩ := hneg
        rcases List.mem_cons.mp hx with hx | hx
        · rw [hx] at hxneg
          exact absurd hxneg hr
        · exact ⟨x, hx, hxneg⟩
      obtain ⟨pre, r', mid, mid', hpre, hprenn, hnext, hr'⟩ := ih hneg'
      refine ⟨r :: pre, r', mid, mid', Reads.step h hpre, ?_, hnext, hr'⟩
      intro x hx
      rcases List.mem_cons.mp hx with hx | hx
      · rw [hx]
        exact not_lt.mp hr
      · exact hprenn x hx

theorem loadFromFile_ok_reads {m : FinanceManager} {content : List Char} {s : FinanceManager}
    (h : m.loadFromFile (some content) = Outcome.ok s) :
    ∃ recs rest, Reads content recs rest ∧ readRecord rest = none ∧ (∀ r ∈ recs, 0 ≤ r.2.1)
      ∧ s = { transactions := m.transactions ++ recs.map recordTransaction } := by
  obtain ⟨recs, rest, hreads, hstop⟩ := Reads.exists_stop content
  by_cases hneg : ∃ r ∈ recs, r.2.1 < 0
  · obtain ⟨pre, r, mid, mid', hpre, hprenn, hnext, hr⟩ := hreads.split_negative hneg
    rw [loadFromFile_reads_negative m hpre hprenn hnext hr] at h
    exact absurd h (by simp)
  · have hnn : ∀ r ∈ recs, 0 ≤ r.2.1 := by
      intro r hr
      by_contra hcon
      exact hneg ⟨r, hr, not_le.mp hcon⟩
    refine ⟨recs, rest, hreads, hstop, hnn, ?_⟩
    rw [loadFromFile_reads m hreads hnn, loadLoop, hstop] at h
    simp only [Outcome.ok.injEq] at h
    exact h.symm

theorem fractionText_numberChar (ds : List Char) (h : ∀ c ∈ ds, c.isDigit = true) :
    ∀ c ∈ fractionText ds, isNumberChar c = true := by
  intro c hc
  unfold fractionText at hc
  split_ifs at hc
  · simp at hc
  · rcases List.mem_cons.mp hc with hc | hc
    · simp [isNumberChar, hc]
    · simp [isNumberChar, h c (stripTrailingZeros_subset ds c hc)]

theorem toDigits_numberChar (n : ℕ) : ∀ c ∈ Nat.toDigits 10 n, isNumberChar c = true := by
  intro c hc
  simp [isNumberChar, toDigits_isDigit n c hc]

theorem formatFixed_numberChar (m p : ℕ) : ∀ c ∈ formatFixed m p, isNumberChar c = true := by
  intro c hc
  simp only [formatFixed, List.mem_append] at hc
  rcases hc with hc | hc
  · exact toDigits_numberChar _ c hc
  · exact fractionText_numberChar _ (fixedDigits_isDigit _ _) c hc

theorem formatScientific_numberChar (m : ℕ) (X : ℤ) :
    ∀ c ∈ formatScientific m X, isNumberChar c = true := by
  intro c hc
  simp only [formatScientific, List.mem_append] at hc
  rcases hc with (((hc | hc) | hc) | hc) | hc
  · exact toDigits_numberChar _ c hc
  · exact fractionText_numberChar _ (fixedDigits_isDigit _ _) c hc
  · simp only [List.mem_cons, List.mem_singleton, List.not_mem_nil, or_false] at hc
    rcases hc with hc | hc
    · rw [hc]
      decide
    · rw [hc]
      split_ifs <;> decide
  · split_ifs at hc
    · simp only [List.mem_singleton] at hc
      rw [hc]
      decide
    · simp at hc
  · exact toDigits_numberChar _ c hc

theorem formatDouble_numberChar (q : ℚ) : ∀ c ∈ formatDouble q, isNumberChar c = true := by
  intro c hc
  unfold formatDouble at hc
  split_ifs at hc with h0
  · simp only [List.mem_singleton] at hc
    rw [hc]
    decide
  all_goals
    rcases List.mem_append.mp hc with hc | hc
    · first
      | (simp only [List.mem_singleton] at hc; rw [hc]; decide)
      | simp at hc
    · first
      | exact formatFixed_numberChar _ _ c hc
      | exact formatScientific_numberChar _ _ c hc

theorem splitLines_flatten_lines (lines : List (List Char))
    (h : ∀ line ∈ lines, '\n' ∉ line) :
    splitLines ((lines.map (fun line => line ++ ['\n'])).flatten) = lines ++ [[]] := by
  induction lines with
  | nil => rfl
  | cons line lines ih =>
    have hline : ∀ c ∈ line, ¬ (decide (c = '\n') = true) := by
      intro c hc heq
      rw [of_decide_eq_true heq] at hc
      exact h line (List.mem_cons_self _ _) hc
    have hrest := ih (fun x hx => h x (List.mem_cons_of_mem _ hx))
    unfold splitLines at hrest ⊢
    simp only [List.map_cons, List.flatten_cons, List.append_assoc, List.singleton_append,
      List.cons_append]
    rw [List.splitOnP_first (fun c => decide (c = '\n')) line hline '\n' (by simp),
      List.nil_append, hrest]

/-! ## Helper lemmas: comparison and sorting of `double` amounts -/

namespace Ieee

theorem Double.lt_irrefl (x : Double) : Double.lt x x = false := by
  cases x <;> simp [Double.lt]

theorem Double.lt_trans {x y z : Double} (hxy : Double.lt x y = true)
    (hyz : Double.lt y z = true) : Double.lt x z = true := by
  cases x <;> cases y <;> cases z <;> simp [Double.lt] at * <;> linarith

theorem Double.lt_negTrans {x y z : Double} (hx : x.isNaN = false) (hy : y.isNaN = false)
    (hz : z.isNaN = false) (hxy : Double.lt x y = false) (hyz : Double.lt y z = false) :
    Double.lt x z = false := by
  cases x <;> cases y <;> cases z <;> simp [Double.lt, Double.isNaN] at * <;> linarith

theorem Double.le_of_lt_eq_false {x y : Double} (hx : x.isNaN = false) (hy : y.isNaN = false)
    (h : Double.lt y x = false) : Double.le x y = true := by
  simp [Double.le, hx, hy, h]

theorem amountLess_strictWeakOrderingOn (l : List Transaction)
    (h : ∀ t ∈ l, t.amount.isNaN = false) : StrictWeakOrderingOn amountLess l := by
  refine ⟨?_, ?_, ?_⟩
  · intro a _
    exact Double.lt_irrefl _
  · intro a _ b _ c _ hab hbc
    exact Double.lt_trans hab hbc
  · intro a ha b hb c hc hab hba hbc hcb
    exact ⟨Double.lt_negTrans (h a ha) (h b hb) (h c hc) hab hbc,
      Double.lt_negTrans (h c hc) (h b hb) (h a ha) hcb hba⟩

theorem getD_mem_cons (t : Transaction) (l : List Transaction) (i : ℕ) :
    (t :: l).getD i t ∈ t :: l := by
  by_cases hi : i < (t :: l).length
  · rw [List.getD_eq_getElem _ _ hi]
    exact List.getElem_mem _
  · rw [List.getD_eq_default _ _ (by omega)]
    exact List.mem_cons_self _ _

theorem map_getD_range (l : List Transaction) (t : Transaction) :
    (List.range l.length).map (fun i => l.getD i t) = l := by
  apply List.ext_getElem
  · simp
  · intro i h₁ h₂
    simp [List.getElem?_eq_getElem h₂]

theorem gnuSort_conforms : StdSort gnuSort := by
  have key : ∀ (comp : Transaction → Transaction → Bool) (l : List Transaction),
      StrictWeakOrderingOn comp l →
      (gnuSort comp l).Perm l ∧ (gnuSort comp l).Pairwise (fun a b => comp b a = false) := by
    intro comp l hswo
    cases l with
    | nil => exact ⟨List.Perm.refl _, List.Pairwise.nil⟩
    | cons t l =>
      obtain ⟨hirr, htrans, hequiv⟩ := hswo
      have hmem := getD_mem_cons t l
      have hpos : StrictWeakOrdering
          (fun i j : ℕ => comp ((t :: l).getD i t) ((t :: l).getD j t)) :=
        ⟨fun i => hirr _ (hmem i),
          fun i j k => htrans _ (hmem i) _ (hmem j) _ (hmem k),
          fun i j k => hequiv _ (hmem i) _ (hmem j) _ (hmem k)⟩
      obtain ⟨hperm, hsorted⟩ := Finance.gnuSort_sorts _ hpos (List.range (t :: l).length)
      constructor
      · have := hperm.map (fun i => (t :: l).getD i t)
        rw [map_getD_range] at this
        exact this
      · exact List.pairwise_map.mpr hsorted
  exact ⟨fun comp l h => (key comp l h).1, fun comp l h => (key comp l h).2⟩

theorem sortByAmount_perm_of_numbers {srt : SortImpl} (h : StdSort srt) (m : FinanceManager)
    (hnum : ∀ t ∈ m.transactions, t.amount.isNaN = false) :
    (m.sortByAmount srt).transactions.Perm m.transactions :=
  h.perm amountLess m.transactions (amountLess_strictWeakOrderingOn _ hnum)

/-! ### Helper lemmas: the ledger with `double` amounts -/

theorem ctor_of_not_lt (category : String) (amount : Double) (type : TransactionType)
    (h : Double.lt amount (Double.finite 0) = false) :
    Transaction.ctor category amount type = Except.ok ⟨category, amount, type⟩ := by
  simp [Transaction.ctor, h]

theorem ctor_of_lt (category : String) (amount : Double) (type : TransactionType)
    (h : Double.lt amount (Double.finite 0) = true) :
    Transaction.ctor category amount type = Except.error negativeAmountMessage := by
  simp [Transaction.ctor, h]

theorem ctor_ok_not_lt {category : String} {amount : Double} {type : TransactionType}
    {t : Transaction} (h : Transaction.ctor category amount type = Except.ok t) :
    t = ⟨category, amount, type⟩ ∧ Double.lt amount (Double.finite 0) = false := by
  unfold Transaction.ctor at h
  split_ifs at h with hneg
  simp only [Except.ok.injEq] at h
  exact ⟨h.symm, by simpa using hneg⟩

theorem Double.zero_le_of_not_lt {x : Double} (hx : x.isNaN = false)
    (h : Double.lt x (Double.finite 0) = false) : Double.le (Double.finite 0) x = true :=
  Double.le_of_lt_eq_false rfl hx h

theorem Double.not_nan_of_zero_le {x : Double} (h : Double.le (Double.finite 0) x = true) :
    x.isNaN = false := by
  cases x <;> simp [Double.le, Double.isNaN] at *

theorem Double.not_lt_of_zero_le {x : Double} (h : Double.le (Double.finite 0) x = true) :
    Double.lt x (Double.finite 0) = false := by
  simp only [Double.le, Bool.and_eq_true, Bool.not_eq_true'] at h
  exact h.2

theorem ofLiteral_not_nan {negative : Bool} {magnitude : ℚ} {x : Double}
    (h : Double.ofLiteral negative magnitude = some x) : x.isNaN = false := by
  unfold Double.ofLiteral at h
  split_ifs at h <;> simp only [Option.some.injEq] at h <;> rw [← h] <;> rfl

theorem extractDouble_eq_some {s : List Char} {x : Double} {rest : List Char}
    (h : extractDouble s = some (x, rest)) :
    ∃ q, Finance.extractDouble s = some (q, rest)
      ∧ Double.ofLiteral (takeSign (s.dropWhile isSpace)).1 |q| = some x := by
  unfold extractDouble at h
  cases hq : Finance.extractDouble s with
  | none => simp [hq] at h
  | some p =>
    obtain ⟨q, rest₁⟩ := p
    simp only [hq] at h
    cases hx : Double.ofLiteral (takeSign (s.dropWhile isSpace)).1 |q| with
    | none => simp [hx] at h
    | some y =>
      simp only [hx, Option.some.injEq, Prod.mk.injEq] at h
      exact ⟨q, by rw [← h.2], by rw [hx, h.1]⟩

theorem extractDouble_not_nan {s : List Char} {x : Double} {rest : List Char}
    (h : extractDouble s = some (x, rest)) : x.isNaN = false := by
  obtain ⟨q, -, hx⟩ := extractDouble_eq_some h
  exact ofLiteral_not_nan hx

theorem extractDouble_rest_length (s : List Char) (x : Double) (rest : List Char)
    (h : extractDouble s = some (x, rest)) : rest.length ≤ s.length := by
  obtain ⟨q, hq, -⟩ := extractDouble_eq_some h
  exact Finance.extractDouble_length s q rest hq

theorem readRecord_eq_some {s : List Char} {r : String × Double × ℤ} {rest : List Char}
    (h : readRecord s = some (r, rest)) :
    ∃ s₁ s₂, extractString s = some (r.1, s₁) ∧ extractDouble s₁ = some (r.2.1, s₂)
      ∧ extractInt s₂ = some (r.2.2, rest) := by
  unfold readRecord at h
  cases h1 : extractString s with
  | none => simp [h1] at h
  | some p1 =>
    obtain ⟨w, s₁⟩ := p1
    simp only [h1] at h
    cases h2 : extractDouble s₁ with
    | none => simp [h2] at h
    | some p2 =>
      obtain ⟨x, s₂⟩ := p2
      simp only [h2] at h
      cases h3 : extractInt s₂ with
      | none => simp [h3] at h
      | some p3 =>
        obtain ⟨v, s₃⟩ := p3
        simp only [h3, Option.some.injEq, Prod.mk.injEq] at h
        obtain ⟨hr, hrest⟩ := h
        subst hr
        subst hrest
        exact ⟨s₁, s₂, rfl, h2, h3⟩

theorem readRecord_of_fields {s s₁ s₂ rest : List Char} {w : String} {x : Double} {v : ℤ}
    (h1 : extractString s = some (w, s₁)) (h2 : extractDouble s₁ = some (x, s₂))
    (h3 : extractInt s₂ = some (v, rest)) : readRecord s = some ((w, x, v), rest) := by
  simp [readRecord, h1, h2, h3]

theorem readRecord_not_nan {s : List Char} {r : String × Double × ℤ} {rest : List Char}
    (h : readRecord s = some (r, rest)) : r.2.1.isNaN = false := by
  obtain ⟨s₁, s₂, -, h2, -⟩ := readRecord_eq_some h
  exact extractDouble_not_nan h2

theorem readRecord_rest_length (s : List Char) (r : String × Double × ℤ) (rest : List Char)
    (h : readRecord s = some (r, rest)) : rest.length < s.length := by
  obtain ⟨s₁, s₂, h1, h2, h3⟩ := readRecord_eq_some h
  have := Finance.extractString_length _ _ _ h1
  have := extractDouble_rest_length _ _ _ h2
  have := Finance.extractInt_length _ _ _ h3
  omega

theorem Reads.length_add_le {s rest : List Char} {recs : List (String × Double × ℤ)}
    (h : Reads s recs rest) : recs.length + rest.length ≤ s.length := by
  induction h with
  | done s => simp
  | step h _ ih =>
    have := readRecord_rest_length _ _ _ h
    simp only [List.length_cons]
    omega

theorem loadLoop_fuel_irrelevant (fuel₁ fuel₂ : ℕ) (s : List Char) (m : FinanceManager)
    (h₁ : s.length < fuel₁) (h₂ : s.length < fuel₂) :
    loadLoop fuel₁ s m = loadLoop fuel₂ s m := by
  induction fuel₁ generalizing fuel₂ s m with
  | zero => omega
  | succ fuel₁ ih =>
    cases fuel₂ with
    | zero => omega
    | succ fuel₂ =>
      simp only [loadLoop]
      cases hr : readRecord s with
      | none => rfl
      | some p =>
        obtain ⟨⟨category, amount, typeInt⟩, rest⟩ := p
        simp only
        have hlen := readRecord_rest_length _ _ _ hr
        cases Transaction.ctor category amount (typeOfFlag typeInt) with
        | error what => rfl
        | ok t => exact ih fuel₂ rest _ (by omega) (by omega)

theorem loadLoop_of_reads {s rest : List Char} {recs : List (String × Double × ℤ)}
    (h : Reads s recs rest) (hnonneg : ∀ r ∈ recs, Double.lt r.2.1 (Double.finite 0) = false)
    (fuel : ℕ) (m : FinanceManager) :
    loadLoop (fuel + recs.length) s m
      = loadLoop fuel rest
          { transactions := m.transactions
              ++ recs.map (fun r => ⟨r.1, r.2.1, typeOfFlag r.2.2⟩) } := by
  induction h generalizing m with
  | done s => simp
  | @step s s₁ rest r recs h _ ih =>
    obtain ⟨category, amount, typeInt⟩ := r
    have hfuel : fuel + ((category, amount, typeInt) :: recs).length
        = (fuel + recs.length) + 1 := by
      simp [Nat.add_assoc]
    have hamount : Double.lt amount (Double.finite 0) = false :=
      hnonneg (category, amount, typeInt) (List.mem_cons_self _ _)
    rw [hfuel, loadLoop, h]
    simp only
    rw [ctor_of_not_lt _ _ _ hamount]
    simp only
    rw [ih (fun r hr => hnonneg r (List.mem_cons_of_mem _ hr))]
    simp [List.append_assoc]

theorem loadFromFile_of_reads (m : FinanceManager) {content rest : List Char}
    {recs : List (String × Double × ℤ)} (h : Reads content recs rest)
    (hnonneg : ∀ r ∈ recs, Double.lt r.2.1 (Double.finite 0) = false) :
    m.loadFromFile (some content)
      = loadLoop (rest.length + 1) rest
          { transactions := m.transactions
              ++ recs.map (fun r => ⟨r.1, r.2.1, typeOfFlag r.2.2⟩) } := by
  have hlen := h.length_add_le
  obtain ⟨extra, hextra⟩ := Nat.exists_eq_add_of_le hlen
  have hfuel : content.length + 1 = (rest.length + extra + 1) + recs.length := by omega
  simp only [FinanceManager.loadFromFile]
  rw [hfuel, loadLoop_of_reads h hnonneg]
  exact loadLoop_fuel_irrelevant _ _ _ _ (by omega) (by omega)

theorem loadFromFile_of_reads_negative (m : FinanceManager) {content rest rest' : List Char}
    {recs : List (String × Double × ℤ)} {r : String × Double × ℤ} (h : Reads content recs rest)
    (hnonneg : ∀ r ∈ recs, Double.lt r.2.1 (Double.finite 0) = false)
    (hnext : readRecord rest = some (r, rest'))
    (hneg : Double.lt r.2.1 (Double.finite 0) = true) :
    m.loadFromFile (some content)
      = Outcome.threw negativeAmountMessage
          { transactions := m.transactions
              ++ recs.map (fun r => ⟨r.1, r.2.1, typeOfFlag r.2.2⟩) } := by
  obtain ⟨category, amount, typeInt⟩ := r
  rw [loadFromFile_of_reads m h hnonneg, loadLoop, hnext]
  simp only
  rw [ctor_of_lt _ _ _ hneg]

theorem nonNegative_append {m : FinanceManager} {t : Transaction} (h : NonNegative m)
    (ht : Double.le (Double.finite 0) t.getAmount = true) :
    NonNegative { transactions := m.transactions ++ [t] } := by
  intro x hx
  simp only [List.mem_append, List.mem_singleton] at hx
  rcases hx with hx | hx
  · exact h x hx
  · rw [hx]
    exact ht

theorem addTransaction_nonNegative (m : FinanceManager) (category : String) (amount : Double)
    (type : TransactionType) (hnum : amount.isNaN = false) (h : NonNegative m) :
    NonNegative (m.addTransaction category amount type).state := by
  unfold FinanceManager.addTransaction
  cases hc : Transaction.ctor category amount type with
  | error what => exact h
  | ok t =>
    obtain ⟨ht, hlt⟩ := ctor_ok_not_lt hc
    refine nonNegative_append h ?_
    rw [ht]
    exact Double.zero_le_of_not_lt hnum hlt

theorem loadLoop_nonNegative (fuel : ℕ) (s : List Char) (m : FinanceManager)
    (h : NonNegative m) : NonNegative (loadLoop fuel s m).state := by
  induction fuel generalizing s m with
  | zero => exact h
  | succ fuel ih =>
    simp only [loadLoop]
    cases hr : readRecord s with
    | none => exact h
    | some p =>
      obtain ⟨⟨category, amount, typeInt⟩, rest⟩ := p
      simp only
      cases hc : Transaction.ctor category amount (typeOfFlag typeInt) with
      | error what => exact h
      | ok t =>
        obtain ⟨ht, hlt⟩ := ctor_ok_not_lt hc
        refine ih rest _ (nonNegative_append h ?_)
        rw [ht]
        exact Double.zero_le_of_not_lt (readRecord_not_nan hr) hlt

theorem loadFromFile_nonNegative (m : FinanceManager) (file : Option (List Char))
    (h : NonNegative m) : NonNegative (m.loadFromFile file).state := by
  cases file with
  | none => exact h
  | some content => exact loadLoop_nonNegative _ _ _ h

theorem sortByAmount_nonNegative {srt : SortImpl} (hsrt : StdSort srt) (m : FinanceManager)
    (h : NonNegative m) : NonNegative (m.sortByAmount srt) := by
  intro t ht
  exact h t ((sortByAmount_perm_of_numbers hsrt m
    (fun x hx => Double.not_nan_of_zero_le (h x hx))).subset ht)

theorem addTransaction_no_negative (m : FinanceManager) (category : String) (amount : Double)
    (type : TransactionType)
    (h : ∀ t ∈ m.transactions, Double.lt t.getAmount (Double.finite 0) = false) :
    ∀ t ∈ (m.addTransaction category amount type).state.transactions,
      Double.lt t.getAmount (Double.finite 0) = false := by
  unfold FinanceManager.addTransaction
  cases hc : Transaction.ctor category amount type with
  | error what => exact h
  | ok t =>
    obtain ⟨ht, hlt⟩ := ctor_ok_not_lt hc
    intro x hx
    simp only [Outcome.state, List.mem_append, List.mem_singleton] at hx
    rcases hx with hx | hx
    · exact h x hx
    · rw [hx, ht]
      exact hlt

/-! ### Helper lemmas: rounding a literal to a `double` -/

theorem roundHalfEven_eq_zero_iff (x : ℚ) (hx : 0 ≤ x) : roundHalfEven x = 0 ↔ x ≤ 1 / 2 := by
  have hf : 0 ≤ ⌊x⌋ := Int.floor_nonneg.mpr hx
  unfold roundHalfEven
  constructor
  · intro h
    by_contra hgt
    push_neg at hgt
    split_ifs at h with h1 h2 h3
    · rw [h] at h1
      simp only [Int.cast_zero, sub_zero] at h1
      linarith
    · omega
    · rw [h] at h1 h2
      simp only [Int.cast_zero, sub_zero] at h1 h2
      linarith
    · omega
  · intro h
    have hfl : ⌊x⌋ = 0 := by
      rw [Int.floor_eq_iff]
      constructor
      · simpa using hx
      · norm_num
        linarith
    rw [hfl]
    simp only [Int.cast_zero, sub_zero, zero_add]
    split_ifs with h1 h2 h3
    · rfl
    · linarith
    · rfl
    · simp at h3

theorem bitCountAux_zero (fuel : ℕ) : bitCountAux fuel 0 = 0 := by
  cases fuel <;> simp [bitCountAux]

theorem bitCountAux_spec (fuel n : ℕ) (h : n ≤ fuel) (hn : 0 < n) :
    ∃ k, bitCountAux fuel n = k + 1 ∧ 2 ^ k ≤ n ∧ n < 2 ^ (k + 1) := by
  induction fuel generalizing n with
  | zero => omega
  | succ fuel ih =>
    have hne : n ≠ 0 := by omega
    simp only [bitCountAux, hne, if_false]
    by_cases hsmall : n / 2 = 0
    · refine ⟨0, by rw [hsmall, bitCountAux_zero], by simpa using hn, ?_⟩
      simp only [zero_add, pow_one]
      omega
    · obtain ⟨k, hk, hlo, hhi⟩ := ih (n / 2) (by omega) (by omega)
      refine ⟨k + 1, by rw [hk], ?_, ?_⟩
      · rw [pow_succ]
        omega
      · rw [pow_succ]
        omega

theorem bitCount_spec (n : ℕ) (hn : 0 < n) :
    ∃ k, bitCount n = k + 1 ∧ 2 ^ k ≤ n ∧ n < 2 ^ (k + 1) :=
  bitCountAux_spec n n le_rfl hn

theorem two_zpow_binaryExponent_le (q : ℚ) (hq : 0 < q) : (2 : ℚ) ^ binaryExponent q ≤ q := by
  unfold binaryExponent
  split_ifs with h
  · exact h
  · have hnum : 0 < q.num := Rat.num_pos.mpr hq
    obtain ⟨k, hk, hklo, -⟩ := bitCount_spec q.num.natAbs (by omega)
    obtain ⟨j, hj, -, hjhi⟩ := bitCount_spec q.den q.den_pos
    have hn : (2 : ℚ) ^ k ≤ (q.num.natAbs : ℚ) := by exact_mod_cast hklo
    have hd : (q.den : ℚ) < (2 : ℚ) ^ (j + 1) := by exact_mod_cast hjhi
    have hdpos : (0 : ℚ) < q.den := by exact_mod_cast q.den_pos
    have hqeq : q = (q.num.natAbs : ℚ) / (q.den : ℚ) := by
      have hcast : ((q.num.natAbs : ℤ) : ℚ) = (q.num : ℚ) := by
        rw [Int.natAbs_of_nonneg hnum.le]
      rw [← Int.cast_natCast, hcast, Rat.num_div_den]
    have hpow : (2 : ℚ) ^ ((bitCount q.num.natAbs : ℤ) - (bitCount q.den : ℤ) - 1)
        = (2 : ℚ) ^ k / (2 : ℚ) ^ (j + 1) := by
      have h2 : (2 : ℚ) ≠ 0 := by norm_num
      have hexp : (bitCount q.num.natAbs : ℤ) - (bitCount q.den : ℤ) - 1
          = (k : ℤ) - ((j + 1 : ℕ) : ℤ) := by
        rw [hk, hj]
        push_cast
        ring
      rw [hexp, zpow_sub₀ h2, zpow_natCast, zpow_natCast]
    rw [hpow]
    conv_rhs => rw [hqeq]
    exact div_le_div₀ (by positivity) hn hdpos hd.le

theorem ulp_pos (q : ℚ) : 0 < ulp q := by
  unfold ulp
  positivity

theorem ulp_ge (q : ℚ) : (2 : ℚ) ^ (-1074 : ℤ) ≤ ulp q := by
  unfold ulp
  apply zpow_le_zpow_right₀ (by norm_num)
  have := le_max_right (binaryExponent q) (-1022)
  omega

theorem roundToDouble_nonneg (q : ℚ) (hq : 0 ≤ q) : 0 ≤ roundToDouble q := by
  unfold roundToDouble
  have hu := ulp_pos q
  have hx : 0 ≤ q / ulp q := div_nonneg hq hu.le
  have hf : 0 ≤ ⌊q / ulp q⌋ := Int.floor_nonneg.mpr hx
  have hr : 0 ≤ roundHalfEven (q / ulp q) := by
    unfold roundHalfEven
    split_ifs <;> omega
  have : (0 : ℚ) ≤ (roundHalfEven (q / ulp q) : ℚ) := by exact_mod_cast hr
  positivity

theorem roundToDouble_eq_zero_iff (q : ℚ) (hq : 0 ≤ q) :
    roundToDouble q = 0 ↔ q ≤ (2 : ℚ) ^ (-1075 : ℤ) := by
  have hu := ulp_pos q
  have hhalf : (2 : ℚ) ^ (-1075 : ℤ) = (2 : ℚ) ^ (-1074 : ℤ) / 2 := by
    rw [show (-1075 : ℤ) = -1074 - 1 by norm_num, zpow_sub₀ (by norm_num : (2 : ℚ) ≠ 0), zpow_one]
  have hzero : roundToDouble q = 0 ↔ q ≤ ulp q / 2 := by
    unfold roundToDouble
    rw [mul_eq_zero, or_iff_left hu.ne', Int.cast_eq_zero,
      roundHalfEven_eq_zero_iff _ (div_nonneg hq hu.le), div_le_iff₀ hu]
    constructor <;> intro h <;> linarith
  rw [hzero]
  constructor
  · intro h
    rcases eq_or_lt_of_le hq with h0 | hpos
    · rw [← h0]
      positivity
    · by_cases hk : binaryExponent q ≤ -1022
      · have hulp : ulp q = (2 : ℚ) ^ (-1074 : ℤ) := by
          unfold ulp
          rw [max_eq_right hk]
          norm_num
        rw [hhalf, ← hulp]
        exact h
      · exfalso
        push_neg at hk
        have hulp : ulp q = (2 : ℚ) ^ (binaryExponent q - 52) := by
          unfold ulp
          rw [max_eq_left hk.le]
        have hlow := two_zpow_binaryExponent_le q hpos
        have hlt : (2 : ℚ) ^ (binaryExponent q - 52) < (2 : ℚ) ^ binaryExponent q :=
          zpow_lt_zpow_right₀ (by norm_num) (by omega)
        have hpos2 : (0 : ℚ) < (2 : ℚ) ^ (binaryExponent q - 52) := by positivity
        rw [hulp] at h
        linarith
  · intro h
    have hge := ulp_ge q
    rw [hhalf] at h
    generalize (2 : ℚ) ^ (-1074 : ℤ) = c at h hge
    linarith

theorem parseDigits_cast_nonneg (ds : List Char) : (0 : ℚ) ≤ (parseDigits 0 ds : ℚ) :=
  Nat.cast_nonneg _

theorem mantissaValue_sign (neg : Bool) (intDigits fracDigits : List Char) :
    (neg = true → mantissaValue neg intDigits fracDigits ≤ 0)
    ∧ (neg = false → 0 ≤ mantissaValue neg intDigits fracDigits) := by
  have hval : (0 : ℚ) ≤ (parseDigits 0 intDigits : ℚ)
      + (parseDigits 0 fracDigits : ℚ) / (10 : ℚ) ^ fracDigits.length := by positivity
  unfold mantissaValue
  constructor
  · intro h
    rw [h]
    simp only [if_true]
    linarith
  · intro h
    rw [h]
    simp only [Bool.false_eq_true, if_false]
    linarith

theorem extractExponent_sign {v : ℚ} {s : List Char} {q : ℚ} {r : List Char}
    (h : extractExponent v s = some (q, r)) : (v ≤ 0 → q ≤ 0) ∧ (0 ≤ v → 0 ≤ q) := by
  cases s with
  | nil =>
    simp only [extractExponent, Option.some.injEq, Prod.mk.injEq] at h
    rw [← h.1]
    exact ⟨id, id⟩
  | cons c t =>
    simp only [extractExponent] at h
    split_ifs at h <;> simp only [Option.some.injEq, Prod.mk.injEq] at h <;> rw [← h.1]
    · have hpos : (0 : ℚ) < (10 : ℚ) ^ (-(parseDigits 0 ((takeSign t).2.takeWhile Char.isDigit) : ℤ)) := by
        positivity
      exact ⟨fun hv => mul_nonpos_of_nonpos_of_nonneg hv hpos.le, fun hv => mul_nonneg hv hpos.le⟩
    · have hpos : (0 : ℚ) < (10 : ℚ) ^ ((parseDigits 0 ((takeSign t).2.takeWhile Char.isDigit) : ℤ)) := by
        positivity
      exact ⟨fun hv => mul_nonpos_of_nonpos_of_nonneg hv hpos.le, fun hv => mul_nonneg hv hpos.le⟩
    · exact ⟨id, id⟩

theorem exact_extractDouble_sign {s : List Char} {q : ℚ} {rest : List Char}
    (h : Finance.extractDouble s = some (q, rest)) :
    ((takeSign (s.dropWhile isSpace)).1 = true → q ≤ 0)
    ∧ ((takeSign (s.dropWhile isSpace)).1 = false → 0 ≤ q) := by
  unfold Finance.extractDouble at h
  simp only at h
  split_ifs at h
  obtain ⟨h1, h2⟩ := extractExponent_sign h
  obtain ⟨m1, m2⟩ := mantissaValue_sign (takeSign (s.dropWhile isSpace)).1
    ((takeSign (s.dropWhile isSpace)).2.takeWhile Char.isDigit)
    (takeFraction ((takeSign (s.dropWhile isSpace)).2.dropWhile Char.isDigit)).1
  exact ⟨fun hn => h1 (m1 hn), fun hn => h2 (m2 hn)⟩

theorem extractDouble_lt_zero_iff {s : List Char} {x : Double} {rest : List Char}
    (h : extractDouble s = some (x, rest)) :
    Double.lt x (Double.finite 0) = true
      ↔ ∃ q, Finance.extractDouble s = some (q, rest) ∧ q < -(2 : ℚ) ^ (-1075 : ℤ) := by
  obtain ⟨q, hq, hx⟩ := extractDouble_eq_some h
  obtain ⟨hneg, hpos⟩ := exact_extractDouble_sign hq
  have hsmall : (0 : ℚ) < (2 : ℚ) ^ (-1075 : ℤ) := by positivity
  have hzero := roundToDouble_eq_zero_iff |q| (abs_nonneg q)
  have hround := roundToDouble_nonneg |q| (abs_nonneg q)
  constructor
  · intro hlt
    refine ⟨q, hq, ?_⟩
    unfold Double.ofLiteral at hx
    split_ifs at hx with hover hz hn hn <;> simp only [Option.some.injEq] at hx <;>
      rw [← hx] at hlt <;> simp only [Double.lt, decide_eq_true_eq] at hlt
    · exact absurd hlt (by simp)
    · exact absurd hlt (by simp)
    · have hq0 := hneg hn
      rw [abs_of_nonpos hq0] at hzero hz
      have : ¬ -q ≤ (2 : ℚ) ^ (-1075 : ℤ) := fun hle => hz (hzero.mpr hle)
      generalize (2 : ℚ) ^ (-1075 : ℤ) = c at this hsmall ⊢
      linarith
    · linarith
  · rintro ⟨q', hq', hlt⟩
    rw [hq] at hq'
    simp only [Option.some.injEq, Prod.mk.injEq, and_true] at hq'
    subst hq'
    have hq0 : q < 0 := by
      generalize (2 : ℚ) ^ (-1075 : ℤ) = c at hlt hsmall
      linarith
    have hn : (takeSign (s.dropWhile isSpace)).1 = true := by
      by_contra hn
      have := hpos (by simpa using hn)
      linarith
    rw [abs_of_neg hq0] at hzero hround hx
    have hnz : roundToDouble (-q) ≠ 0 := by
      intro hz
      have := hzero.mp hz
      generalize (2 : ℚ) ^ (-1075 : ℤ) = c at this hlt
      linarith
    unfold Double.ofLiteral at hx
    rw [hn, if_neg hnz] at hx
    simp only [if_true] at hx
    split_ifs at hx with hover
    simp only [Option.some.injEq] at hx
    rw [← hx]
    simp only [Double.lt, decide_eq_true_eq]
    have := lt_of_le_of_ne hround (Ne.symm hnz)
    linarith

theorem formatDouble_no_lineFeed (x : Double) : '\n' ∉ formatDouble x := by
  cases x with
  | finite q =>
    intro h
    exact absurd (formatDouble_numberChar q _ h) (by decide)
  | negZero => decide
  | posInf => decide
  | negInf => decide
  | nan negative => cases negative <;> decide

theorem saveToFile_file (m : FinanceManager) (previous : Option (List Char)) :
    (m.saveToFile previous).file = (m.transactions.map recordLine).flatten := by
  have h : ∀ (l : List Transaction) (acc : List Char),
      l.foldl (fun file t => file ++ recordLine t) acc = acc ++ (l.map recordLine).flatten := by
    intro l
    induction l with
    | nil => simp
    | cons t l ih =>
      intro acc
      simp [ih, List.append_assoc]
  have hopen : openForWriting previous = [] := by cases previous <;> rfl
  simp only [FinanceManager.saveToFile, hopen, h, List.nil_append]

theorem count_lineFeed_recordLine (t : Transaction) (h : '\n' ∉ t.category.data) :
    (recordLine t).count '\n' = 1 := by
  have hnum : (formatDouble t.getAmount).count '\n' = 0 :=
    List.count_eq_zero.mpr (formatDouble_no_lineFeed _)
  have hcat : t.getCategory.data.count '\n' = 0 := List.count_eq_zero.mpr h
  have hflag : [if t.getType = TransactionType.Income then '1' else '0'].count '\n' = 0 := by
    split_ifs <;> decide
  simp only [recordLine, List.count_append, hnum, hcat, hflag]
  decide

theorem count_lineFeed_flatten (l : List Transaction)
    (h : ∀ t ∈ l, '\n' ∉ t.category.data) :
    ((l.map recordLine).flatten).count '\n' = l.length := by
  induction l with
  | nil => rfl
  | cons t l ih =>
    simp only [List.map_cons, List.flatten_cons, List.count_append, List.length_cons]
    rw [count_lineFeed_recordLine t (h t (List.mem_cons_self _ _)),
      ih (fun x hx => h x (List.mem_cons_of_mem _ hx))]
    omega

/-! ### Helper lemmas: the record syntax -/

theorem notStartingWith_nil (p : Char → Bool) : NotStartingWith p [] := by
  intro c hc
  simp at hc

theorem notStartingWith_cons (p : Char → Bool) (c : Char) (r : List Char) :
    NotStartingWith p (c :: r) ↔ p c = false := by
  simp [NotStartingWith]

theorem notStartingWith_append_of_ne_nil {p : Char → Bool} {l : List Char} (hl : l ≠ [])
    (r : List Char) : NotStartingWith p (l ++ r) ↔ NotStartingWith p l := by
  obtain ⟨c, t, rfl⟩ := List.exists_cons_of_ne_nil hl
  simp [NotStartingWith]

theorem notStartingWith_dropWhile (p : Char → Bool) (s : List Char) :
    NotStartingWith p (s.dropWhile p) := by
  induction s with
  | nil => exact notStartingWith_nil p
  | cons c r ih =>
    rw [List.dropWhile_cons]
    split_ifs with h
    · exact ih
    · rw [notStartingWith_cons]
      simpa using h

theorem span_of_append {p : Char → Bool} {l rest : List Char} (hl : ∀ c ∈ l, p c = true)
    (hrest : NotStartingWith p rest) :
    (l ++ rest).takeWhile p = l ∧ (l ++ rest).dropWhile p = rest := by
  rw [List.takeWhile_append_of_pos hl, List.dropWhile_append_of_pos hl]
  cases rest with
  | nil => simp
  | cons c r =>
    rw [notStartingWith_cons] at hrest
    simp [List.takeWhile_cons, List.dropWhile_cons, hrest]

theorem append_of_span (p : Char → Bool) (s : List Char) :
    s = s.takeWhile p ++ s.dropWhile p ∧ (∀ c ∈ s.takeWhile p, p c = true)
      ∧ NotStartingWith p (s.dropWhile p) :=
  ⟨(List.takeWhile_append_dropWhile p s).symm, fun _ hc => (List.mem_takeWhile_imp hc),
    notStartingWith_dropWhile p s⟩

theorem isSign_not_space {sign : List Char} (h : IsSign sign) :
    ∀ c ∈ sign, isSpace c = false := by
  rcases h with rfl | rfl | rfl <;> decide

theorem textField_iff (s : List Char) (w : String) (rest : List Char) :
    extractString s = some (w, rest) ↔ TextField s w rest := by
  constructor
  · intro h
    unfold extractString at h
    split_ifs at h with hnil
    simp only [Option.some.injEq, Prod.mk.injEq] at h
    obtain ⟨hw, hrest⟩ := h
    obtain ⟨h1, h2, -⟩ := append_of_span isSpace s
    obtain ⟨h3, h4, h5⟩ := append_of_span (fun c => !isSpace c) (s.dropWhile isSpace)
    have hs : s = s.takeWhile isSpace
        ++ (s.dropWhile isSpace).takeWhile (fun c => !isSpace c) ++ rest := by
      rw [List.append_assoc, ← hrest, ← h3]
      exact h1
    rw [hrest] at h5
    have key := TextField.mk (s.takeWhile isSpace)
      ((s.dropWhile isSpace).takeWhile (fun c => !isSpace c)) rest h2 hnil
      (fun c hc => by simpa using h4 c hc) h5
    rw [← hs, hw] at key
    exact key
  · rintro ⟨ws, word, rest, hws, hne, hword, hend⟩
    obtain ⟨c, t, rfl⟩ := List.exists_cons_of_ne_nil hne
    have hc : isSpace c = false := hword c (List.mem_cons_self _ _)
    have hskip : (ws ++ (c :: t) ++ rest).dropWhile isSpace = (c :: t) ++ rest := by
      rw [List.append_assoc]
      exact (span_of_append hws (by
        rw [List.cons_append, notStartingWith_cons]
        exact hc)).2
    have hspan := @span_of_append (fun c => !isSpace c) (c :: t) rest
      (fun x hx => by simp [hword x hx]) hend
    unfold extractString
    rw [hskip, hspan.1, hspan.2]
    simp

theorem takeSign_append {sign rest : List Char} (hsign : IsSign sign)
    (hrest : NotStartingWith (fun c => decide (c = '-' ∨ c = '+')) rest) :
    takeSign (sign ++ rest) = (decide (sign = ['-']), rest) := by
  rcases hsign with rfl | rfl | rfl
  · cases rest with
    | nil => rfl
    | cons c r =>
      rw [notStartingWith_cons] at hrest
      simp only [decide_eq_false_iff_not, not_or] at hrest
      simp [takeSign, hrest.1, hrest.2]
  · simp [takeSign]
  · simp [takeSign]

theorem takeSign_decomp (s : List Char) :
    ∃ sign, IsSign sign ∧ s = sign ++ (takeSign s).2
      ∧ (takeSign s).1 = decide (sign = ['-']) := by
  cases s with
  | nil => exact ⟨[], Or.inl rfl, rfl, rfl⟩
  | cons c r =>
    by_cases h1 : c = '-'
    · subst h1
      exact ⟨['-'], Or.inr (Or.inr rfl), by simp [takeSign], by simp [takeSign]⟩
    · by_cases h2 : c = '+'
      · subst h2
        exact ⟨['+'], Or.inr (Or.inl rfl), by simp [takeSign], by simp [takeSign]⟩
      · exact ⟨[], Or.inl rfl, by simp [takeSign, h1, h2], by simp [takeSign, h1, h2]⟩

theorem notStartingWith_sign_of_digit {s : List Char}
    (h : ∃ c r, s = c :: r ∧ (c.isDigit = true ∨ c = '.')) :
    NotStartingWith (fun c => decide (c = '-' ∨ c = '+')) s := by
  obtain ⟨c, r, rfl, hc⟩ := h
  rw [notStartingWith_cons]
  rcases hc with hc | rfl
  · simp only [decide_eq_false_iff_not, not_or]
    exact ⟨ne_of_isDigit hc (by decide), ne_of_isDigit hc (by decide)⟩
  · decide

theorem integerField_iff (s : List Char) (v : ℤ) (rest : List Char) :
    extractInt s = some (v, rest) ↔ IntegerField s v rest := by
  constructor
  · intro h
    obtain ⟨h1, h2, -⟩ := append_of_span isSpace s
    obtain ⟨sign, hsign, h3, h4⟩ := takeSign_decomp (s.dropWhile isSpace)
    obtain ⟨h5, h6, h7⟩ := append_of_span Char.isDigit (takeSign (s.dropWhile isSpace)).2
    have hs : s = s.takeWhile isSpace ++ sign
        ++ (takeSign (s.dropWhile isSpace)).2.takeWhile Char.isDigit
        ++ (takeSign (s.dropWhile isSpace)).2.dropWhile Char.isDigit := by
      rw [List.append_assoc, List.append_assoc, ← h5, ← h3]
      exact h1
    have hval : (if (takeSign (s.dropWhile isSpace)).1 = true then
          -(parseDigits 0 ((takeSign (s.dropWhile isSpace)).2.takeWhile Char.isDigit) : ℤ)
        else (parseDigits 0 ((takeSign (s.dropWhile isSpace)).2.takeWhile Char.isDigit) : ℤ))
        = signedValue sign ((takeSign (s.dropWhile isSpace)).2.takeWhile Char.isDigit) := by
      rw [h4]
      unfold signedValue
      by_cases hsg : sign = ['-'] <;> simp [hsg]
    unfold extractInt at h
    simp only [hval] at h
    split_ifs at h with hnil hrange
    simp only [Option.some.injEq, Prod.mk.injEq] at h
    obtain ⟨hv, hrest⟩ := h
    have key := IntegerField.mk (s.takeWhile isSpace) sign
      ((takeSign (s.dropWhile isSpace)).2.takeWhile Char.isDigit)
      ((takeSign (s.dropWhile isSpace)).2.dropWhile Char.isDigit) h2 hsign hnil h6 h7 hrange
    rw [← hs, hv, hrest] at key
    exact key
  · rintro ⟨ws, sign, digits, rest, hws, hsign, hne, hdigits, hend, hrange⟩
    obtain ⟨c, t, rfl⟩ := List.exists_cons_of_ne_nil hne
    have hc : c.isDigit = true := hdigits c (List.mem_cons_self _ _)
    have hfirst : NotStartingWith isSpace (sign ++ (c :: t) ++ rest) := by
      rcases hsign with rfl | rfl | rfl
      · simp only [List.nil_append, List.cons_append, notStartingWith_cons]
        exact not_isSpace_of_isDigit hc
      · simp only [List.cons_append, List.nil_append, notStartingWith_cons]
        decide
      · simp only [List.cons_append, List.nil_append, notStartingWith_cons]
        decide
    have hskip : (ws ++ sign ++ (c :: t) ++ rest).dropWhile isSpace = sign ++ (c :: t) ++ rest := by
      rw [List.append_assoc, List.append_assoc, ← List.append_assoc sign]
      exact (span_of_append hws hfirst).2
    have hsgn : takeSign (sign ++ (c :: t) ++ rest) = (decide (sign = ['-']), (c :: t) ++ rest) := by
      rw [List.append_assoc]
      exact takeSign_append hsign (notStartingWith_sign_of_digit ⟨c, t ++ rest, rfl, Or.inl hc⟩)
    have hspan := @span_of_append Char.isDigit (c :: t) rest hdigits hend
    unfold extractInt
    simp only [hskip, hsgn, hspan.1, hspan.2]
    have hval : (if decide (sign = ['-']) = true then -(parseDigits 0 (c :: t) : ℤ)
        else (parseDigits 0 (c :: t) : ℤ)) = signedValue sign (c :: t) := by
      unfold signedValue
      by_cases hs : sign = ['-'] <;> simp [hs]
    rw [hval]
    simp [hrange.1, hrange.2]

theorem takeFraction_append {fraction fracDigits rest : List Char}
    (hf : FractionPart fraction fracDigits)
    (hdigit : fraction ≠ [] → NotStartingWith Char.isDigit rest)
    (hpoint : fraction = [] → NotStartingWith (fun c => decide (c = '.')) rest) :
    takeFraction (fraction ++ rest) = (fracDigits, rest) := by
  cases hf with
  | absent =>
    have hp := hpoint rfl
    cases rest with
    | nil => rfl
    | cons c r =>
      rw [notStartingWith_cons] at hp
      simp only [decide_eq_false_iff_not] at hp
      simp [takeFraction, hp]
  | present digits hdigits =>
    have hspan := span_of_append hdigits (hdigit (by simp))
    simp only [List.cons_append, takeFraction, if_true, hspan.1, hspan.2]

theorem takeFraction_decomp (s : List Char) :
    ∃ fraction, FractionPart fraction (takeFraction s).1 ∧ s = fraction ++ (takeFraction s).2
      ∧ (fraction ≠ [] → NotStartingWith Char.isDigit (takeFraction s).2)
      ∧ (fraction = [] → NotStartingWith (fun c => decide (c = '.')) (takeFraction s).2) := by
  cases s with
  | nil =>
    exact ⟨[], FractionPart.absent, rfl, fun h => absurd rfl h,
      fun _ => notStartingWith_nil _⟩
  | cons c r =>
    by_cases hc : c = '.'
    · subst hc
      obtain ⟨h1, h2, h3⟩ := append_of_span Char.isDigit r
      refine ⟨'.' :: r.takeWhile Char.isDigit, ?_, ?_, ?_, ?_⟩
      · simp only [takeFraction, if_true]
        exact FractionPart.present _ h2
      · simp only [takeFraction, if_true, List.cons_append]
        rw [← h1]
      · intro _
        simpa [takeFraction] using h3
      · intro h
        simp at h
    · refine ⟨[], ?_, ?_, fun h => absurd rfl h, ?_⟩
      · simp only [takeFraction, hc, if_false]
        exact FractionPart.absent
      · simp [takeFraction, hc]
      · intro _
        simp only [takeFraction, hc, if_false, notStartingWith_cons, decide_eq_false_iff_not]
        exact not_false

theorem exponent_value (neg : Bool) (sign digits : List Char)
    (h : neg = decide (sign = ['-'])) :
    (if neg = true then -(parseDigits 0 digits : ℤ) else (parseDigits 0 digits : ℤ))
      = signedValue sign digits := by
  rw [h]
  unfold signedValue
  by_cases hs : sign = ['-'] <;> simp [hs]

theorem extractExponent_append (m : ℚ) {exponent rest : List Char} {X : ℤ}
    (he : ExponentPart exponent X)
    (hdigit : exponent ≠ [] → NotStartingWith Char.isDigit rest)
    (hmark : exponent = [] → NotStartingWith (fun c => decide (c = 'e' ∨ c = 'E')) rest) :
    extractExponent m (exponent ++ rest) = some (m * (10 : ℚ) ^ X, rest) := by
  cases he with
  | absent =>
    have hp := hmark rfl
    cases rest with
    | nil => simp [extractExponent]
    | cons c r =>
      rw [notStartingWith_cons] at hp
      simp only [decide_eq_false_iff_not] at hp
      simp [extractExponent, hp]
  | present mark sign digits hmk hsign hne hdigits =>
    obtain ⟨c, t, rfl⟩ := List.exists_cons_of_ne_nil hne
    have hc : c.isDigit = true := hdigits c (List.mem_cons_self _ _)
    have hsgn : takeSign (sign ++ (c :: t) ++ rest)
        = (decide (sign = ['-']), (c :: t) ++ rest) := by
      rw [List.append_assoc]
      exact takeSign_append hsign (notStartingWith_sign_of_digit ⟨c, t ++ rest, rfl, Or.inl hc⟩)
    have hspan := @span_of_append Char.isDigit (c :: t) rest hdigits
      (hdigit (by simp))
    simp only [List.cons_append, extractExponent, hmk, if_true]
    rw [hsgn]
    simp only [hspan.1, hspan.2]
    rw [exponent_value _ sign (c :: t) rfl]
    simp

theorem extractExponent_decomp {m : ℚ} {s : List Char} {q : ℚ} {rest : List Char}
    (h : extractExponent m s = some (q, rest)) :
    ∃ exponent X, ExponentPart exponent X ∧ s = exponent ++ rest ∧ q = m * (10 : ℚ) ^ X
      ∧ (exponent ≠ [] → NotStartingWith Char.isDigit rest)
      ∧ (exponent = [] → NotStartingWith (fun c => decide (c = 'e' ∨ c = 'E')) rest) := by
  cases s with
  | nil =>
    simp only [extractExponent, Option.some.injEq, Prod.mk.injEq] at h
    refine ⟨[], 0, ExponentPart.absent, by rw [← h.2]; rfl, by rw [← h.1]; simp,
      fun hne => absurd rfl hne, fun _ => ?_⟩
    rw [← h.2]
    exact notStartingWith_nil _
  | cons c r =>
    by_cases hc : c = 'e' ∨ c = 'E'
    · obtain ⟨sign, hsign, h3, h4⟩ := takeSign_decomp r
      obtain ⟨h5, h6, h7⟩ := append_of_span Char.isDigit (takeSign r).2
      simp only [extractExponent, hc, if_true] at h
      rw [exponent_value _ sign _ h4] at h
      split_ifs at h with hnil
      simp only [Option.some.injEq, Prod.mk.injEq] at h
      obtain ⟨hq, hrest⟩ := h
      rw [hrest] at h5 h7
      refine ⟨c :: (sign ++ (takeSign r).2.takeWhile Char.isDigit), _,
        ExponentPart.present c sign _ hc hsign hnil h6, ?_, hq.symm, fun _ => h7, ?_⟩
      · rw [List.cons_append, List.append_assoc, ← h5, ← h3]
      · intro hnil'
        simp at hnil'
    · simp only [extractExponent, hc, if_false, Option.some.injEq, Prod.mk.injEq] at h
      refine ⟨[], 0, ExponentPart.absent, by rw [← h.2]; rfl, by rw [← h.1]; simp,
        fun hne => absurd rfl hne, fun _ => ?_⟩
      rw [← h.2, notStartingWith_cons]
      simpa using hc

theorem abs_mantissaValue_mul (neg : Bool) (intDigits fracDigits : List Char) (X : ℤ) :
    |mantissaValue neg intDigits fracDigits * (10 : ℚ) ^ X|
      = ((parseDigits 0 intDigits : ℚ)
          + (parseDigits 0 fracDigits : ℚ) / (10 : ℚ) ^ fracDigits.length) * (10 : ℚ) ^ X := by
  have hval : (0 : ℚ) ≤ (parseDigits 0 intDigits : ℚ)
      + (parseDigits 0 fracDigits : ℚ) / (10 : ℚ) ^ fracDigits.length := by positivity
  have hpow : (0 : ℚ) < (10 : ℚ) ^ X := by positivity
  unfold mantissaValue
  cases neg
  · simp only [Bool.false_eq_true, if_false, one_mul]
    exact abs_of_nonneg (mul_nonneg hval hpow.le)
  · simp only [if_true, neg_mul, one_mul, abs_neg]
    exact abs_of_nonneg (mul_nonneg hval hpow.le)

theorem fractionPart_head {fraction fracDigits : List Char}
    (hf : FractionPart fraction fracDigits) (hne : fraction ≠ []) (r : List Char) :
    ∃ t, fraction ++ r = '.' :: t := by
  cases hf with
  | absent => exact absurd rfl hne
  | present _ _ => exact ⟨_, rfl⟩

theorem exponentPart_head {exponent : List Char} {X : ℤ} (he : ExponentPart exponent X)
    (hne : exponent ≠ []) (r : List Char) :
    ∃ c t, exponent ++ r = c :: t ∧ (c = 'e' ∨ c = 'E') := by
  cases he with
  | absent => exact absurd rfl hne
  | present mark sign digits hmark _ _ _ => exact ⟨mark, sign ++ digits ++ r, rfl, hmark⟩

theorem fractionPart_digits_ne_nil {fraction fracDigits : List Char}
    (hf : FractionPart fraction fracDigits) (h : fracDigits ≠ []) : fraction ≠ [] := by
  cases hf with
  | absent => exact absurd rfl h
  | present digits _ => simp

theorem notStartingWith_digit_of_mark {c : Char} (t : List Char) (h : c = 'e' ∨ c = 'E') :
    NotStartingWith Char.isDigit (c :: t) := by
  rw [notStartingWith_cons]
  rcases h with rfl | rfl <;> decide

theorem notStartingWith_point_of_mark {c : Char} (t : List Char) (h : c = 'e' ∨ c = 'E') :
    NotStartingWith (fun c => decide (c = '.')) (c :: t) := by
  rw [notStartingWith_cons]
  rcases h with rfl | rfl <;> decide

theorem exact_extractDouble_of_parts (ws sign intDigits fraction fracDigits exponent : List Char)
    (rest : List Char) (X : ℤ)
    (hws : ∀ c ∈ ws, isSpace c = true) (hsign : IsSign sign)
    (hint : ∀ c ∈ intDigits, c.isDigit = true)
    (hfraction : FractionPart fraction fracDigits)
    (hmantissa : intDigits ≠ [] ∨ fracDigits ≠ [])
    (hexponent : ExponentPart exponent X)
    (hend : NotStartingWith Char.isDigit rest)
    (hpoint : fraction = [] → exponent = [] → NotStartingWith (fun c => decide (c = '.')) rest)
    (hmark : exponent = [] → NotStartingWith (fun c => decide (c = 'e' ∨ c = 'E')) rest) :
    Finance.extractDouble (ws ++ sign ++ intDigits ++ fraction ++ exponent ++ rest)
        = some (mantissaValue (decide (sign = ['-'])) intDigits fracDigits * (10 : ℚ) ^ X, rest)
    ∧ (takeSign ((ws ++ sign ++ intDigits ++ fraction ++ exponent ++ rest).dropWhile isSpace)).1
        = decide (sign = ['-']) := by
  have hexpDigit : NotStartingWith Char.isDigit (exponent ++ rest) := by
    by_cases he : exponent = []
    · rw [he]
      exact hend
    · obtain ⟨c, t, hct, hc⟩ := exponentPart_head hexponent he rest
      rw [hct]
      exact notStartingWith_digit_of_mark t hc
  have hexpPoint : fraction = [] → NotStartingWith (fun c => decide (c = '.')) (exponent ++ rest) := by
    intro hf
    by_cases he : exponent = []
    · rw [he]
      exact hpoint hf he
    · obtain ⟨c, t, hct, hc⟩ := exponentPart_head hexponent he rest
      rw [hct]
      exact notStartingWith_point_of_mark t hc
  have hfracDigit : NotStartingWith Char.isDigit (fraction ++ (exponent ++ rest)) := by
    by_cases hf : fraction = []
    · rw [hf]
      exact hexpDigit
    · obtain ⟨t, ht⟩ := fractionPart_head hfraction hf (exponent ++ rest)
      rw [ht, notStartingWith_cons]
      decide
  have hbody : ∃ c r, intDigits ++ (fraction ++ (exponent ++ rest)) = c :: r
      ∧ (c.isDigit = true ∨ c = '.') := by
    cases intDigits with
    | nil =>
      have hfd : fracDigits ≠ [] := by
        rcases hmantissa with h | h
        · exact absurd rfl h
        · exact h
      obtain ⟨t, ht⟩ := fractionPart_head hfraction (fractionPart_digits_ne_nil hfraction hfd)
        (exponent ++ rest)
      exact ⟨'.', t, ht, Or.inr rfl⟩
    | cons c t => exact ⟨c, _, rfl, Or.inl (hint c (List.mem_cons_self _ _))⟩
  have hfirst : NotStartingWith isSpace
      (sign ++ (intDigits ++ (fraction ++ (exponent ++ rest)))) := by
    obtain ⟨c, r, hcr, hc⟩ := hbody
    rcases hsign with rfl | rfl | rfl
    · rw [List.nil_append, hcr, notStartingWith_cons]
      rcases hc with hc | rfl
      · exact not_isSpace_of_isDigit hc
      · decide
    · rw [List.cons_append, notStartingWith_cons]
      decide
    · rw [List.cons_append, notStartingWith_cons]
      decide
  have hskip := (span_of_append hws hfirst).2
  have hsgn := @takeSign_append sign (intDigits ++ (fraction ++ (exponent ++ rest))) hsign
    (notStartingWith_sign_of_digit hbody)
  have hspan := span_of_append hint hfracDigit
  have hfrac := takeFraction_append hfraction (fun _ => hexpDigit) hexpPoint
  have hexp := extractExponent_append
    (mantissaValue (decide (sign = ['-'])) intDigits fracDigits) hexponent (fun _ => hend) hmark
  have hcond : ¬ (intDigits = [] ∧ fracDigits = []) := by
    rintro ⟨h1, h2⟩
    rcases hmantissa with h | h
    · exact h h1
    · exact h h2
  simp only [List.append_assoc]
  constructor
  · unfold Finance.extractDouble
    simp only [hskip, hsgn, hspan.1, hspan.2, hfrac, hcond, if_false, hexp]
  · rw [hskip, hsgn]

theorem exact_extractDouble_decomp {s : List Char} {q : ℚ} {rest : List Char}
    (h : Finance.extractDouble s = some (q, rest)) :
    ∃ ws sign intDigits fraction fracDigits exponent X,
      s = ws ++ sign ++ intDigits ++ fraction ++ exponent ++ rest
      ∧ (∀ c ∈ ws, isSpace c = true) ∧ IsSign sign
      ∧ (∀ c ∈ intDigits, c.isDigit = true)
      ∧ FractionPart fraction fracDigits
      ∧ (intDigits ≠ [] ∨ fracDigits ≠ [])
      ∧ ExponentPart exponent X
      ∧ NotStartingWith Char.isDigit rest
      ∧ (fraction = [] → exponent = [] → NotStartingWith (fun c => decide (c = '.')) rest)
      ∧ (exponent = [] → NotStartingWith (fun c => decide (c = 'e' ∨ c = 'E')) rest)
      ∧ (takeSign (s.dropWhile isSpace)).1 = decide (sign = ['-'])
      ∧ q = mantissaValue (decide (sign = ['-'])) intDigits fracDigits * (10 : ℚ) ^ X := by
  obtain ⟨h1, h2, -⟩ := append_of_span isSpace s
  obtain ⟨sign, hsign, h3, h4⟩ := takeSign_decomp (s.dropWhile isSpace)
  obtain ⟨h5, h6, h7⟩ := append_of_span Char.isDigit (takeSign (s.dropWhile isSpace)).2
  obtain ⟨fraction, hf, h8, h9, h10⟩ :=
    takeFraction_decomp ((takeSign (s.dropWhile isSpace)).2.dropWhile Char.isDigit)
  unfold Finance.extractDouble at h
  simp only at h
  split_ifs at h with hcond
  obtain ⟨exponent, X, he, h11, hq, h12, h13⟩ := extractExponent_decomp h
  rw [h11] at h8 h9 h10
  refine ⟨s.takeWhile isSpace, sign,
    (takeSign (s.dropWhile isSpace)).2.takeWhile Char.isDigit, fraction, _, exponent, X,
    ?_, h2, hsign, h6, hf, ?_, he, ?_, ?_, h13, h4, ?_⟩
  · simp only [List.append_assoc]
    rw [← h8, ← h5, ← h3]
    exact h1
  · by_contra hboth
    push_neg at hboth
    exact hcond hboth
  · by_cases hen : exponent = []
    · by_cases hfn : fraction = []
      · have := h7
        rw [h8, hfn, hen] at this
        simpa using this
      · have := h9 hfn
        rw [hen] at this
        simpa using this
    · exact h12 hen
  · intro hfn hen
    have := h10 hfn
    rw [hen] at this
    simpa using this
  · rw [hq, h4]

theorem numberField_iff (s : List Char) (x : Double) (rest : List Char) :
    extractDouble s = some (x, rest) ↔ NumberField s x rest := by
  constructor
  · intro h
    obtain ⟨q, hq, hx⟩ := extractDouble_eq_some h
    obtain ⟨ws, sign, intDigits, fraction, fracDigits, exponent, X, hs, hws, hsign, hint, hf,
      hm, he, hend, hpoint, hmark, hneg, hval⟩ := exact_extractDouble_decomp hq
    rw [hneg, hval, abs_mantissaValue_mul] at hx
    rw [hs]
    exact NumberField.mk ws sign intDigits fraction fracDigits exponent rest X x hws hsign hint
      hf hm he hend hpoint hmark hx
  · rintro ⟨ws, sign, intDigits, fraction, fracDigits, exponent, rest, X, x, hws, hsign, hint,
      hf, hm, he, hend, hpoint, hmark, hx⟩
    obtain ⟨hq, hneg⟩ := exact_extractDouble_of_parts ws sign intDigits fraction fracDigits
      exponent rest X hws hsign hint hf hm he hend hpoint hmark
    unfold extractDouble
    rw [hq]
    simp only [hneg, abs_mantissaValue_mul, hx]

theorem recordAt_iff (s : List Char) (r : String × Double × ℤ) (rest : List Char) :
    readRecord s = some (r, rest) ↔ RecordAt s r rest := by
  constructor
  · intro h
    obtain ⟨s₁, s₂, h1, h2, h3⟩ := readRecord_eq_some h
    obtain ⟨text, x, flag⟩ := r
    exact RecordAt.mk ((textField_iff _ _ _).mp h1) ((numberField_iff _ _ _).mp h2)
      ((integerField_iff _ _ _).mp h3)
  · rintro ⟨htext, hnumber, hflag⟩
    exact readRecord_of_fields ((textField_iff _ _ _).mpr htext)
      ((numberField_iff _ _ _).mpr hnumber) ((integerField_iff _ _ _).mpr hflag)

theorem records_iff (s : List Char) (recs : List (String × Double × ℤ)) (rest : List Char) :
    Reads s recs rest ↔ Records s recs rest := by
  constructor
  · intro h
    induction h with
    | done s => exact Records.done s
    | step h _ ih => exact Records.step ((recordAt_iff _ _ _).mp h) ih
  · intro h
    induction h with
    | done s => exact Reads.done s
    | step h _ ih => exact Reads.step ((recordAt_iff _ _ _).mpr h) ih

theorem extractString_eq_none_iff (s : List Char) :
    extractString s = none ↔ ∀ c ∈ s, isSpace c = true := by
  unfold extractString
  constructor
  · intro h
    split_ifs at h with hnil
    have hdrop : s.dropWhile isSpace = [] := by
      cases hd : s.dropWhile isSpace with
      | nil => rfl
      | cons c r =>
        have hc := notStartingWith_dropWhile isSpace s
        rw [hd, notStartingWith_cons] at hc
        rw [hd, List.takeWhile_cons] at hnil
        simp [hc] at hnil
    exact fun c hc => List.dropWhile_eq_nil_iff.mp hdrop c hc
  · intro h
    rw [List.dropWhile_eq_nil_iff.mpr h]
    simp

theorem no_textField_iff (s : List Char) :
    (∀ text s₁, ¬ TextField s text s₁) ↔ ∀ c ∈ s, isSpace c = true := by
  rw [← extractString_eq_none_iff]
  constructor
  · intro h
    cases hr : extractString s with
    | none => rfl
    | some p => exact absurd ((textField_iff s p.1 p.2).mp hr) (h p.1 p.2)
  · intro h text s₁ htext
    rw [(textField_iff s text s₁).mpr htext] at h
    cases h

end Ieee

/-! ## Theorems -/

/-- C1: constructing a Transaction fails with the negative-amount validation
error exactly when `amount < 0`; when `amount >= 0` it succeeds and the three
accessors return the category, amount and kind passed in, the empty category
included. -/
theorem transaction_ctor_validation (category : String) (amount : ℚ) (type : TransactionType) :
    (Transaction.ctor category amount type = Except.error negativeAmountMessage ↔ amount < 0)
    ∧ ((∃ what, Transaction.ctor category amount type = Except.error what) ↔ amount < 0)
    ∧ ((∃ t, Transaction.ctor category amount type = Except.ok t
        ∧ t.getAmount = amount ∧ t.getCategory = category ∧ t.getType = type) ↔ 0 ≤ amount)
    ∧ (∃ t, Transaction.ctor "" 0 type = Except.ok t ∧ t.getCategory = "") := by
  refine ⟨?_, ?_, ?_, ?_⟩
  · unfold Transaction.ctor
    by_cases h : amount < 0 <;> simp [h]
  · unfold Transaction.ctor
    by_cases h : amount < 0 <;> simp [h]
  · constructor
    · rintro ⟨t, ht, -⟩
      by_contra h
      rw [ctor_of_neg _ _ _ (not_le.mp h)] at ht
      cases ht
    · intro h
      exact ⟨⟨category, amount, type⟩, ctor_of_nonneg _ _ _ h, rfl, rfl, rfl⟩
  · exact ⟨⟨"", 0, type⟩, ctor_of_nonneg _ _ _ le_rfl, rfl⟩

/-- C2: `calculateBalance` equals the sum of the Income amounts minus the sum of
the Expense amounts; it is 0 on the empty ledger and 60 after adding an Income
of 100 and then an Expense of 40. -/
theorem calculateBalance_eq_spec :
    (∀ m : FinanceManager, m.calculateBalance = balanceSpec m.transactions)
    ∧ FinanceManager.empty.calculateBalance = 0
    ∧ (∀ c₁ c₂ : String, ∃ m₁ m₂,
        FinanceManager.empty.addTransaction c₁ 100 TransactionType.Income = Outcome.ok m₁
        ∧ m₁.addTransaction c₂ 40 TransactionType.Expense = Outcome.ok m₂
        ∧ m₂.calculateBalance = 60) := by
  refine ⟨?_, ?_, ?_⟩
  · intro m
    simp [FinanceManager.calculateBalance, foldl_balanceStep]
  · simp [FinanceManager.calculateBalance, FinanceManager.empty]
  · intro c₁ c₂
    refine ⟨⟨[⟨c₁, 100, TransactionType.Income⟩]⟩,
      ⟨[⟨c₁, 100, TransactionType.Income⟩, ⟨c₂, 40, TransactionType.Expense⟩]⟩, ?_, ?_, ?_⟩
    · rw [addTransaction_of_nonneg _ _ _ _ (by norm_num)]
      rfl
    · rw [addTransaction_of_nonneg _ _ _ _ (by norm_num)]
      rfl
    · simp [FinanceManager.calculateBalance, balanceStep,
        Transaction.getType, Transaction.getAmount]
      norm_num

/-- C3, as stated, fails on two ledgers with whitespace-free categories and
non-negative amounts. An empty category is written as nothing, so the line
` 5 1` is read back as category `5`, amount `1` and no flag, and nothing is
loaded. The amount 1234567 is written with six significant digits as
`1.23457e+06` and read back as 1234570. -/
theorem save_load_roundtrip_fails :
    (¬ ∀ l : List Transaction,
        (∀ t ∈ l, (∀ c ∈ t.category.data, isSpace c = false) ∧ 0 ≤ t.amount) →
        FinanceManager.empty.loadFromFile (some (FinanceManager.mk l).saveToFile)
          = Outcome.ok ⟨l⟩)
    ∧ ((∀ c ∈ ("" : String).data, isSpace c = false) ∧ (0 : ℚ) ≤ 5
      ∧ (FinanceManager.mk [⟨"", 5, TransactionType.Income⟩]).saveToFile = " 5 1\n".data
      ∧ FinanceManager.empty.loadFromFile
          (some (FinanceManager.mk [⟨"", 5, TransactionType.Income⟩]).saveToFile)
        = Outcome.ok ⟨[]⟩)
    ∧ ((∀ c ∈ "A".data, isSpace c = false) ∧ (0 : ℚ) ≤ 1234567
      ∧ (FinanceManager.mk [⟨"A", 1234567, TransactionType.Income⟩]).saveToFile
        = "A 1.23457e+06 1\n".data
      ∧ FinanceManager.empty.loadFromFile
          (some (FinanceManager.mk [⟨"A", 1234567, TransactionType.Income⟩]).saveToFile)
        = Outcome.ok ⟨[⟨"A", 1234570, TransactionType.Income⟩]⟩) := by
  refine ⟨?_, by decide!, by decide!⟩
  intro hround
  have h := hround [⟨"A", 1234567, TransactionType.Income⟩] (by decide!)
  revert h
  decide!

/-- C3, amended: for every sequence of transactions whose categories are not
empty and contain no whitespace and whose amounts have at most six significant
decimal digits (`k * 10 ^ j` with `k < 10 ^ 6`, hence non-negative),
`saveToFile` followed by `loadFromFile` into a fresh ledger yields exactly the
original sequence. -/
theorem save_load_roundtrip (l : List Transaction) (h : ∀ t ∈ l, Storable t) :
    FinanceManager.empty.loadFromFile (some (FinanceManager.mk l).saveToFile)
      = Outcome.ok ⟨l⟩ := by
  rw [loadFromFile_saveToFile _ _ h]
  simp [FinanceManager.empty]

/-- C3, amended, on the ledger `Food 50 Expense`, `Salary 2000.5 Income`. -/
theorem save_load_roundtrip_witness :
    FinanceManager.empty.loadFromFile
        (some (FinanceManager.mk [⟨"Food", 50, TransactionType.Expense⟩,
          ⟨"Salary", 2000.5, TransactionType.Income⟩]).saveToFile)
      = Outcome.ok ⟨[⟨"Food", 50, TransactionType.Expense⟩,
          ⟨"Salary", 2000.5, TransactionType.Income⟩]⟩ :=
  save_load_roundtrip _ (by
    intro t ht
    simp only [List.mem_cons, List.mem_singleton, List.not_mem_nil, or_false] at ht
    rcases ht with rfl | rfl
    · exact ⟨by decide, by decide, 50, 0, by norm_num, by norm_num⟩
    · exact ⟨by decide, by decide, 20005, -1, by norm_num, by norm_num⟩)

/-- C7: `addTransaction` with `amount < 0` throws the validation error and the
stored sequence is the one before the call. -/
theorem addTransaction_negative_unchanged (m : FinanceManager) (category : String) (amount : ℚ)
    (type : TransactionType) (h : amount < 0) :
    m.addTransaction category amount type = Outcome.threw negativeAmountMessage m := by
  simp [FinanceManager.addTransaction, Transaction.ctor, h]

/-- C7 on the ledger `Food 50` with the amount `-5`. -/
theorem addTransaction_negative_unchanged_witness :
    (-5 : ℚ) < 0 ∧
    (FinanceManager.mk [⟨"Food", 50, TransactionType.Expense⟩]).addTransaction "Rent" (-5)
        TransactionType.Expense
      = Outcome.threw negativeAmountMessage
          (FinanceManager.mk [⟨"Food", 50, TransactionType.Expense⟩]) :=
  ⟨by norm_num, addTransaction_negative_unchanged _ _ _ _ (by norm_num)⟩

/-- C8: `addTransaction` with `amount >= 0` succeeds and the stored sequence
afterwards is the previous one followed by exactly one transaction with the
given category, amount and kind; the length grows by one. -/
theorem addTransaction_appends (m : FinanceManager) (category : String) (amount : ℚ)
    (type : TransactionType) (h : 0 ≤ amount) :
    ∃ m', m.addTransaction category amount type = Outcome.ok m'
      ∧ m'.transactions = m.transactions ++ [⟨category, amount, type⟩]
      ∧ m'.transactions.length = m.transactions.length + 1 := by
  have h' : ¬ amount < 0 := not_lt.mpr h
  exact ⟨⟨m.transactions ++ [⟨category, amount, type⟩]⟩,
    by simp [FinanceManager.addTransaction, Transaction.ctor, h'], rfl, by simp⟩

/-- C8 on the ledger `Food 50` with the amount `20`. -/
theorem addTransaction_appends_witness :
    (0 : ℚ) ≤ 20 ∧
    ∃ m', (FinanceManager.mk [⟨"Food", 50, TransactionType.Expense⟩]).addTransaction "Food" 20
        TransactionType.Expense = Outcome.ok m'
      ∧ m'.transactions
          = [⟨"Food", 50, TransactionType.Expense⟩] ++ [⟨"Food", 20, TransactionType.Expense⟩]
      ∧ m'.transactions.length = [(⟨"Food", 50, TransactionType.Expense⟩ : Transaction)].length + 1 :=
  ⟨by norm_num, addTransaction_appends _ _ _ _ (by norm_num)⟩

/-- C10: the balance after `sortByAmount` equals the balance before it, and the
balance of any permutation of the stored sequence is the same. -/
theorem calculateBalance_sort_invariant (srt : SortImpl) (h : StdSort srt) (m : FinanceManager) :
    (m.sortByAmount srt).calculateBalance = m.calculateBalance
    ∧ ∀ l : List Transaction, l.Perm m.transactions →
        (FinanceManager.mk l).calculateBalance = m.calculateBalance := by
  have key : ∀ l : List Transaction, l.Perm m.transactions →
      (FinanceManager.mk l).calculateBalance = m.calculateBalance := by
    intro l hl
    simp only [FinanceManager.calculateBalance, foldl_balanceStep]
    rw [balanceSpec_perm hl]
  exact ⟨key _ (sortByAmount_perm h m), key⟩

/-- C10 on the ledger `Salary 100 Income`, `Food 40 Expense` with the GNU
implementation. -/
theorem calculateBalance_sort_invariant_witness :
    StdSort gnuSort
    ∧ ((FinanceManager.mk [⟨"Salary", 100, TransactionType.Income⟩,
          ⟨"Food", 40, TransactionType.Expense⟩]).sortByAmount gnuSort).calculateBalance
        = (FinanceManager.mk [⟨"Salary", 100, TransactionType.Income⟩,
          ⟨"Food", 40, TransactionType.Expense⟩]).calculateBalance :=
  ⟨gnuSort_stdSort, (calculateBalance_sort_invariant gnuSort gnuSort_stdSort _).1⟩

/-- C13: `showStatistics` emits one line per entry of the mapping, in the
order of the mapping; the categories of the mapping are in strictly ascending
order, which is the lexicographic order of their characters, so no category
appears twice; and the mapping built from any permutation of the stored
sequence is the same. -/
theorem showStatistics_ascending (m : FinanceManager) :
    m.showStatistics
        = "\nExpense Statistics:\n".data
          ++ (m.categoryTotals.map
              (fun p => p.1.data ++ ": ".data ++ formatDouble p.2 ++ ['\n'])).flatten
    ∧ (m.categoryTotals.map Prod.fst).Pairwise (fun a b => a < b)
    ∧ (m.categoryTotals.map Prod.fst).Pairwise (fun a b => List.Lex (fun c d : Char => c < d) a.data b.data)
    ∧ (m.categoryTotals.map Prod.fst).Nodup
    ∧ ∀ l : List Transaction, l.Perm m.transactions →
        (FinanceManager.mk l).categoryTotals = m.categoryTotals := by
  have hs : KeysAscending m.categoryTotals := (categoryTotals_invariant m.transactions).1
  have hkeys : (m.categoryTotals.map Prod.fst).Pairwise (fun a b => a < b) :=
    List.pairwise_map.mpr hs
  refine ⟨rfl, hkeys, hkeys.imp (fun hab => String.lt_iff_toList_lt.mp hab), ?_, ?_⟩
  · exact hkeys.imp (fun hab => ne_of_lt hab)
  · intro l hl
    exact categoryTotals_perm hl

/-- C14: when `finance.txt` cannot be opened, `loadFromFile` returns without an
exception, writes `No saved file found.` and leaves the stored sequence as it
was; a fresh ledger stays empty. -/
theorem loadFromFile_missing (m : FinanceManager) :
    m.loadFromFile none = Outcome.ok m
    ∧ m.loadFromFileConsole none = "No saved file found.\n".data
    ∧ (m.loadFromFile none).state.transactions = m.transactions
    ∧ FinanceManager.empty.loadFromFile none = Outcome.ok { transactions := [] } :=
  ⟨rfl, rfl, rfl, rfl⟩

/-- C15: when the records of the file parse to the sequence `P`, that is when
loading the file into a fresh ledger gives `P`, loading it into a ledger with
stored sequence `L` gives `L` followed by `P`; `P` consists of the records of
the file in file order. -/
theorem loadFromFile_appends (m : FinanceManager) (content : List Char) (P : List Transaction)
    (h : FinanceManager.empty.loadFromFile (some content) = Outcome.ok { transactions := P }) :
    m.loadFromFile (some content) = Outcome.ok { transactions := m.transactions ++ P }
    ∧ m.loadFromFileConsole (some content) = "Loaded data from file.\n".data
    ∧ ∃ recs rest, Reads content recs rest ∧ readRecord rest = none
        ∧ P = recs.map recordTransaction := by
  have hload : m.loadFromFile (some content)
      = Outcome.ok { transactions := m.transactions ++ P } := by
    rw [loadFromFile_prepend, h]
    rfl
  refine ⟨hload, ?_, ?_⟩
  · simp only [FinanceManager.loadFromFile] at hload
    simp only [FinanceManager.loadFromFileConsole, hload]
  · obtain ⟨recs, rest, hreads, hstop, _, hP⟩ := loadFromFile_ok_reads h
    refine ⟨recs, rest, hreads, hstop, ?_⟩
    simpa [FinanceManager.empty] using hP

/-- C15 on a file of two records loaded into a ledger that holds
`Old 1 Income`. -/
theorem loadFromFile_appends_witness :
    FinanceManager.empty.loadFromFile (some "Food 5 0\nSalary 7 1\n".data)
        = Outcome.ok ⟨[⟨"Food", 5, TransactionType.Expense⟩,
            ⟨"Salary", 7, TransactionType.Income⟩]⟩
    ∧ (FinanceManager.mk [⟨"Old", 1, TransactionType.Income⟩]).loadFromFile
          (some "Food 5 0\nSalary 7 1\n".data)
        = Outcome.ok ⟨[⟨"Old", 1, TransactionType.Income⟩, ⟨"Food", 5, TransactionType.Expense⟩,
            ⟨"Salary", 7, TransactionType.Income⟩]⟩ :=
  ⟨by decide!, (loadFromFile_appends _ _ _ (by decide!)).1⟩

/-- C17: from the empty ledger the three calls of `addTransaction` succeed and
give the ledger `scenario`; its balance is 1930, its statistics mapping is
`Food` to 70 and nothing else, and after `sortByAmount`, for every conforming
`std::sort`, the stored order is `Food 20`, `Food 50`, `Salary 2000`. -/
theorem scenario_results (srt : SortImpl) (h : StdSort srt) :
    FinanceManager.empty.addTransaction "Food" 50 TransactionType.Expense
        = Outcome.ok ⟨[⟨"Food", 50, TransactionType.Expense⟩]⟩
    ∧ (FinanceManager.mk [⟨"Food", 50, TransactionType.Expense⟩]).addTransaction
          "Salary" 2000 TransactionType.Income
        = Outcome.ok ⟨[⟨"Food", 50, TransactionType.Expense⟩,
            ⟨"Salary", 2000, TransactionType.Income⟩]⟩
    ∧ (FinanceManager.mk [⟨"Food", 50, TransactionType.Expense⟩,
          ⟨"Salary", 2000, TransactionType.Income⟩]).addTransaction
          "Food" 20 TransactionType.Expense
        = Outcome.ok ⟨scenario⟩
    ∧ (FinanceManager.mk scenario).calculateBalance = 1930
    ∧ (FinanceManager.mk scenario).categoryTotals = [("Food", 70)]
    ∧ ((FinanceManager.mk scenario).sortByAmount srt).transactions
        = [⟨"Food", 20, TransactionType.Expense⟩, ⟨"Food", 50, TransactionType.Expense⟩,
            ⟨"Salary", 2000, TransactionType.Income⟩] := by
  refine ⟨by decide!, by decide!, by decide!, by decide!, by decide!, ?_⟩
  refine eq_of_perm_of_pairwise_amount ?_ (pairwise_amount_of_stdSort h _) (by decide!)
    (by decide!)
  exact (sortByAmount_perm h (FinanceManager.mk scenario)).trans (by decide!)

/-- C17 with the GNU implementation of `std::sort`. -/
theorem scenario_results_witness :
    StdSort gnuSort
    ∧ ((FinanceManager.mk scenario).sortByAmount gnuSort).transactions
        = [⟨"Food", 20, TransactionType.Expense⟩, ⟨"Food", 50, TransactionType.Expense⟩,
            ⟨"Salary", 2000, TransactionType.Income⟩] :=
  ⟨gnuSort_stdSort, (scenario_results gnuSort gnuSort_stdSort).2.2.2.2.2⟩

/-- C19: the balance equals the sum of the Income amounts minus the sum of the
totals of the statistics mapping, and the totals of the mapping add up to the
sum of the Expense amounts. -/
theorem balance_statistics_consistent (m : FinanceManager) :
    m.calculateBalance
        = ((m.transactions.filter (fun t => t.type = TransactionType.Income)).map
            Transaction.amount).sum
          - (m.categoryTotals.map Prod.snd).sum
    ∧ (m.categoryTotals.map Prod.snd).sum
        = ((m.transactions.filter (fun t => t.type = TransactionType.Expense)).map
            Transaction.amount).sum := by
  have hsum := sum_categoryTotals m.transactions
  refine ⟨?_, hsum⟩
  rw [hsum]
  simp only [FinanceManager.calculateBalance, foldl_balanceStep, balanceSpec]
  ring

/-- C20: the statistics mapping after `sortByAmount` is the mapping before it,
entry by entry and in the same order, for every conforming `std::sort`; so
`showStatistics` writes the same text. -/
theorem categoryTotals_sort_invariant (srt : SortImpl) (h : StdSort srt) (m : FinanceManager) :
    (m.sortByAmount srt).categoryTotals = m.categoryTotals
    ∧ (m.sortByAmount srt).showStatistics = m.showStatistics := by
  have heq : (m.sortByAmount srt).categoryTotals = m.categoryTotals :=
    categoryTotals_perm (sortByAmount_perm h m)
  refine ⟨heq, ?_⟩
  simp only [FinanceManager.showStatistics, heq]

/-- C20 on the ledger `scenario` with the GNU implementation. -/
theorem categoryTotals_sort_invariant_witness :
    StdSort gnuSort
    ∧ ((FinanceManager.mk scenario).sortByAmount gnuSort).categoryTotals = [("Food", 70)] :=
  ⟨gnuSort_stdSort,
    ((categoryTotals_sort_invariant gnuSort gnuSort_stdSort (FinanceManager.mk scenario)).1).trans
      (by decide!)⟩

/-! ## Theorems on `double` amounts -/

namespace Ieee

/-- C5, as stated, fails on a ledger that holds a NaN amount, which the
constructor accepts: NaN is neither below nor above any amount. The GNU
implementation of `std::sort` turns the amounts 3, NaN, 1, 2 into 1, 3, NaN, 2,
where 2 stands after 3; and no arrangement at all of these four amounts is in
non-decreasing order. -/
theorem sortByAmount_nan_unsorted :
    (¬ ∀ srt : SortImpl, StdSort srt → ∀ m : FinanceManager,
        (m.sortByAmount srt).transactions.Perm m.transactions
        ∧ (m.sortByAmount srt).transactions.Pairwise
            (fun a b => Double.le a.getAmount b.getAmount = true))
    ∧ StdSort gnuSort
    ∧ FinanceManager.empty.addTransaction "b" (Double.nan false) TransactionType.Expense
        = Outcome.ok ⟨[⟨"b", Double.nan false, TransactionType.Expense⟩]⟩
    ∧ ((FinanceManager.mk nanLedger).sortByAmount gnuSort).transactions.map Transaction.getAmount
        = [Double.finite 1, Double.finite 3, Double.nan false, Double.finite 2]
    ∧ ¬ ((FinanceManager.mk nanLedger).sortByAmount gnuSort).transactions.Pairwise
        (fun a b => Double.lt b.getAmount a.getAmount = false)
    ∧ ∀ l : List Transaction, l.Perm nanLedger →
        ¬ l.Pairwise (fun a b => Double.le a.getAmount b.getAmount = true) := by
  have hnone : ∀ l : List Transaction, l.Perm nanLedger →
      ¬ l.Pairwise (fun a b => Double.le a.getAmount b.getAmount = true) := by
    intro l hl hsorted
    have ha : (⟨"a", Double.finite 3, TransactionType.Expense⟩ : Transaction) ∈ l :=
      hl.symm.subset (by decide)
    have hb : (⟨"b", Double.nan false, TransactionType.Expense⟩ : Transaction) ∈ l :=
      hl.symm.subset (by decide)
    have hsymm : Symmetric (fun a b : Transaction =>
        Double.le a.getAmount b.getAmount = true ∨ Double.le b.getAmount a.getAmount = true) :=
      fun _ _ h => h.symm
    rcases List.Pairwise.forall hsymm (hsorted.imp Or.inl) ha hb (by decide) with h | h
    · exact absurd h (by decide)
    · exact absurd h (by decide)
  refine ⟨?_, gnuSort_conforms, by decide!, by decide!, by decide!, hnone⟩
  intro hsorts
  exact hnone _ (hsorts gnuSort gnuSort_conforms (FinanceManager.mk nanLedger)).1
    (hsorts gnuSort gnuSort_conforms (FinanceManager.mk nanLedger)).2

/-- C5, amended: for every conforming `std::sort` and every ledger none of whose
amounts is NaN, the sequence stored after `sortByAmount` is a permutation of the
one before (same transactions with the same multiplicities, same length) and is
in non-decreasing order of amount; infinite amounts and both zeros are
allowed. -/
theorem sortByAmount_sorts_numbers (srt : SortImpl) (h : StdSort srt) (m : FinanceManager)
    (hnum : ∀ t ∈ m.transactions, t.getAmount.isNaN = false) :
    (m.sortByAmount srt).transactions.Perm m.transactions
    ∧ (∀ t, (m.sortByAmount srt).transactions.count t = m.transactions.count t)
    ∧ (m.sortByAmount srt).transactions.length = m.transactions.length
    ∧ (m.sortByAmount srt).transactions.Pairwise
        (fun a b => Double.le a.getAmount b.getAmount = true) := by
  have hp := sortByAmount_perm_of_numbers h m hnum
  refine ⟨hp, fun t => hp.count_eq t, hp.length_eq, ?_⟩
  have hs := h.sorted amountLess m.transactions (amountLess_strictWeakOrderingOn _ hnum)
  have hmem : ∀ t ∈ (m.sortByAmount srt).transactions, t.getAmount.isNaN = false :=
    fun t ht => hnum t (hp.subset ht)
  have hs' : (m.sortByAmount srt).transactions.Pairwise
      (fun a b => amountLess b a = false) := hs
  refine (List.Pairwise.and_mem.mp hs').imp ?_
  rintro a b ⟨ha, hb, hab⟩
  exact Double.le_of_lt_eq_false (hmem a ha) (hmem b hb) hab

/-- C5, amended, on a ledger with the amounts infinity, 2, negative zero, 7 and
zero, with the GNU implementation. -/
theorem sortByAmount_sorts_numbers_witness :
    StdSort gnuSort
    ∧ (∀ t ∈ (FinanceManager.mk [⟨"a", Double.posInf, TransactionType.Income⟩,
          ⟨"b", Double.finite 2, TransactionType.Expense⟩,
          ⟨"c", Double.negZero, TransactionType.Expense⟩,
          ⟨"d", Double.finite 7, TransactionType.Expense⟩,
          ⟨"e", Double.finite 0, TransactionType.Income⟩]).transactions,
        t.getAmount.isNaN = false)
    ∧ ((FinanceManager.mk [⟨"a", Double.posInf, TransactionType.Income⟩,
          ⟨"b", Double.finite 2, TransactionType.Expense⟩,
          ⟨"c", Double.negZero, TransactionType.Expense⟩,
          ⟨"d", Double.finite 7, TransactionType.Expense⟩,
          ⟨"e", Double.finite 0, TransactionType.Income⟩]).sortByAmount
            gnuSort).transactions.Pairwise
        (fun a b => Double.le a.getAmount b.getAmount = true) :=
  ⟨gnuSort_conforms, by decide,
    (sortByAmount_sorts_numbers gnuSort gnuSort_conforms _ (by decide)).2.2.2⟩

/-- C16, as stated, fails: `addTransaction` accepts the amount NaN, because
`NaN < 0` is false, and stores it; the stored amount does not satisfy
`amount >= 0`. -/
theorem nonNegative_fails_on_nan :
    (¬ ∀ m : FinanceManager, Reachable (fun _ => True) m → NonNegative m)
    ∧ FinanceManager.empty.addTransaction "X" (Double.nan false) TransactionType.Expense
        = Outcome.ok ⟨[⟨"X", Double.nan false, TransactionType.Expense⟩]⟩
    ∧ Double.lt (Double.nan false) (Double.finite 0) = false
    ∧ Double.le (Double.finite 0) (Double.nan false) = false := by
  refine ⟨?_, by decide!, by decide!, by decide!⟩
  intro hinv
  have hreach : Reachable (fun _ => True)
      (FinanceManager.empty.addTransaction "X" (Double.nan false)
        TransactionType.Expense).state :=
    Reachable.step Reachable.init (Step.addTransaction _ _ _ _ trivial)
  have h := hinv _ hreach ⟨"X", Double.nan false, TransactionType.Expense⟩ (by decide!)
  revert h
  decide!

/-- C16, amended: as long as `addTransaction` is not called with the amount NaN,
every stored amount satisfies `amount >= 0` in every reachable ledger. The
empty ledger has the property; `addTransaction` with an amount that is not NaN
(whether it returns or throws), `sortByAmount`, `loadFromFile` (whether it
returns or throws) and the read-only members preserve it. With any amount, NaN
included, `addTransaction` never stores an amount below zero. -/
theorem nonNegative_invariant :
    NonNegative FinanceManager.empty
    ∧ (∀ m : FinanceManager, NonNegative m →
        (∀ (category : String) (amount : Double) (type : TransactionType),
          amount.isNaN = false → NonNegative (m.addTransaction category amount type).state)
        ∧ (∀ srt : SortImpl, StdSort srt → NonNegative (m.sortByAmount srt))
        ∧ (∀ file : Option (List Char), NonNegative (m.loadFromFile file).state))
    ∧ (∀ m m' : FinanceManager, NonNegative m → Step (fun x => x.isNaN = false) m m' →
        NonNegative m')
    ∧ (∀ m : FinanceManager, Reachable (fun x => x.isNaN = false) m →
        ∀ t ∈ m.transactions, Double.le (Double.finite 0) t.amount = true)
    ∧ (∀ (m : FinanceManager) (category : String) (amount : Double) (type : TransactionType),
        (∀ t ∈ m.transactions, Double.lt t.amount (Double.finite 0) = false) →
        ∀ t ∈ (m.addTransaction category amount type).state.transactions,
          Double.lt t.amount (Double.finite 0) = false) := by
  have hempty : NonNegative FinanceManager.empty := by
    intro t ht
    simp [FinanceManager.empty] at ht
  have hstep : ∀ m m' : FinanceManager, NonNegative m →
      Step (fun x => x.isNaN = false) m m' → NonNegative m' := by
    intro m m' hm hs
    cases hs with
    | addTransaction category amount type hnum =>
      exact addTransaction_nonNegative m _ _ _ hnum hm
    | sortByAmount srt hsrt => exact sortByAmount_nonNegative hsrt m hm
    | loadFromFile file => exact loadFromFile_nonNegative m file hm
    | readOnly => exact hm
  refine ⟨hempty, fun m hm => ⟨fun category amount type hnum =>
    addTransaction_nonNegative m category amount type hnum hm,
    fun srt hsrt => sortByAmount_nonNegative hsrt m hm,
    fun file => loadFromFile_nonNegative m file hm⟩, hstep, ?_,
    fun m category amount type h => addTransaction_no_negative m category amount type h⟩
  intro m hreach
  induction hreach with
  | init => exact hempty
  | step _ hs ih => exact hstep _ _ ih hs

/-- C18, as stated, fails: the file `A -1e-400 1` / `B 2 1` starts with a
well-formed record whose number is negative, but the number is too small in
magnitude for a `double` and is read as negative zero, which the constructor
accepts; no exception is thrown and both records are loaded. -/
theorem loadFromFile_tiny_negative_loads :
    (¬ ∀ (m : FinanceManager) (content rest rest' : List Char) (recs : List (String × ℚ × ℤ))
        (r : String × ℚ × ℤ), Finance.Reads content recs rest → (∀ x ∈ recs, 0 ≤ x.2.1) →
        Finance.readRecord rest = some (r, rest') → r.2.1 < 0 →
        ∃ s, m.loadFromFile (some content) = Outcome.threw negativeAmountMessage s)
    ∧ Finance.readRecord "A -1e-400 1\nB 2 1\n".data
        = some (("A", -(1 / 10 ^ 400), 1), "\nB 2 1\n".data)
    ∧ FinanceManager.empty.loadFromFile (some "A -1e-400 1\nB 2 1\n".data)
        = Outcome.ok ⟨[⟨"A", Double.negZero, TransactionType.Income⟩,
            ⟨"B", Double.finite 2, TransactionType.Income⟩]⟩ := by
  have hread : Finance.readRecord "A -1e-400 1\nB 2 1\n".data
      = some (("A", -(1 / 10 ^ 400), 1), "\nB 2 1\n".data) := by decide!
  have hload : FinanceManager.empty.loadFromFile (some "A -1e-400 1\nB 2 1\n".data)
      = Outcome.ok ⟨[⟨"A", Double.negZero, TransactionType.Income⟩,
          ⟨"B", Double.finite 2, TransactionType.Income⟩]⟩ := by decide!
  refine ⟨?_, hread, hload⟩
  intro hthrows
  obtain ⟨s, hs⟩ := hthrows FinanceManager.empty "A -1e-400 1\nB 2 1\n".data _ _ []
    ("A", -(1 / 10 ^ 400), 1) (Finance.Reads.done _) (by simp) hread (by norm_num)
  rw [hload] at hs
  exact absurd hs (by simp)

/-- C18, amended: when the file content starts with the records `recs`, none
with an amount below zero, followed by a record `r` (a text field, a number
field and an integer field) whose number is read as a `double` below zero,
`loadFromFile` ends with the exception the constructor throws for `r`, nothing
is written to `cout`, and the ledger at that moment is the previous sequence
followed by exactly the transactions of `recs` (flag 1 Income, any other flag
Expense): `r` and what follows it are not added. A number is read as a `double`
below zero exactly when the number written is below `-2 ^ (-1075)`; a negative
number of smaller magnitude is read as negative zero. -/
theorem loadFromFile_negative_not_atomic (m : FinanceManager) (content rest rest' : List Char)
    (recs : List (String × Double × ℤ)) (r : String × Double × ℤ)
    (hrecords : Records content recs rest)
    (hnonneg : ∀ x ∈ recs, Double.lt x.2.1 (Double.finite 0) = false)
    (hnext : RecordAt rest r rest')
    (hneg : Double.lt r.2.1 (Double.finite 0) = true) :
    m.loadFromFile (some content)
        = Outcome.threw negativeAmountMessage
            { transactions := m.transactions ++ recs.map (fun x =>
                ⟨x.1, x.2.1,
                  if x.2.2 = 1 then TransactionType.Income else TransactionType.Expense⟩) }
    ∧ Transaction.ctor r.1 r.2.1
          (if r.2.2 = 1 then TransactionType.Income else TransactionType.Expense)
        = Except.error negativeAmountMessage
    ∧ (m.loadFromFile (some content)).state.transactions.length
        = m.transactions.length + recs.length
    ∧ m.loadFromFileConsole (some content) = []
    ∧ (∀ (s s' : List Char) (x : Double), NumberField s x s' →
        (Double.lt x (Double.finite 0) = true
          ↔ ∃ q, Finance.extractDouble s = some (q, s') ∧ q < -(2 : ℚ) ^ (-1075 : ℤ))) := by
  have hload := loadFromFile_of_reads_negative m ((records_iff _ _ _).mpr hrecords) hnonneg
    ((recordAt_iff _ _ _).mpr hnext) hneg
  refine ⟨hload, ctor_of_lt _ _ _ hneg, ?_, ?_,
    fun s s' x h => extractDouble_lt_zero_iff ((numberField_iff _ _ _).mpr h)⟩
  · rw [hload]
    simp [Outcome.state]
  · simp only [FinanceManager.loadFromFile] at hload
    simp only [FinanceManager.loadFromFileConsole, hload]

/-- C18, amended, on a file whose second record has the amount -7, loaded into a
ledger that holds `Old 1 Income`: the first record is kept, `Rent` and `Salary`
are not added. -/
theorem loadFromFile_negative_not_atomic_witness :
    (FinanceManager.mk [⟨"Old", Double.finite 1, TransactionType.Income⟩]).loadFromFile
        (some "Food 5 0\nRent -7 1\nSalary 9 1\n".data)
      = Outcome.threw "Amount cannot be negative!"
          ⟨[⟨"Old", Double.finite 1, TransactionType.Income⟩,
            ⟨"Food", Double.finite 5, TransactionType.Expense⟩]⟩ :=
  (loadFromFile_negative_not_atomic _ _ "\nRent -7 1\nSalary 9 1\n".data
    "\nSalary 9 1\n".data [("Food", Double.finite 5, 0)] ("Rent", Double.finite (-7), 1)
    ((records_iff _ _ _).mp (Reads.step (by decide!) (Reads.done _))) (by decide!)
    ((recordAt_iff _ _ _).mp (by decide!)) (by decide!)).1

/-- C12, as stated, fails in two ways. A category may contain a line feed: the
one transaction `a\nb 5 Expense` is written as the two lines `a` and `b 5 0`.
An amount may be infinite or NaN, which the constructor accepts: it is written
as `inf` or `nan`, not as a decimal number. -/
theorem saveToFile_not_one_line_each :
    (¬ ∀ (m : FinanceManager) (previous : Option (List Char)),
        (m.saveToFile previous).file.count '\n' = m.transactions.length)
    ∧ (¬ ∀ x : Double, ∀ c ∈ formatDouble x, isNumberChar c = true)
    ∧ ((FinanceManager.mk [⟨"a\nb", Double.finite 5, TransactionType.Expense⟩]).saveToFile
          none).file = "a\nb 5 0\n".data
    ∧ splitLines ((FinanceManager.mk
          [⟨"a\nb", Double.finite 5, TransactionType.Expense⟩]).saveToFile none).file
        = ["a".data, "b 5 0".data, []]
    ∧ FinanceManager.empty.addTransaction "X" Double.posInf TransactionType.Income
        = Outcome.ok ⟨[⟨"X", Double.posInf, TransactionType.Income⟩]⟩
    ∧ ((FinanceManager.mk [⟨"X", Double.posInf, TransactionType.Income⟩,
          ⟨"Y", Double.nan false, TransactionType.Expense⟩]).saveToFile none).file
        = "X inf 1\nY nan 0\n".data := by
  refine ⟨?_, ?_, by decide!, by decide!, by decide!, by decide!⟩
  · intro hlines
    have h := hlines (FinanceManager.mk [⟨"a\nb", Double.finite 5, TransactionType.Expense⟩])
      none
    revert h
    decide!
  · intro hchars
    have h := hchars Double.posInf 'i' (by decide)
    revert h
    decide

/-- C12, amended: for every ledger whose categories contain no line feed and
whatever `finance.txt` held before, the file after `saveToFile` consists of
exactly one line per stored transaction, in stored order, each line being the
category, a space, the amount as `operator<<` writes a `double`, a space and
the flag `1` for Income or `0` for Expense, each line ended by a line feed. A
finite amount is written as a decimal number (digits, point, `e` and signs
only), negative zero as `-0`, an infinite amount as `inf` or `-inf` and NaN as
`nan` or `-nan`. The previous content plays no part and the ledger is
unchanged. -/
theorem saveToFile_format (m : FinanceManager) (previous : Option (List Char))
    (hcat : ∀ t ∈ m.transactions, '\n' ∉ t.category.data) :
    (m.saveToFile previous).file
        = (m.transactions.map (fun t =>
            t.category.data ++ [' '] ++ formatDouble t.amount ++ [' ']
              ++ [if t.type = TransactionType.Income then '1' else '0'] ++ ['\n'])).flatten
    ∧ splitLines (m.saveToFile previous).file
        = m.transactions.map (fun t =>
            t.category.data ++ [' '] ++ formatDouble t.amount ++ [' ']
              ++ [if t.type = TransactionType.Income then '1' else '0']) ++ [[]]
    ∧ (m.saveToFile previous).file.count '\n' = m.transactions.length
    ∧ (∀ q : ℚ, formatDouble (Double.finite q) = Finance.formatDouble q
        ∧ ∀ c ∈ formatDouble (Double.finite q), isNumberChar c = true)
    ∧ (formatDouble Double.negZero = "-0".data ∧ formatDouble Double.posInf = "inf".data
        ∧ formatDouble Double.negInf = "-inf".data
        ∧ formatDouble (Double.nan false) = "nan".data
        ∧ formatDouble (Double.nan true) = "-nan".data)
    ∧ (∀ other : Option (List Char), (m.saveToFile other).file = (m.saveToFile previous).file)
    ∧ (m.saveToFile previous).ledger = m := by
  have hfile : (m.saveToFile previous).file
      = (m.transactions.map (fun t =>
          t.category.data ++ [' '] ++ formatDouble t.amount ++ [' ']
            ++ [if t.type = TransactionType.Income then '1' else '0'] ++ ['\n'])).flatten := by
    rw [saveToFile_file]
    rfl
  refine ⟨hfile, ?_, ?_, fun q => ⟨rfl, formatDouble_numberChar q⟩,
    ⟨rfl, rfl, rfl, rfl, rfl⟩, ?_, rfl⟩
  · have hmap : m.transactions.map (fun t =>
          t.category.data ++ [' '] ++ formatDouble t.amount ++ [' ']
            ++ [if t.type = TransactionType.Income then '1' else '0'] ++ ['\n'])
        = (m.transactions.map (fun t =>
          t.category.data ++ [' '] ++ formatDouble t.amount ++ [' ']
            ++ [if t.type = TransactionType.Income then '1' else '0'])).map
            (fun line => line ++ ['\n']) := by
      rw [List.map_map]
      rfl
    rw [hfile, hmap]
    apply splitLines_flatten_lines
    intro line hline
    obtain ⟨t, ht, rfl⟩ := List.mem_map.mp hline
    intro hmem
    simp only [List.mem_append, List.mem_singleton] at hmem
    rcases hmem with (((hmem | hmem) | hmem) | hmem) | hmem
    · exact hcat t ht hmem
    · exact absurd hmem (by decide)
    · exact formatDouble_no_lineFeed _ hmem
    · exact absurd hmem (by decide)
    · split_ifs at hmem <;> exact absurd hmem (by decide)
  · rw [saveToFile_file]
    exact count_lineFeed_flatten m.transactions hcat
  · intro other
    rw [saveToFile_file, saveToFile_file]

/-- C12, amended, on the ledger `Food 50 Expense`, `Salary 2000.5 Income`,
`Gift inf Income` saved over a file that held `old`. -/
theorem saveToFile_format_witness :
    (∀ t ∈ (FinanceManager.mk [⟨"Food", Double.finite 50, TransactionType.Expense⟩,
        ⟨"Salary", Double.finite 2000.5, TransactionType.Income⟩,
        ⟨"Gift", Double.posInf, TransactionType.Income⟩]).transactions,
      '\n' ∉ t.category.data)
    ∧ ((FinanceManager.mk [⟨"Food", Double.finite 50, TransactionType.Expense⟩,
        ⟨"Salary", Double.finite 2000.5, TransactionType.Income⟩,
        ⟨"Gift", Double.posInf, TransactionType.Income⟩]).saveToFile (some "old".data)).file
      = "Food 50 0\nSalary 2000.5 1\nGift inf 1\n".data :=
  ⟨by decide, ((saveToFile_format _ (some "old".data) (by decide)).1).trans (by decide!)⟩

end Ieee

end Finance
